import Mathlib

/-!
Verification of the `skiplist` Go repository (github.com/adriansahlman/skiplist)
against its natural-language specification.

The repository contains several variants of the same skip-list engine:

* `skiplist.go` : key/value nodes with a fixed `MaxLevel = 32` lane array,
  optional hash index (off by default, `WithHashmap` turns it on).
* `part_005` ("Element" variant) : key/value elements with slice lanes,
  configurable `maxLevel`, hash index on by default, optional thread safety,
  nearest-match queries (`Before`/`After`/`AtOrBefore`/`AtOrAfter`).
* `part_006` : key/value nodes with slice lanes, fixed `MaxLevel = 32`,
  optional hash index.

Pointer-linked heaps are embedded as arenas: nodes live in a `List` indexed by
`Nat` identifiers, a `*Node` becomes an `Option Nat` (with `none` for `nil`),
and each Go pointer write becomes a functional arena update.  Go's `rand.Rand`
is modelled as an injected oracle (a stream of sampled words / trial
outcomes), and Go `float64` probabilities are modelled as rationals (the only
probability the code compares against, `0.5`, is exact in both).  Loops whose
termination depends on heap shape take explicit fuel; the fuel is always
chosen large enough for every well-formed heap, which is proved where needed.
-/

set_option maxRecDepth 10000
set_option linter.unusedSectionVars false

namespace SkiplistVerification

/-- Fuel-based helper for `trailingOnes`; the fuel only decreases while the
argument is odd, and `trailingOnes` passes the argument itself as fuel,
which always suffices. -/
def trailingOnesAux : Nat → Nat → Nat
  | 0, _ => 0
  | fuel + 1, n => if n % 2 = 1 then trailingOnesAux fuel (n / 2) + 1 else 0

/-- Counts the trailing one bits of a natural number.  This is the loop
`for ; result&1 == 1; result >>= 1 { n++ }` shared by
`sampleCoinflipGeoDist32` (`skiplist.go`), `sampleGeometricDistribution`
(`part_006`) and the fast path of `randomLevel` (`part_005`). -/
def trailingOnes (n : Nat) : Nat :=
  trailingOnesAux n n

theorem trailingOnesAux_le_of_lt_two_pow :
    ∀ (fuel n j : Nat), n < 2 ^ j → trailingOnesAux fuel n ≤ j := by
  intro fuel
  induction fuel with
  | zero =>
    intro n j hn
    simp [trailingOnesAux]
  | succ fuel ih =>
    intro n j hn
    rw [trailingOnesAux]
    by_cases h : n % 2 = 1
    · rw [if_pos h]
      have hj : 1 ≤ j := by
        rcases Nat.eq_zero_or_pos j with hj0 | hj1
        · subst hj0; simp at hn; omega
        · exact hj1
      have hdiv : n / 2 < 2 ^ (j - 1) := by
        have h2 : (0:Nat) < 2 := by omega
        rw [Nat.div_lt_iff_lt_mul h2]
        calc n < 2 ^ j := hn
        _ = 2 ^ (j - 1) * 2 := by
              rw [← pow_succ]
              congr 1
              omega
      have := ih (n / 2) (j - 1) hdiv
      omega
    · simp [h]

theorem trailingOnes_le_of_lt_two_pow (j n : Nat) (h : n < 2 ^ j) :
    trailingOnes n ≤ j :=
  trailingOnesAux_le_of_lt_two_pow n n j h

namespace Walk

/-!
Generic theory of the level-descending walks shared by the variants.  A heap
is abstracted by its lane-successor function
`lane : Option Nat → Nat → Option Nat` (position `none` is the header) and
its key function `key : Nat → Option K`.  The variant operations instantiate
the loop definitions below with their state readers; the loops themselves
are the direct translations of the Go `for` loops.
-/

variable {K : Type} [LinearOrder K]

/-- The Go loop condition `lanes[level] != nil && lanes[level].key < key`,
restricted to its key part. -/
def keyLT (key : Nat → Option K) (j : Nat) (k : K) : Bool :=
  match key j with
  | some kj => decide (kj < k)
  | none => false

/-- The non-strict variant `lanes[level].key <= key` used by the floor
descents of `part_005`. -/
def keyLE (key : Nat → Option K) (j : Nat) (k : K) : Bool :=
  match key j with
  | some kj => decide (kj ≤ k)
  | none => false

/-- Key comparison between two nodes (both keys must exist). -/
def nodeLT (key : Nat → Option K) (a b : Nat) : Bool :=
  match key a, key b with
  | some ka, some kb => decide (ka < kb)
  | _, _ => false

/-- The inner advance loop of `skiplist.go` (`Set`, `Remove`, `Search`):
`for ; lanes[level] != nil && lanes[level].key < key; lanes = &lanes[level].lanes`. -/
def advanceLT (lane : Option Nat → Nat → Option Nat) (key : Nat → Option K)
    (k : K) (level : Nat) : Nat → Option Nat → Option Nat
  | 0, p => p
  | fuel + 1, p =>
    match lane p level with
    | some j =>
      match key j with
      | some kj => if kj < k then advanceLT lane key k level fuel (some j) else p
      | none => p
    | none => p

/-- The level loop of `Search` (`skiplist.go`), from level `n - 1` down
to 0. -/
def searchLoop (lane : Option Nat → Nat → Option Nat) (key : Nat → Option K)
    (k : K) (fuel : Nat) : Nat → Option Nat → Option Nat
  | 0, p => p
  | n + 1, p => searchLoop lane key k fuel n (advanceLT lane key k n fuel p)

/-- The floor descent of `part_005` (`get`, `AtOrBefore`, `AtOrAfter`):
`n` is `level + 1`, `elem` is both the running result and the lanes
pointer.  Advancing keeps the level (`level++` then the loop's `level--`);
otherwise the level drops. -/
def floorLoop (lane : Option Nat → Nat → Option Nat) (key : Nat → Option K)
    (k : K) : Nat → Nat → Option Nat → Option Nat
  | 0, _, elem => elem
  | _ + 1, 0, elem => elem
  | fuel + 1, n + 1, elem =>
    match lane elem n with
    | some j =>
      match key j with
      | some kj =>
        if kj ≤ k then floorLoop lane key k fuel (n + 1) (some j)
        else floorLoop lane key k fuel n elem
      | none => floorLoop lane key k fuel n elem
    | none => floorLoop lane key k fuel n elem

/-- The lagged advance of `Remove` (`part_005`):
`for next != nil && next.key < key { lanes, next = next.lanes, lanes[level] }`. -/
def removeAdvance (lane : Option Nat → Nat → Option Nat) (key : Nat → Option K)
    (k : K) (level : Nat) : Nat → Option Nat → Option Nat →
    Option Nat × Option Nat
  | 0, pos, next => (pos, next)
  | fuel + 1, pos, next =>
    match next with
    | some j =>
      match key j with
      | some kj =>
        if kj < k then
          removeAdvance lane key k level fuel (some j) (lane pos level)
        else (pos, next)
      | none => (pos, next)
    | none => (pos, next)

/-- Chases a lane from a position, with fuel. -/
def chase (lane : Option Nat → Nat → Option Nat) (L : Nat) :
    Nat → Option Nat → List Nat
  | 0, _ => []
  | fuel + 1, p =>
    match lane p L with
    | none => []
    | some j => j :: chase lane L fuel (some j)

/-- `isChain lane L p r` says: following lane `L` from position `p` visits
exactly the nodes of `r` in order and then stops. -/
def isChain (lane : Option Nat → Nat → Option Nat) (L : Nat) :
    Option Nat → List Nat → Prop
  | p, [] => lane p L = none
  | p, a :: t => lane p L = some a ∧ isChain lane L (some a) t

instance isChain.instDecidable (lane : Option Nat → Nat → Option Nat)
    (L : Nat) : ∀ (p : Option Nat) (r : List Nat),
    Decidable (isChain lane L p r)
  | p, [] => by unfold isChain; infer_instance
  | p, a :: t => by
    unfold isChain
    have := isChain.instDecidable lane L (some a) t
    infer_instance

/-- The first node at or after key `k` on the sorted node list. -/
def ceilSpec (key : Nat → Option K) (k : K) (ns : List Nat) : Option Nat :=
  (ns.dropWhile (fun j => keyLT key j k)).head?

/-- The last node at or before key `k` on the sorted node list. -/
def floorSpec (key : Nat → Option K) (k : K) (ns : List Nat) : Option Nat :=
  (ns.takeWhile (fun j => keyLE key j k)).getLast?

theorem isChain_suffix (lane : Option Nat → Nat → Option Nat) (L : Nat) :
    ∀ (r₁ : List Nat) (p : Option Nat) (a : Nat) (r₂ : List Nat),
      isChain lane L p (r₁ ++ a :: r₂) → isChain lane L (some a) r₂ := by
  intro r₁
  induction r₁ with
  | nil =>
    intro p a r₂ h
    exact h.2
  | cons b t ih =>
    intro p a r₂ h
    exact ih (some b) a r₂ h.2

theorem isChain_deterministic (lane : Option Nat → Nat → Option Nat)
    (L : Nat) : ∀ (r₁ : List Nat) (p : Option Nat) (r₂ : List Nat),
      isChain lane L p r₁ → isChain lane L p r₂ → r₁ = r₂ := by
  intro r₁
  induction r₁ with
  | nil =>
    intro p r₂ h₁ h₂
    cases r₂ with
    | nil => rfl
    | cons b t =>
      exact absurd (h₁.symm.trans h₂.1) (by simp)
  | cons a t ih =>
    intro p r₂ h₁ h₂
    cases r₂ with
    | nil => exact absurd (h₂.symm.trans h₁.1) (by simp)
    | cons b u =>
      have hab : a = b := by
        have := h₁.1.symm.trans h₂.1
        simpa using this
      subst hab
      rw [ih (some a) u h₁.2 h₂.2]

theorem chase_of_isChain (lane : Option Nat → Nat → Option Nat) (L : Nat) :
    ∀ (r : List Nat) (p : Option Nat) (fuel : Nat),
      isChain lane L p r → r.length ≤ fuel → chase lane L fuel p = r := by
  intro r
  induction r with
  | nil =>
    intro p fuel h hf
    cases fuel with
    | zero => rfl
    | succ fuel =>
      have h' : lane p L = none := h
      simp [chase, h']
  | cons a t ih =>
    intro p fuel h hf
    cases fuel with
    | zero => simp at hf
    | succ fuel =>
      simp only [chase, h.1]
      rw [ih (some a) fuel h.2 (by simpa using hf)]

/-- `foldl`-style landing value of an advance: the last node of the list,
or the start position when the list is empty. -/
def landOn (p : Option Nat) (r : List Nat) : Option Nat :=
  r.foldl (fun _ j => some j) p

theorem landOn_nil (p : Option Nat) : landOn p [] = p := rfl

theorem landOn_cons (p : Option Nat) (a : Nat) (r : List Nat) :
    landOn p (a :: r) = landOn (some a) r := rfl

theorem landOn_mem (p : Option Nat) :
    ∀ (r : List Nat), landOn p r = p ∨ ∃ a ∈ r, landOn p r = some a := by
  intro r
  induction r generalizing p with
  | nil => exact Or.inl rfl
  | cons a t ih =>
    rcases ih (some a) with h | ⟨b, hb, hb2⟩
    · exact Or.inr ⟨a, by simp, by rw [landOn_cons, h]⟩
    · exact Or.inr ⟨b, by simp [hb], by rw [landOn_cons, hb2]⟩

theorem takeWhile_all {α : Type} (pred : α → Bool) :
    ∀ (l : List α), (∀ x ∈ l, pred x = true) → l.takeWhile pred = l := by
  intro l
  induction l with
  | nil => intro _; rfl
  | cons a t ih =>
    intro h
    simp [List.takeWhile_cons, h a (by simp),
      ih (fun x hx => h x (by simp [hx]))]

theorem dropWhile_append_all {α : Type} (pred : α → Bool) :
    ∀ (l₁ l₂ : List α), (∀ x ∈ l₁, pred x = true) →
      (l₁ ++ l₂).dropWhile pred = l₂.dropWhile pred := by
  intro l₁
  induction l₁ with
  | nil => intro l₂ _; rfl
  | cons a t ih =>
    intro l₂ h
    simp only [List.cons_append, List.dropWhile_cons, h a (by simp)]
    exact ih l₂ (fun x hx => h x (by simp [hx]))

theorem takeWhile_append_all {α : Type} (pred : α → Bool) :
    ∀ (l₁ l₂ : List α), (∀ x ∈ l₁, pred x = true) →
      (l₁ ++ l₂).takeWhile pred = l₁ ++ l₂.takeWhile pred := by
  intro l₁
  induction l₁ with
  | nil => intro l₂ _; rfl
  | cons a t ih =>
    intro l₂ h
    simp [List.cons_append, List.takeWhile_cons, h a (by simp),
      ih l₂ (fun x hx => h x (by simp [hx]))]

theorem advanceLT_spec (lane : Option Nat → Nat → Option Nat)
    (key : Nat → Option K) (k : K) (L : Nat) :
    ∀ (r : List Nat) (p : Option Nat) (fuel : Nat),
      isChain lane L p r → r.length ≤ fuel →
      advanceLT lane key k L fuel p =
        landOn p (r.takeWhile (fun j => keyLT key j k)) ∧
      isChain lane L (advanceLT lane key k L fuel p)
        (r.dropWhile (fun j => keyLT key j k)) := by
  intro r
  induction r with
  | nil =>
    intro p fuel h hf
    have h' : lane p L = none := h
    have hstop : advanceLT lane key k L fuel p = p := by
      cases fuel with
      | zero => rfl
      | succ f => simp [advanceLT, h']
    refine ⟨by simp [hstop, landOn_nil], ?_⟩
    rw [hstop]
    exact h
  | cons a t ih =>
    intro p fuel h hf
    cases fuel with
    | zero => simp at hf
    | succ f =>
      have hlane : lane p L = some a := h.1
      cases hk : key a with
      | none =>
        have hklt : keyLT key a k = false := by simp [keyLT, hk]
        have hstop : advanceLT lane key k L (f + 1) p = p := by
          simp [advanceLT, hlane, hk]
        refine ⟨by simp [hstop, List.takeWhile_cons, hklt, landOn_nil], ?_⟩
        rw [hstop]
        simpa [List.dropWhile_cons, hklt] using h
      | some ka =>
        by_cases hlt : ka < k
        · have hklt : keyLT key a k = true := by simp [keyLT, hk, hlt]
          have hstep : advanceLT lane key k L (f + 1) p =
              advanceLT lane key k L f (some a) := by
            simp [advanceLT, hlane, hk, hlt]
          have := ih (some a) f h.2 (by simpa using hf)
          refine ⟨?_, ?_⟩
          · rw [hstep, this.1]
            simp [List.takeWhile_cons, hklt, landOn_cons]
          · rw [hstep]
            simpa [List.dropWhile_cons, hklt] using this.2
        · have hklt : keyLT key a k = false := by simp [keyLT, hk, hlt]
          have hstop : advanceLT lane key k L (f + 1) p = p := by
            simp [advanceLT, hlane, hk, hlt]
          refine ⟨by simp [hstop, List.takeWhile_cons, hklt, landOn_nil], ?_⟩
          rw [hstop]
          simpa [List.dropWhile_cons, hklt] using h

/-- Well-formedness of the multi-level lane structure, relative to the node
list `ns` (the lane-0 order) and the per-level chains `lanesAt`:
every level below `numLevels` forms a chain from the header, each chain is a
sub-sequence of `ns`, a node on a level is also on every lower level, keys
exist and strictly increase along `ns`. -/
structure LaneWF (lane : Option Nat → Nat → Option Nat) (key : Nat → Option K)
    (numLevels : Nat) (ns : List Nat) (lanesAt : Nat → List Nat) : Prop where
  one_le : 1 ≤ numLevels
  lanes_zero : lanesAt 0 = ns
  chains : ∀ L, L < numLevels → isChain lane L none (lanesAt L)
  mono : ∀ L, L < numLevels → ∀ a, a ∈ lanesAt (L + 1) → a ∈ lanesAt L
  sub : ∀ L, L < numLevels → (lanesAt L).Sublist ns
  sorted : ns.Pairwise (fun a b => nodeLT key a b = true)
  keys : ∀ a, a ∈ ns → (key a).isSome

/-- Position invariant of the strict (ceiling) descent: the position is the
header or a node on the current level's chain with key below the target. -/
def InvAt (lanesAt : Nat → List Nat) (key : Nat → Option K) (k : K)
    (L : Nat) (p : Option Nat) : Prop :=
  p = none ∨ ∃ a, p = some a ∧ a ∈ lanesAt L ∧ keyLT key a k = true

/-- Position invariant of the non-strict (floor) descent. -/
def InvLEAt (lanesAt : Nat → List Nat) (key : Nat → Option K) (k : K)
    (L : Nat) (p : Option Nat) : Prop :=
  p = none ∨ ∃ a, p = some a ∧ a ∈ lanesAt L ∧ keyLE key a k = true

theorem isChain_head (lane : Option Nat → Nat → Option Nat) (L : Nat)
    (p : Option Nat) (r : List Nat) (h : isChain lane L p r) :
    lane p L = r.head? := by
  cases r with
  | nil => exact h
  | cons a t => exact h.1

theorem keyLT_of_nodeLT_keyLT {key : Nat → Option K} {x a : Nat} {k : K}
    (hx : nodeLT key x a = true) (ha : keyLT key a k = true) :
    keyLT key x k = true := by
  unfold nodeLT at hx
  unfold keyLT at ha ⊢
  cases hkx : key x with
  | none => rw [hkx] at hx; simp at hx
  | some kx =>
    cases hka : key a with
    | none => rw [hka] at ha; simp at ha
    | some ka =>
      rw [hkx, hka] at hx
      rw [hka] at ha
      simp only [decide_eq_true_eq] at hx ha ⊢
      exact lt_trans hx ha

theorem keyLE_of_nodeLT_keyLE {key : Nat → Option K} {x a : Nat} {k : K}
    (hx : nodeLT key x a = true) (ha : keyLE key a k = true) :
    keyLE key x k = true := by
  unfold nodeLT at hx
  unfold keyLE at ha ⊢
  cases hkx : key x with
  | none => rw [hkx] at hx; simp at hx
  | some kx =>
    cases hka : key a with
    | none => rw [hka] at ha; simp at ha
    | some ka =>
      rw [hkx, hka] at hx
      rw [hka] at ha
      simp only [decide_eq_true_eq] at hx ha ⊢
      exact le_of_lt (lt_of_lt_of_le hx ha)

theorem keyLE_of_keyLT {key : Nat → Option K} {a : Nat} {k : K}
    (h : keyLT key a k = true) : keyLE key a k = true := by
  unfold keyLT at h
  unfold keyLE
  cases hka : key a with
  | none => rw [hka] at h; simp at h
  | some ka =>
    rw [hka] at h
    simp only [decide_eq_true_eq] at h ⊢
    exact le_of_lt h

section Runs

variable {lane : Option Nat → Nat → Option Nat} {key : Nat → Option K}
  {numLevels : Nat} {ns : List Nat} {lanesAt : Nat → List Nat}

theorem exists_suffix_chain
    (W : LaneWF lane key numLevels ns lanesAt) {L : Nat}
    (hL : L < numLevels) {a : Nat} (ha : a ∈ lanesAt L) :
    ∃ pre suf, lanesAt L = pre ++ a :: suf ∧ isChain lane L (some a) suf := by
  obtain ⟨pre, suf, h⟩ := List.append_of_mem ha
  refine ⟨pre, suf, h, ?_⟩
  have hc := W.chains L hL
  rw [h] at hc
  exact isChain_suffix lane L pre none a suf hc

theorem advance_invAt
    (W : LaneWF lane key numLevels ns lanesAt) {k : K} {fuel : Nat}
    (hfuel : ns.length ≤ fuel) {L : Nat} (hL : L < numLevels)
    {p : Option Nat} (h : InvAt lanesAt key k L p) :
    InvAt lanesAt key k L (advanceLT lane key k L fuel p) := by
  have hsub := W.sub L hL
  rcases h with hp | ⟨a, hp, ha, hklt⟩
  · subst hp
    have hc := W.chains L hL
    have hlen : (lanesAt L).length ≤ fuel :=
      le_trans hsub.length_le hfuel
    obtain ⟨hland, _⟩ := advanceLT_spec lane key k L (lanesAt L) none fuel hc hlen
    rw [hland]
    rcases landOn_mem none (List.takeWhile (fun j => keyLT key j k) (lanesAt L))
      with hL0 | ⟨b, hb, hb2⟩
    · exact Or.inl hL0
    · refine Or.inr ⟨b, hb2, ?_, ?_⟩
      · exact ((List.takeWhile_sublist _).subset hb : b ∈ lanesAt L)
      · simpa using List.mem_takeWhile_imp hb
  · subst hp
    obtain ⟨pre, suf, hsplit, hc⟩ := exists_suffix_chain W hL ha
    have hlen : suf.length ≤ fuel := by
      have h1 : suf.length ≤ (lanesAt L).length := by
        rw [hsplit]; simp; omega
      exact le_trans h1 (le_trans hsub.length_le hfuel)
    obtain ⟨hland, _⟩ := advanceLT_spec lane key k L suf (some a) fuel hc hlen
    rw [hland]
    rcases landOn_mem (some a) (List.takeWhile (fun j => keyLT key j k) suf)
      with hL0 | ⟨b, hb, hb2⟩
    · rw [hL0]; exact Or.inr ⟨a, rfl, ha, hklt⟩
    · refine Or.inr ⟨b, hb2, ?_, ?_⟩
      · have : b ∈ suf := (List.takeWhile_sublist _).subset hb
        rw [hsplit]
        simp [this]
      · simpa using List.mem_takeWhile_imp hb

theorem advance_zero_ceil
    (W : LaneWF lane key numLevels ns lanesAt) {k : K} {fuel : Nat}
    (hfuel : ns.length ≤ fuel) {p : Option Nat}
    (h : InvAt lanesAt key k 0 p) :
    lane (advanceLT lane key k 0 fuel p) 0 = ceilSpec key k ns := by
  have h0 : (0 : Nat) < numLevels := W.one_le
  rcases h with hp | ⟨a, hp, ha, hklt⟩
  · subst hp
    have hc := W.chains 0 h0
    rw [W.lanes_zero] at hc
    have hlen : ns.length ≤ fuel := hfuel
    obtain ⟨_, hchain⟩ := advanceLT_spec lane key k 0 ns none fuel hc hlen
    rw [isChain_head _ _ _ _ hchain]
    rfl
  · subst hp
    rw [W.lanes_zero] at ha
    obtain ⟨pre, suf, hsplit, hc⟩ := by
      have := exists_suffix_chain W h0 (by rw [W.lanes_zero]; exact ha)
      rwa [W.lanes_zero] at this
    have hlen : suf.length ≤ fuel := by
      have h1 : suf.length ≤ ns.length := by rw [hsplit]; simp; omega
      exact le_trans h1 hfuel
    obtain ⟨_, hchain⟩ := advanceLT_spec lane key k 0 suf (some a) fuel hc hlen
    rw [isChain_head _ _ _ _ hchain]
    unfold ceilSpec
    rw [hsplit]
    have hpre : ∀ x ∈ pre ++ [a], keyLT key x k = true := by
      intro x hx
      rcases List.mem_append.mp hx with hx | hx
      · have hsorted := W.sorted
        rw [hsplit] at hsorted
        rw [List.pairwise_append] at hsorted
        exact keyLT_of_nodeLT_keyLT (hsorted.2.2 x hx a (by simp)) hklt
      · simp at hx
        subst hx
        exact hklt
    have : pre ++ a :: suf = (pre ++ [a]) ++ suf := by simp
    rw [this, dropWhile_append_all _ (pre ++ [a]) suf hpre]

theorem searchLoop_ceil
    (W : LaneWF lane key numLevels ns lanesAt) {k : K} {fuel : Nat}
    (hfuel : ns.length ≤ fuel) :
    ∀ n, n ≤ numLevels → 1 ≤ n → ∀ p, InvAt lanesAt key k n p →
      lane (searchLoop lane key k fuel n p) 0 = ceilSpec key k ns := by
  intro n
  induction n with
  | zero => intro _ h1; omega
  | succ m ih =>
    intro hle _ p hInv
    have hmlt : m < numLevels := by omega
    have hInvm : InvAt lanesAt key k m p := by
      rcases hInv with hp | ⟨a, hp, ha, hklt⟩
      · exact Or.inl hp
      · exact Or.inr ⟨a, hp, W.mono m hmlt a ha, hklt⟩
    have hInv' := advance_invAt W hfuel hmlt hInvm
    rw [searchLoop]
    cases m with
    | zero =>
      rw [searchLoop]
      exact advance_zero_ceil W hfuel hInvm
    | succ mm =>
      exact ih (by omega) (by omega) _ hInv'

theorem nodeLT_asymm {key : Nat → Option K} {a b : Nat}
    (hab : nodeLT key a b = true) (hba : nodeLT key b a = true) : False := by
  unfold nodeLT at hab hba
  cases hka : key a <;> rw [hka] at hab hba <;>
    cases hkb : key b <;> rw [hkb] at hab hba <;> simp_all
  exact absurd (lt_trans hab hba) (lt_irrefl _)

theorem nodeLT_irrefl {key : Nat → Option K} {a : Nat}
    (h : nodeLT key a a = true) : False := by
  unfold nodeLT at h
  cases hka : key a <;> rw [hka] at h <;> simp_all

theorem indexOf_lt_of_sorted {key : Nat → Option K} :
    ∀ (l : List Nat), l.Pairwise (fun a b => nodeLT key a b = true) →
      ∀ a b, a ∈ l → b ∈ l → nodeLT key a b = true →
      l.indexOf a < l.indexOf b := by
  intro l
  induction l with
  | nil => intro _ a b ha; simp at ha
  | cons c t ih =>
    intro hp a b ha hb hab
    have hhead := (List.pairwise_cons.mp hp).1
    have htail := (List.pairwise_cons.mp hp).2
    by_cases hac : a = c
    · subst hac
      by_cases hbc : b = a
      · subst hbc; exact absurd hab (fun h => nodeLT_irrefl h)
      · have hbt : b ∈ t := by
          rcases List.mem_cons.mp hb with h | h
          · exact absurd h hbc
          · exact h
        rw [List.indexOf_cons_self]
        rw [List.indexOf_cons_ne _ (fun h => hbc h.symm)]
        omega
    · have hat : a ∈ t := by
        rcases List.mem_cons.mp ha with h | h
        · exact absurd h hac
        · exact h
      by_cases hbc : b = c
      · subst hbc
        exact absurd hab (fun h => nodeLT_asymm h (hhead a hat))
      · have hbt : b ∈ t := by
          rcases List.mem_cons.mp hb with h | h
          · exact absurd h hbc
          · exact h
        rw [List.indexOf_cons_ne _ (fun h => hac h.symm)]
        rw [List.indexOf_cons_ne _ (fun h => hbc h.symm)]
        have := ih htail a b hat hbt hab
        omega

/-- Termination measure of the floor descent: distance to the end of the
node list. -/
def measureIdx (ns : List Nat) : Option Nat → Nat
  | none => ns.length + 1
  | some a => ns.length - ns.indexOf a

end Runs

section Runs2

variable {lane : Option Nat → Nat → Option Nat} {key : Nat → Option K}
  {numLevels : Nat} {ns : List Nat} {lanesAt : Nat → List Nat}

theorem measure_lt_none
    {a : Nat} (ha : a ∈ ns) :
    measureIdx ns (some a) < measureIdx ns none := by
  simp only [measureIdx]
  have := List.indexOf_lt_length.mpr ha
  omega

theorem measure_lt_some
    (W : LaneWF lane key numLevels ns lanesAt)
    {a b : Nat} (ha : a ∈ ns) (hb : b ∈ ns) (hab : nodeLT key a b = true) :
    measureIdx ns (some b) < measureIdx ns (some a) := by
  simp only [measureIdx]
  have h1 := indexOf_lt_of_sorted ns W.sorted a b ha hb hab
  have h2 := List.indexOf_lt_length.mpr hb
  omega

theorem floorLoop_zero (lane : Option Nat → Nat → Option Nat)
    (key : Nat → Option K) (k : K) :
    ∀ (f : Nat) (elem : Option Nat), floorLoop lane key k f 0 elem = elem := by
  intro f elem
  cases f <;> rfl

/-- Exactness of the floor at the moment the level-0 scan stops: the current
element is the floor when its lane-0 successor is missing or has a key above
the target. -/
theorem floor_stop_exact
    (W : LaneWF lane key numLevels ns lanesAt) {k : K} {elem : Option Nat}
    (hInv : InvLEAt lanesAt key k 0 elem)
    (hstop : lane elem 0 = none ∨
      ∃ j, lane elem 0 = some j ∧ keyLE key j k = false) :
    elem = floorSpec key k ns := by
  have h0 : (0 : Nat) < numLevels := W.one_le
  rcases hInv with hp | ⟨a, hp, ha, hle⟩
  · subst hp
    have hc := W.chains 0 h0
    rw [W.lanes_zero] at hc
    have hhead := isChain_head _ _ _ _ hc
    unfold floorSpec
    cases hns : ns with
    | nil => simp
    | cons j rest =>
      rw [hns] at hhead
      simp only [List.head?] at hhead
      rcases hstop with hnone | ⟨j', hj', hjle⟩
      · rw [hnone] at hhead; simp at hhead
      · rw [hj'] at hhead
        have : j' = j := by simpa using hhead
        subst this
        simp [List.takeWhile_cons, hjle]
  · subst hp
    rw [W.lanes_zero] at ha
    obtain ⟨pre, suf, hsplit, hc⟩ := by
      have ha0 : a ∈ lanesAt 0 := by rw [W.lanes_zero]; exact ha
      have := exists_suffix_chain W h0 ha0
      rwa [W.lanes_zero] at this
    have hhead := isChain_head _ _ _ _ hc
    have hpre : ∀ x ∈ pre, keyLE key x k = true := by
      intro x hx
      have hsorted := W.sorted
      rw [hsplit] at hsorted
      rw [List.pairwise_append] at hsorted
      exact keyLE_of_nodeLT_keyLE (hsorted.2.2 x hx a (by simp)) hle
    have hsuf : suf.takeWhile (fun j => keyLE key j k) = [] := by
      cases hsufe : suf with
      | nil => rfl
      | cons j rest =>
        rw [hsufe] at hhead
        simp only [List.head?] at hhead
        rcases hstop with hnone | ⟨j', hj', hjle⟩
        · rw [hnone] at hhead; simp at hhead
        · rw [hj'] at hhead
          have : j' = j := by simpa using hhead
          subst this
          simp [List.takeWhile_cons, hjle]
    unfold floorSpec
    rw [hsplit, takeWhile_append_all _ pre (a :: suf) hpre,
      List.takeWhile_cons]
    simp only [hle, if_true]
    rw [hsuf]
    exact (List.getLast?_concat pre).symm

/-- Main run lemma for the floor descent of `part_005`: starting anywhere
with the position invariant and enough fuel, the descent computes the floor
of the target key. -/
theorem floorLoop_floor
    (W : LaneWF lane key numLevels ns lanesAt) {k : K} :
    ∀ (fuel c : Nat) (elem : Option Nat), 1 ≤ c → c ≤ numLevels →
      InvLEAt lanesAt key k (c - 1) elem →
      c + measureIdx ns elem ≤ fuel →
      floorLoop lane key k fuel c elem = floorSpec key k ns := by
  intro fuel
  induction fuel with
  | zero => intro c elem h1 _ _ hf; omega
  | succ f ih =>
    intro c elem h1 hc hInv hf
    cases c with
    | zero => omega
    | succ cc =>
      simp only [Nat.add_sub_cancel] at hInv
      have hcclt : cc < numLevels := by omega
      -- the remaining chain seen from `elem` at level `cc`
      rcases hInv with hp | ⟨a, hp, ha, hle⟩
      · -- elem is the header
        subst hp
        have hchain := W.chains cc hcclt
        have hhead := isChain_head _ _ _ _ hchain
        cases hns : lanesAt cc with
        | nil =>
          rw [hns] at hhead
          simp only [List.head?] at hhead
          have hstep : floorLoop lane key k (f + 1) (cc + 1) none =
              floorLoop lane key k f cc none := by
            simp [floorLoop, hhead]
          rw [hstep]
          cases cc with
          | zero =>
            rw [floorLoop_zero]
            exact floor_stop_exact W (Or.inl rfl) (Or.inl hhead)
          | succ ccc =>
            exact ih (ccc + 1) none (by omega) (by omega)
              (by simp only [Nat.add_sub_cancel]; exact Or.inl rfl) (by
                simp only [measureIdx] at hf ⊢; omega)
        | cons j rest =>
          rw [hns] at hhead
          simp only [List.head?] at hhead
          have hjmem : j ∈ lanesAt cc := by rw [hns]; simp
          have hjns : j ∈ ns := (W.sub cc hcclt).subset hjmem
          cases hkj : key j with
          | none =>
            exact absurd (W.keys j hjns) (by rw [hkj]; simp)
          | some kj =>
            by_cases hkle : kj ≤ k
            · have hstep : floorLoop lane key k (f + 1) (cc + 1) none =
                  floorLoop lane key k f (cc + 1) (some j) := by
                simp [floorLoop, hhead, hkj, hkle]
              rw [hstep]
              have hmeas := measure_lt_none hjns
              refine ih (cc + 1) (some j) (by omega) (by omega) ?_ (by omega)
              simp only [Nat.add_sub_cancel]
              exact Or.inr ⟨j, rfl, hjmem, by simp [keyLE, hkj, hkle]⟩
            · have hstep : floorLoop lane key k (f + 1) (cc + 1) none =
                  floorLoop lane key k f cc none := by
                simp [floorLoop, hhead, hkj, hkle]
              rw [hstep]
              cases cc with
              | zero =>
                rw [floorLoop_zero]
                exact floor_stop_exact W (Or.inl rfl)
                  (Or.inr ⟨j, hhead, by simp [keyLE, hkj, hkle]⟩)
              | succ ccc =>
                exact ih (ccc + 1) none (by omega) (by omega)
                  (by simp only [Nat.add_sub_cancel]; exact Or.inl rfl)
                  (by simp only [measureIdx] at hf ⊢; omega)
      · -- elem is a node on the level-cc chain
        subst hp
        obtain ⟨pre, suf, hsplit, hc2⟩ := exists_suffix_chain W hcclt ha
        have hhead := isChain_head _ _ _ _ hc2
        have hans : a ∈ ns := (W.sub cc hcclt).subset ha
        cases hsufe : suf with
        | nil =>
          rw [hsufe] at hhead
          simp only [List.head?] at hhead
          have hstep : floorLoop lane key k (f + 1) (cc + 1) (some a) =
              floorLoop lane key k f cc (some a) := by
            simp [floorLoop, hhead]
          rw [hstep]
          cases cc with
          | zero =>
            rw [floorLoop_zero]
            exact floor_stop_exact W
              (Or.inr ⟨a, rfl, (W.lanes_zero ▸ ha), hle⟩) (Or.inl hhead)
          | succ ccc =>
            refine ih (ccc + 1) (some a) (by omega) (by omega) ?_ (by omega)
            simp only [Nat.add_sub_cancel]
            exact Or.inr ⟨a, rfl, W.mono ccc (by omega) a ha, hle⟩
        | cons j rest =>
          rw [hsufe] at hhead
          simp only [List.head?] at hhead
          have hjmem : j ∈ lanesAt cc := by
            rw [hsplit, hsufe]; simp
          have hjns : j ∈ ns := (W.sub cc hcclt).subset hjmem
          have haj : nodeLT key a j = true := by
            have hsorted := (W.sorted).sublist (W.sub cc hcclt)
            rw [hsplit] at hsorted
            rw [List.pairwise_append] at hsorted
            have := (List.pairwise_cons.mp hsorted.2.1).1
            exact this j (by rw [hsufe]; simp)
          cases hkj : key j with
          | none =>
            exact absurd (W.keys j hjns) (by rw [hkj]; simp)
          | some kj =>
            by_cases hkle : kj ≤ k
            · have hstep : floorLoop lane key k (f + 1) (cc + 1) (some a) =
                  floorLoop lane key k f (cc + 1) (some j) := by
                simp [floorLoop, hhead, hkj, hkle]
              rw [hstep]
              have hmeas := measure_lt_some W hans hjns haj
              refine ih (cc + 1) (some j) (by omega) (by omega) ?_ (by omega)
              simp only [Nat.add_sub_cancel]
              exact Or.inr ⟨j, rfl, hjmem, by simp [keyLE, hkj, hkle]⟩
            · have hstep : floorLoop lane key k (f + 1) (cc + 1) (some a) =
                  floorLoop lane key k f cc (some a) := by
                simp [floorLoop, hhead, hkj, hkle]
              rw [hstep]
              cases cc with
              | zero =>
                rw [floorLoop_zero]
                exact floor_stop_exact W
                  (Or.inr ⟨a, rfl, (W.lanes_zero ▸ ha), hle⟩)
                  (Or.inr ⟨j, hhead, by simp [keyLE, hkj, hkle]⟩)
              | succ ccc =>
                refine ih (ccc + 1) (some a) (by omega) (by omega) ?_ (by omega)
                simp only [Nat.add_sub_cancel]
                exact Or.inr ⟨a, rfl, W.mono ccc (by omega) a ha, hle⟩

end Runs2

theorem mem_of_getLast_opt {α : Type} {l : List α} {a : α}
    (h : l.getLast? = some a) : a ∈ l := by
  obtain ⟨hne, heq⟩ :=
    @List.mem_getLast?_eq_getLast _ l a (by rw [h]; rfl)
  rw [heq]
  exact List.getLast_mem hne

theorem takeWhile_nil_of_all_false {α : Type} {pred : α → Bool} :
    ∀ {l : List α}, (∀ x ∈ l, pred x = false) → l.takeWhile pred = [] := by
  intro l h
  cases l with
  | nil => rfl
  | cons a t => simp [List.takeWhile_cons, h a (by simp)]

theorem nodup_of_sorted {K : Type} [LinearOrder K] {key : Nat → Option K}
    {ns : List Nat} (hs : ns.Pairwise (fun a b => nodeLT key a b = true)) :
    ns.Nodup :=
  hs.imp (fun {a b} hab => by
    intro heq
    subst heq
    exact nodeLT_irrefl hab)

theorem length_le_of_nodup_lt {ns : List Nat} {N : Nat} (hnd : ns.Nodup)
    (hlt : ∀ a ∈ ns, a < N) : ns.length ≤ N := by
  classical
  have hsub : ns.toFinset ⊆ Finset.range N := by
    intro a ha
    rw [List.mem_toFinset] at ha
    exact Finset.mem_range.mpr (hlt a ha)
  have hcard := Finset.card_le_card hsub
  rw [List.toFinset_card_of_nodup hnd, Finset.card_range] at hcard
  exact hcard

section SpecLemmas

variable {K : Type} [LinearOrder K] {key : Nat → Option K} {k : K}
  {ns : List Nat}

theorem keyLT_false_iff {a : Nat} {ka : K} (hka : key a = some ka) :
    keyLT key a k = false ↔ k ≤ ka := by
  unfold keyLT
  rw [hka]
  simp

theorem keyLE_true_iff {a : Nat} {ka : K} (hka : key a = some ka) :
    keyLE key a k = true ↔ ka ≤ k := by
  unfold keyLE
  rw [hka]
  simp

theorem ceilSpec_mem
    (hs : ns.Pairwise (fun a b => nodeLT key a b = true))
    {i : Nat} (hi : i ∈ ns) (hk : key i = some k) :
    ceilSpec key k ns = some i := by
  obtain ⟨pre, suf, hsplit⟩ := List.append_of_mem hi
  subst hsplit
  rw [List.pairwise_append] at hs
  unfold ceilSpec
  have hpre : ∀ x ∈ pre, keyLT key x k = true := by
    intro x hx
    have hxi := hs.2.2 x hx i (by simp)
    unfold nodeLT at hxi
    unfold keyLT
    cases hkx : key x with
    | none => rw [hkx] at hxi; simp at hxi
    | some kx =>
      rw [hkx, hk] at hxi
      simpa using hxi
  rw [dropWhile_append_all _ pre _ hpre, List.dropWhile_cons]
  have : keyLT key i k = false := by unfold keyLT; rw [hk]; simp
  simp [this]

theorem floorSpec_mem
    (hs : ns.Pairwise (fun a b => nodeLT key a b = true))
    {i : Nat} (hi : i ∈ ns) (hk : key i = some k) :
    floorSpec key k ns = some i := by
  obtain ⟨pre, suf, hsplit⟩ := List.append_of_mem hi
  subst hsplit
  rw [List.pairwise_append] at hs
  unfold floorSpec
  have hpre : ∀ x ∈ pre, keyLE key x k = true := by
    intro x hx
    have hxi := hs.2.2 x hx i (by simp)
    exact keyLE_of_nodeLT_keyLE hxi (by unfold keyLE; rw [hk]; simp)
  have hsuf : suf.takeWhile (fun j => keyLE key j k) = [] := by
    refine takeWhile_nil_of_all_false ?_
    intro y hy
    have hiy := (List.pairwise_cons.mp hs.2.1).1 y hy
    unfold nodeLT at hiy
    unfold keyLE
    cases hky : key y with
    | none => rfl
    | some ky =>
      rw [hk, hky] at hiy
      simp only [decide_eq_true_eq] at hiy
      simp [not_le.mpr hiy]
  rw [takeWhile_append_all _ pre _ hpre, List.takeWhile_cons]
  have : keyLE key i k = true := by unfold keyLE; rw [hk]; simp
  rw [this]
  simp only [if_true, hsuf]
  exact List.getLast?_concat pre

theorem ceilSpec_none_iff :
    ceilSpec key k ns = none ↔ ∀ a ∈ ns, keyLT key a k = true := by
  unfold ceilSpec
  rw [List.head?_eq_none_iff]
  exact List.dropWhile_eq_nil_iff

theorem floorSpec_none_iff
    (hs : ns.Pairwise (fun a b => nodeLT key a b = true)) :
    floorSpec key k ns = none ↔ ∀ a ∈ ns, keyLE key a k = false := by
  unfold floorSpec
  rw [List.getLast?_eq_none_iff]
  constructor
  · intro h a ha
    cases hns : ns with
    | nil => rw [hns] at ha; simp at ha
    | cons f rest =>
      rw [hns] at h ha
      rw [List.takeWhile_cons] at h
      by_cases hf : keyLE key f k = true
      · rw [hf] at h; simp at h
      · have hfa : f = a ∨ nodeLT key f a = true := by
          rcases List.mem_cons.mp ha with h1 | h1
          · exact Or.inl h1.symm
          · rw [hns] at hs
            exact Or.inr ((List.pairwise_cons.mp hs).1 a h1)
        rcases hfa with h1 | h1
        · subst h1; simpa using hf
        · rw [Bool.eq_false_iff]
          intro hle
          exact hf (keyLE_of_nodeLT_keyLE h1 hle)
  · intro h
    exact takeWhile_nil_of_all_false h

theorem floorSpec_mem_le {i : Nat} (h : floorSpec key k ns = some i) :
    i ∈ ns ∧ keyLE key i k = true := by
  unfold floorSpec at h
  have hmem := mem_of_getLast_opt h
  constructor
  · exact (List.takeWhile_sublist _).subset hmem
  · simpa using List.mem_takeWhile_imp hmem

theorem ceilSpec_mem_ge {i : Nat} (h : ceilSpec key k ns = some i) :
    i ∈ ns ∧ keyLT key i k = false := by
  unfold ceilSpec at h
  cases hd : ns.dropWhile (fun j => keyLT key j k) with
  | nil => rw [hd] at h; simp at h
  | cons b t =>
    rw [hd] at h
    simp only [List.head?] at h
    have hbi : b = i := by simpa using h
    subst hbi
    constructor
    · exact (List.dropWhile_sublist _).subset (by rw [hd]; simp)
    · have := List.head?_dropWhile_not (fun j => keyLT key j k) ns
      rw [hd] at this
      simpa using this

/-- The lane-0 successor of the floor is the ceiling (on a heap whose lane-0
chain is exactly `ns`). -/
theorem ceil_of_floor {lane : Option Nat → Nat → Option Nat}
    (hchain : isChain lane 0 none ns)
    {i : Nat} (hfloor : floorSpec key k ns = some i) :
    lane (some i) 0 =
      (ns.dropWhile (fun j => keyLE key j k)).head? := by
  have htd := List.takeWhile_append_dropWhile (fun j => keyLE key j k) ns
  set tw := ns.takeWhile (fun j => keyLE key j k) with htw
  set dw := ns.dropWhile (fun j => keyLE key j k) with hdw
  unfold floorSpec at hfloor
  rw [← htw] at hfloor
  obtain ⟨hne, heq⟩ :=
    @List.mem_getLast?_eq_getLast _ tw i (by rw [hfloor]; rfl)
  have hsplit : tw = tw.dropLast ++ [i] := by
    rw [heq]
    exact (List.dropLast_append_getLast hne).symm
  have hns : ns = tw.dropLast ++ i :: dw := by
    rw [← htd, hsplit]
    simp
  rw [hns] at hchain
  exact isChain_head _ _ _ _ (isChain_suffix _ _ _ _ _ _ hchain)

/-- The relation between the strict and non-strict partitions of a sorted
node list at a key that is present: the non-strict `dropWhile` starts right
after that node. -/
theorem dropWhileLE_of_mem
    (hs : ns.Pairwise (fun a b => nodeLT key a b = true))
    {i : Nat} (hi : i ∈ ns) (hk : key i = some k) :
    ∀ pre suf, ns = pre ++ i :: suf →
      ns.dropWhile (fun j => keyLE key j k) = suf := by
  intro pre suf hsplit
  subst hsplit
  rw [List.pairwise_append] at hs
  have hpre : ∀ x ∈ pre, keyLE key x k = true := by
    intro x hx
    exact keyLE_of_nodeLT_keyLE (hs.2.2 x hx i (by simp))
      (by unfold keyLE; rw [hk]; simp)
  rw [dropWhile_append_all _ pre _ hpre, List.dropWhile_cons]
  have hile : keyLE key i k = true := by unfold keyLE; rw [hk]; simp
  rw [hile]
  simp only [if_true]
  cases hsufe : suf with
  | nil => simp
  | cons y rest =>
    have hiy := (List.pairwise_cons.mp hs.2.1).1 y (by rw [hsufe]; simp)
    have hyf : keyLE key y k = false := by
      unfold nodeLT at hiy
      unfold keyLE
      cases hky : key y with
      | none => rfl
      | some ky =>
        rw [hk, hky] at hiy
        simp only [decide_eq_true_eq] at hiy
        simp [not_le.mpr hiy]
    rw [List.dropWhile_cons, hyf]
    simp

theorem dropWhile_congr {α : Type} {p q : α → Bool} :
    ∀ (l : List α), (∀ x ∈ l, p x = q x) → l.dropWhile p = l.dropWhile q := by
  intro l
  induction l with
  | nil => intro _; rfl
  | cons a t ih =>
    intro h
    rw [List.dropWhile_cons, List.dropWhile_cons, h a (by simp)]
    split
    · exact ih (fun x hx => h x (by simp [hx]))
    · rfl

/-- When the floor's key is strictly below the target, no node carries the
target key exactly. -/
theorem floor_lt_no_exact
    (hs : ns.Pairwise (fun a b => nodeLT key a b = true))
    {i : Nat} (hfloor : floorSpec key k ns = some i) {ki : K}
    (hki : key i = some ki) (hlt : ki < k) :
    ∀ a ∈ ns, key a ≠ some k := by
  intro a ha hka
  have := floorSpec_mem hs ha hka
  rw [hfloor] at this
  have hai : i = a := by simpa using this
  subst hai
  rw [hki] at hka
  have heq : ki = k := by simpa using hka
  subst heq
  exact absurd hlt (lt_irrefl _)

end SpecLemmas

theorem getLast?_cons_eq {α : Type} (a : α) (l : List α) :
    (a :: l).getLast? = (match l.getLast? with
      | none => some a
      | some b => some b) := by
  induction l generalizing a with
  | nil => rfl
  | cons b t ih =>
    rw [List.getLast?_cons_cons, ih b]
    cases t.getLast? <;> rfl

theorem landOn_eq_getLast (p : Option Nat) (r : List Nat) :
    landOn p r = (match r.getLast? with
      | none => p
      | some b => some b) := by
  induction r generalizing p with
  | nil => rfl
  | cons a t ih =>
    rw [landOn_cons, ih (some a), getLast?_cons_eq]
    cases t.getLast? <;> rfl

theorem isChain_congr {lane lane' : Option Nat → Nat → Option Nat} {L : Nat} :
    ∀ (r : List Nat) (p : Option Nat),
      isChain lane L p r →
      (∀ x, (x = p ∨ ∃ a ∈ r, x = some a) → lane' x L = lane x L) →
      isChain lane' L p r := by
  intro r
  induction r with
  | nil =>
    intro p h hcong
    show lane' p L = none
    rw [hcong p (Or.inl rfl)]
    exact h
  | cons a t ih =>
    intro p h hcong
    refine ⟨?_, ?_⟩
    · rw [hcong p (Or.inl rfl)]
      exact h.1
    · refine ih (some a) h.2 ?_
      intro x hx
      refine hcong x ?_
      rcases hx with hx | ⟨b, hb, hx⟩
      · exact Or.inr ⟨a, by simp, hx⟩
      · exact Or.inr ⟨b, by simp [hb], hx⟩

/-- Routing a chain around the node `j`: if the lane is rewritten at exactly
the predecessor position of `j` to point at `j`'s successor, the chain from
`p` skips `j` and is otherwise unchanged. -/
theorem chain_splice {lane lane' : Option Nat → Nat → Option Nat} {L : Nat}
    {j : Nat} {B : List Nat} {q : Option Nat} :
    ∀ (A : List Nat) (p : Option Nat),
      isChain lane L p (A ++ j :: B) →
      (A ++ j :: B).Nodup →
      (p = none ∨ ∃ x, p = some x ∧ x ∉ A ++ j :: B) →
      q = (match A.getLast? with
        | none => p
        | some a => some a) →
      lane' q L = B.head? →
      (∀ x, x ≠ q → lane' x L = lane x L) →
      isChain lane' L p (A ++ B) := by
  intro A
  induction A with
  | nil =>
    intro p hch hnd hp hq hqv hne
    simp only [List.getLast?] at hq
    subst hq
    cases B with
    | nil => exact hqv
    | cons b B' =>
      refine ⟨hqv, ?_⟩
      refine isChain_congr B' (some b) hch.2.2 ?_
      intro x hx
      refine hne x ?_
      have hxval : ∃ y, x = some y ∧ y ∈ b :: B' := by
        rcases hx with hx | ⟨a, ha, hx⟩
        · exact ⟨b, hx, by simp⟩
        · exact ⟨a, hx, by simp [ha]⟩
      obtain ⟨y, hxy, hy⟩ := hxval
      subst hxy
      rcases hp with hp | ⟨z, hp, hz⟩
      · subst hp; simp
      · subst hp
        intro heq
        have hyz : y = z := Option.some.inj heq
        subst hyz
        exact hz (by simp [hy])
  | cons a A' ih =>
    intro p hch hnd hp hq hqv hne
    have hqform : q = (match A'.getLast? with
        | none => some a
        | some b => some b) := by
      rw [hq, getLast?_cons_eq]
      cases A'.getLast? <;> rfl
    have hpq : p ≠ q := by
      obtain ⟨g, hqg, hg⟩ : ∃ g, q = some g ∧ g ∈ a :: A' := by
        rw [hqform]
        cases hA : A'.getLast? with
        | none => exact ⟨a, rfl, by simp⟩
        | some b =>
          exact ⟨b, rfl, by simp [mem_of_getLast_opt hA]⟩
      rcases hp with hp | ⟨z, hp, hz⟩
      · subst hp
        rw [hqg]
        simp
      · subst hp
        rw [hqg]
        intro heq
        have hzg : z = g := Option.some.inj heq
        subst hzg
        apply hz
        rcases List.mem_cons.mp hg with hcase | hcase
        · simp [hcase]
        · simp [hcase]
    refine ⟨?_, ?_⟩
    · rw [hne p hpq]
      exact hch.1
    · refine ih (some a) hch.2 ((List.nodup_cons.mp hnd).2) ?_ hqform hqv hne
      have hna : a ∉ A' ++ j :: B := (List.nodup_cons.mp hnd).1
      exact Or.inr ⟨a, rfl, hna⟩

theorem advanceLT_congr {K : Type} [LinearOrder K]
    {lane₁ lane₂ : Option Nat → Nat → Option Nat}
    {key₁ key₂ : Nat → Option K} {k : K} {L : Nat}
    (hlane : ∀ p, lane₁ p L = lane₂ p L) (hkey : ∀ i, key₁ i = key₂ i) :
    ∀ (fuel : Nat) (p : Option Nat),
      advanceLT lane₁ key₁ k L fuel p = advanceLT lane₂ key₂ k L fuel p := by
  intro fuel
  induction fuel with
  | zero => intro p; rfl
  | succ f ih =>
    intro p
    have hu₁ : advanceLT lane₁ key₁ k L (f + 1) p =
        (match lane₁ p L with
          | some j =>
            match key₁ j with
            | some kj => if kj < k then advanceLT lane₁ key₁ k L f (some j) else p
            | none => p
          | none => p) := rfl
    have hu₂ : advanceLT lane₂ key₂ k L (f + 1) p =
        (match lane₂ p L with
          | some j =>
            match key₂ j with
            | some kj => if kj < k then advanceLT lane₂ key₂ k L f (some j) else p
            | none => p
          | none => p) := rfl
    rw [hu₁, hu₂, hlane p]
    cases lane₂ p L with
    | none => rfl
    | some j =>
      simp only
      rw [hkey j]
      cases key₂ j with
      | none => rfl
      | some kj =>
        simp only
        split
        · exact ih (some j)
        · rfl

theorem removeAdvance_congr {K : Type} [LinearOrder K]
    {lane₁ lane₂ : Option Nat → Nat → Option Nat}
    {key₁ key₂ : Nat → Option K} {k : K} {L : Nat}
    (hlane : ∀ p, lane₁ p L = lane₂ p L) (hkey : ∀ i, key₁ i = key₂ i) :
    ∀ (fuel : Nat) (p next : Option Nat),
      removeAdvance lane₁ key₁ k L fuel p next =
        removeAdvance lane₂ key₂ k L fuel p next := by
  intro fuel
  induction fuel with
  | zero => intro p next; rfl
  | succ f ih =>
    intro p next
    cases next with
    | none => rfl
    | some j =>
      show (match key₁ j with
        | some kj =>
          if kj < k then removeAdvance lane₁ key₁ k L f (some j) (lane₁ p L)
          else (p, some j)
        | none => (p, some j)) =
        (match key₂ j with
        | some kj =>
          if kj < k then removeAdvance lane₂ key₂ k L f (some j) (lane₂ p L)
          else (p, some j)
        | none => (p, some j))
      rw [hkey j]
      cases key₂ j with
      | none => rfl
      | some kj =>
        simp only
        split
        · rw [hlane p]
          exact ih (some j) (lane₂ p L)
        · rfl

theorem chase_congr {lane₁ lane₂ : Option Nat → Nat → Option Nat} {L : Nat}
    (hlane : ∀ p, lane₁ p L = lane₂ p L) :
    ∀ (fuel : Nat) (p : Option Nat), chase lane₁ L fuel p = chase lane₂ L fuel p := by
  intro fuel
  induction fuel with
  | zero => intro p; rfl
  | succ f ih =>
    intro p
    have hu₁ : chase lane₁ L (f + 1) p =
        (match lane₁ p L with
          | none => []
          | some j => j :: chase lane₁ L f (some j)) := rfl
    have hu₂ : chase lane₂ L (f + 1) p =
        (match lane₂ p L with
          | none => []
          | some j => j :: chase lane₂ L f (some j)) := rfl
    rw [hu₁, hu₂, hlane p]
    cases lane₂ p L with
    | none => rfl
    | some j =>
      simp only
      rw [ih (some j)]

section MoreRuns

variable {K : Type} [LinearOrder K]
  {lane : Option Nat → Nat → Option Nat} {key : Nat → Option K}
  {numLevels : Nat} {ns : List Nat} {lanesAt : Nat → List Nat}

/-- Two distinct nodes of a sorted node list cannot carry the same key. -/
theorem keys_unique
    (hs : ns.Pairwise (fun a b => nodeLT key a b = true))
    {a b : Nat} {k : K} (ha : a ∈ ns) (hb : b ∈ ns)
    (hka : key a = some k) (hkb : key b = some k) : a = b := by
  by_contra hne
  obtain ⟨pre, suf, hsplit⟩ := List.append_of_mem ha
  have hb2 : b ∈ pre ∨ b ∈ suf := by
    rw [hsplit] at hb
    rcases List.mem_append.mp hb with h | h
    · exact Or.inl h
    · rcases List.mem_cons.mp h with h | h
      · exact absurd h.symm hne
      · exact Or.inr h
  rw [hsplit, List.pairwise_append] at hs
  rcases hb2 with h | h
  · have := hs.2.2 b h a (by simp)
    unfold nodeLT at this
    rw [hkb, hka] at this
    simp at this
  · have := (List.pairwise_cons.mp hs.2.1).1 b h
    unfold nodeLT at this
    rw [hka, hkb] at this
    simp at this

/-- Landing position of the strict advance at level 0, expressed over the
global takeWhile partition of the node list. -/
theorem advance_zero_landing
    (W : LaneWF lane key numLevels ns lanesAt) {k : K} {fuel : Nat}
    (hfuel : ns.length ≤ fuel) {p : Option Nat}
    (h : InvAt lanesAt key k 0 p) :
    advanceLT lane key k 0 fuel p =
      (match (ns.takeWhile (fun x => keyLT key x k)).getLast? with
       | none => none
       | some a => some a) := by
  have h0 : (0 : Nat) < numLevels := W.one_le
  rcases h with hp | ⟨a, hp, ha, hklt⟩
  · subst hp
    have hc := W.chains 0 h0
    rw [W.lanes_zero] at hc
    obtain ⟨hland, _⟩ := advanceLT_spec lane key k 0 ns none fuel hc hfuel
    rw [hland, landOn_eq_getLast]
  · subst hp
    rw [W.lanes_zero] at ha
    obtain ⟨pre, suf, hsplit, hc⟩ := by
      have ha0 : a ∈ lanesAt 0 := by rw [W.lanes_zero]; exact ha
      have := exists_suffix_chain W h0 ha0
      rwa [W.lanes_zero] at this
    have hlen : suf.length ≤ fuel := by
      have h1 : suf.length ≤ ns.length := by rw [hsplit]; simp; omega
      exact le_trans h1 hfuel
    obtain ⟨hland, _⟩ := advanceLT_spec lane key k 0 suf (some a) fuel hc hlen
    rw [hland, landOn_eq_getLast]
    have hpre : ∀ x ∈ pre ++ [a], keyLT key x k = true := by
      intro x hx
      rcases List.mem_append.mp hx with hx | hx
      · have hsorted := W.sorted
        rw [hsplit] at hsorted
        rw [List.pairwise_append] at hsorted
        exact keyLT_of_nodeLT_keyLT (hsorted.2.2 x hx a (by simp)) hklt
      · simp at hx
        subst hx
        exact hklt
    have hexp : ns.takeWhile (fun x => keyLT key x k) =
        (pre ++ [a]) ++ suf.takeWhile (fun x => keyLT key x k) := by
      rw [hsplit, show pre ++ a :: suf = (pre ++ [a]) ++ suf by simp]
      exact takeWhile_append_all _ (pre ++ [a]) suf hpre
    rw [hexp]
    cases hsw : suf.takeWhile (fun x => keyLT key x k) with
    | nil =>
      simp [List.getLast?_concat]
    | cons y t =>
      rw [List.getLast?_append_of_ne_nil _ (by simp)]
      cases hgl : (y :: t).getLast? with
      | none => simp at hgl
      | some b => rfl

/-- After the strict advance stops, the next node on the lane (if any) is a
lane member whose key is not strictly below the target. -/
theorem advance_next_mem
    (W : LaneWF lane key numLevels ns lanesAt) {k : K} {fuel : Nat}
    (hfuel : ns.length ≤ fuel) {L : Nat} (hL : L < numLevels)
    {p : Option Nat} (h : InvAt lanesAt key k L p) {j : Nat}
    (hj : lane (advanceLT lane key k L fuel p) L = some j) :
    j ∈ lanesAt L ∧ keyLT key j k = false := by
  have hsub := W.sub L hL
  have hmem_of_dw : ∀ (r : List Nat),
      (∀ x ∈ r, x ∈ lanesAt L) →
      lane (advanceLT lane key k L fuel p) L =
        (r.dropWhile (fun x => keyLT key x k)).head? →
      j ∈ lanesAt L ∧ keyLT key j k = false := by
    intro r hr hhead
    rw [hj] at hhead
    cases hdw : r.dropWhile (fun x => keyLT key x k) with
    | nil => rw [hdw] at hhead; simp at hhead
    | cons c t =>
      rw [hdw] at hhead
      have hjc : j = c := by simpa using hhead
      subst hjc
      constructor
      · refine hr j ?_
        exact (List.dropWhile_sublist _).subset (by rw [hdw]; simp)
      · have := List.head?_dropWhile_not (fun x => keyLT key x k) r
        rw [hdw] at this
        simpa using this
  rcases h with hp | ⟨a, hp, ha, hklt⟩
  · subst hp
    have hc := W.chains L hL
    have hlen : (lanesAt L).length ≤ fuel := le_trans hsub.length_le hfuel
    obtain ⟨-, hchain⟩ := advanceLT_spec lane key k L (lanesAt L) none fuel hc hlen
    exact hmem_of_dw (lanesAt L) (fun x hx => hx) (isChain_head _ _ _ _ hchain)
  · subst hp
    obtain ⟨pre, suf, hsplit, hc⟩ := exists_suffix_chain W hL ha
    have hlen : suf.length ≤ fuel := by
      have h1 : suf.length ≤ (lanesAt L).length := by rw [hsplit]; simp; omega
      exact le_trans h1 (le_trans hsub.length_le hfuel)
    obtain ⟨-, hchain⟩ := advanceLT_spec lane key k L suf (some a) fuel hc hlen
    refine hmem_of_dw suf (fun x hx => ?_) (isChain_head _ _ _ _ hchain)
    rw [hsplit]
    simp [hx]

/-- Landing of the lagged advance of `part_005`'s `Remove`: entered with
`next = lane p level`, it lands exactly like the strict advance and keeps
the pair `(lanes, next)` consistent. -/
theorem removeAdvance_spec (lane : Option Nat → Nat → Option Nat)
    (key : Nat → Option K) (k : K) (L : Nat) :
    ∀ (r : List Nat) (p : Option Nat) (fuel : Nat),
      isChain lane L p r → 2 * r.length + 1 ≤ fuel →
      removeAdvance lane key k L fuel p (lane p L) =
        (landOn p (r.takeWhile (fun x => keyLT key x k)),
         lane (landOn p (r.takeWhile (fun x => keyLT key x k))) L) ∧
      isChain lane L (landOn p (r.takeWhile (fun x => keyLT key x k)))
        (r.dropWhile (fun x => keyLT key x k)) := by
  intro r
  induction r with
  | nil =>
    intro p fuel h hf
    have h' : lane p L = none := h
    have hstop : removeAdvance lane key k L fuel p (lane p L) = (p, lane p L) := by
      cases fuel with
      | zero => rfl
      | succ f => simp [removeAdvance, h']
    refine ⟨by simp [hstop, landOn_nil], ?_⟩
    simpa [landOn_nil] using h
  | cons a t ih =>
    intro p fuel h hf
    have hlane : lane p L = some a := h.1
    simp only [List.length_cons] at hf
    obtain ⟨f, rfl⟩ : ∃ f, fuel = f + 1 := ⟨fuel - 1, by omega⟩
    cases hk : key a with
    | none =>
      have hklt : keyLT key a k = false := by simp [keyLT, hk]
      have hstop : removeAdvance lane key k L (f + 1) p (lane p L) =
          (p, lane p L) := by
        simp [removeAdvance, hlane, hk]
      rw [hlane] at hstop
      refine ⟨by simp [hstop, List.takeWhile_cons, hklt, landOn_nil, hlane], ?_⟩
      simpa [List.dropWhile_cons, hklt, List.takeWhile_cons, landOn_nil] using h
    | some ka =>
      by_cases hlt : ka < k
      · have hklt : keyLT key a k = true := by simp [keyLT, hk, hlt]
        obtain ⟨f', rfl⟩ : ∃ f', f = f' + 1 := ⟨f - 1, by omega⟩
        have hstep : removeAdvance lane key k L (f' + 1 + 1) p (lane p L) =
            removeAdvance lane key k L f' (some a) (lane (some a) L) := by
          rw [hlane]
          show (match some a with
            | some j =>
              match key j with
              | some kj =>
                if kj < k then
                  removeAdvance lane key k L (f' + 1) (some j) (lane p L)
                else (p, some a)
              | none => (p, some a)
            | none => (p, some a)) = _
          simp only
          rw [hk]
          simp only [if_pos hlt]
          rw [hlane]
          show (match some a with
            | some j =>
              match key j with
              | some kj =>
                if kj < k then
                  removeAdvance lane key k L f' (some j) (lane (some a) L)
                else (some a, some a)
              | none => (some a, some a)
            | none => (some a, some a)) = _
          simp only
          rw [hk]
          simp only [if_pos hlt]
        have ihh := ih (some a) f' h.2 (by omega)
        rw [hstep]
        simpa [List.takeWhile_cons, List.dropWhile_cons, hklt, landOn_cons]
          using ihh
      · have hklt : keyLT key a k = false := by simp [keyLT, hk, hlt]
        have hstop : removeAdvance lane key k L (f + 1) p (lane p L) =
            (p, lane p L) := by
          simp [removeAdvance, hlane, hk, hlt]
        refine ⟨by simp [hstop, List.takeWhile_cons, hklt, landOn_nil], ?_⟩
        simpa [List.dropWhile_cons, hklt, List.takeWhile_cons, landOn_nil] using h

end MoreRuns

end Walk

theorem getQ_some_lt {α : Type} {l : List α} {j : Nat} {a : α}
    (h : l.get? j = some a) : j < l.length := by
  obtain ⟨hlt, -⟩ := List.get?_eq_some.mp h
  exact hlt

namespace SGo

/-- From `skiplist.go`:
`func sampleCoinflipGeoDist32(limit int, rng *rand.Rand) int`.
The Go code computes `(^uint32(0) >> (32 - uint32(limit))) & rng.Uint32()` and
counts trailing one bits.  The random word drawn from the generator is the
parameter `u`. -/
def sampleCoinflipGeoDist32 (limit : Nat) (u : Nat) : Nat :=
  trailingOnes (Nat.land (Nat.shiftRight (2 ^ 32 - 1) (32 - limit)) u)

/-- Heap node of `skiplist.go` (`type Node[K, V any] struct`): a fixed
`[MaxLevel]*Node` lane array (length 32) and one backward reference. -/
structure Node (K V : Type) where
  key : K
  value : V
  lanes : List (Option Nat)
  prev : Option Nat
  deriving Repr, DecidableEq

/-- `MaxLevel = 32` from `skiplist.go`. -/
def MaxLevel : Nat := 32

/-- List state of `skiplist.go` (`type SkipList[K, V] struct`).  `arena` is
the heap; `nodes` is the optional hash index (nil map when `none`); `rng`
is the stream of 32-bit words the seeded generator would produce. -/
structure SkipList (K V : Type) where
  arena : List (Node K V)
  nodes : Option (List (K × Nat))
  header : List (Option Nat)
  last : Option Nat
  length : Int
  prob : ℚ
  rng : List Nat
  deriving Repr, DecidableEq

variable {K V : Type} [LinearOrder K] [DecidableEq K]

/-- Association-list lookup, modelling Go map indexing `m[key]`. -/
def lookupA (m : List (K × Nat)) (k : K) : Option Nat :=
  (m.find? (fun p => decide (p.1 = k))).map Prod.snd

/-- Association-list insert/replace, modelling Go map assignment. -/
def insertA (m : List (K × Nat)) (k : K) (i : Nat) : List (K × Nat) :=
  match m with
  | [] => [(k, i)]
  | (a, b) :: t => if a = k then (k, i) :: t else (a, b) :: insertA t k i

/-- Association-list removal, modelling Go `delete(m, key)`. -/
def eraseA (m : List (K × Nat)) (k : K) : List (K × Nat) :=
  match m with
  | [] => []
  | (a, b) :: t => if a = k then t else (a, b) :: eraseA t k

/-- Reads `lanes[level]` through a lanes pointer: `none` is `&l.header`,
`some i` is `&node_i.lanes`. -/
def laneOf (l : SkipList K V) (p : Option Nat) (level : Nat) : Option Nat :=
  match p with
  | none => l.header.getD level none
  | some i =>
    match l.arena.get? i with
    | none => none
    | some nd => nd.lanes.getD level none

/-- Reads `node_i.key`; `none` only on a dangling index (impossible in Go). -/
def keyAt (l : SkipList K V) (i : Nat) : Option K :=
  (l.arena.get? i).map Node.key

/-- Reads `node_i.value`. -/
def valueAt (l : SkipList K V) (i : Nat) : Option V :=
  (l.arena.get? i).map Node.value

/-- Reads `node_i.prev`. -/
def prevOf (l : SkipList K V) (i : Nat) : Option Nat :=
  match l.arena.get? i with
  | none => none
  | some nd => nd.prev

/-- Writes `lanes[level] = v` through a lanes pointer. -/
def setLaneAt (l : SkipList K V) (p : Option Nat) (level : Nat)
    (v : Option Nat) : SkipList K V :=
  match p with
  | none => { l with header := l.header.set level v }
  | some i =>
    match l.arena.get? i with
    | none => l
    | some nd =>
      { l with arena := l.arena.set i { nd with lanes := nd.lanes.set level v } }

/-- Writes `node_i.prev = v`. -/
def setPrevAt (l : SkipList K V) (i : Nat) (v : Option Nat) : SkipList K V :=
  match l.arena.get? i with
  | none => l
  | some nd => { l with arena := l.arena.set i { nd with prev := v } }

/-- Writes `node_i.value = v` (the hash-index fast path of `Set`). -/
def setValueAt (l : SkipList K V) (i : Nat) (v : V) : SkipList K V :=
  match l.arena.get? i with
  | none => l
  | some nd => { l with arena := l.arena.set i { nd with value := v } }

/-- The inner advance loop shared by `Set`, `Remove` and `Search` in
`skiplist.go`:
`for ; lanes[level] != nil && lanes[level].key < key; lanes = &lanes[level].lanes`,
instantiated with this variant's state readers.  The fuel is always above
the length of the lane, which is sufficient on every well-formed heap. -/
def advanceLT (l : SkipList K V) (k : K) (level : Nat)
    (fuel : Nat) (p : Option Nat) : Option Nat :=
  Walk.advanceLT (laneOf l) (keyAt l) k level fuel p

/-- One level of the insertion descent of `SkipList.Set` (`skiplist.go`,
lines 123–141): advance, route around an equal-keyed node, then splice the
new node in when `level < nodeLevel` and repair the backward chain at
level 0. -/
def setLevelStep (k : K) (nodeId nodeLevel : Nat)
    (s : SkipList K V × Option Nat × Bool) (level : Nat) :
    SkipList K V × Option Nat × Bool :=
  let l := s.1
  let pos := advanceLT l k level (l.arena.length + 1) s.2.1
  let replaced := s.2.2
  let (l, replaced) :=
    match laneOf l pos level with
    | some j =>
      if keyAt l j = some k then
        let l := setPrevAt l nodeId (prevOf l j)
        let l := setLaneAt l pos level (laneOf l (some j) level)
        (l, true)
      else (l, replaced)
    | none => (l, replaced)
  if level < nodeLevel then
    let l := setLaneAt l (some nodeId) level (laneOf l pos level)
    let l := setLaneAt l pos level (some nodeId)
    let l :=
      if level = 0 then
        match laneOf l (some nodeId) 0 with
        | some succ =>
          let l :=
            if prevOf l nodeId = none then setPrevAt l nodeId (prevOf l succ)
            else l
          setPrevAt l succ (some nodeId)
        | none => l
      else l
    (l, pos, replaced)
  else (l, pos, replaced)

/-- The level loop of `Set`, from level `n - 1` down to `0`. -/
def setLoop (k : K) (nodeId nodeLevel : Nat) :
    Nat → SkipList K V × Option Nat × Bool → SkipList K V × Option Nat × Bool
  | 0, s => s
  | n + 1, s => setLoop k nodeId nodeLevel n (setLevelStep k nodeId nodeLevel s n)

/-- `func (l *SkipList[K, V]) Set(key K, value V) *Node[K, V]` from
`skiplist.go`.  Returns the updated list and the returned node handle. -/
def Set (l : SkipList K V) (k : K) (v : V) : SkipList K V × Nat :=
  let fast : Option Nat :=
    match l.nodes with
    | some m => lookupA m k
    | none => none
  match fast with
  | some i => (setValueAt l i v, i)
  | none =>
    let u := l.rng.headD 0
    let l := { l with rng := l.rng.tail }
    let nodeLevel := 1 + sampleCoinflipGeoDist32 (MaxLevel - 1) u
    let nodeId := l.arena.length
    let l := { l with arena :=
      l.arena ++ [{ key := k, value := v,
                    lanes := List.replicate MaxLevel none, prev := none }] }
    let res := setLoop k nodeId nodeLevel MaxLevel (l, none, false)
    let l := res.1
    let replaced := res.2.2
    let l := if replaced then l else { l with length := l.length + 1 }
    let l :=
      match l.nodes with
      | some m => { l with nodes := some (insertA m k nodeId) }
      | none => l
    let l :=
      match l.last with
      | none =>
        let l := setPrevAt l nodeId none
        { l with last := some nodeId }
      | some t =>
        match keyAt l t with
        | some kt =>
          if kt < k then
            let l := setPrevAt l nodeId (some t)
            { l with last := some nodeId }
          else l
        | none => l
    (l, nodeId)

/-- One level of the removal descent of `SkipList.Remove` (`skiplist.go`,
lines 198–205): advance, then route around the node with the target key. -/
def removeLevelStep (k : K) (s : SkipList K V × Option Nat × Option Nat)
    (level : Nat) : SkipList K V × Option Nat × Option Nat :=
  let l := s.1
  let pos := advanceLT l k level (l.arena.length + 1) s.2.1
  let found := s.2.2
  match laneOf l pos level with
  | some j =>
    if keyAt l j = some k then
      (setLaneAt l pos level (laneOf l (some j) level), pos, some j)
    else (l, pos, found)
  | none => (l, pos, found)

/-- The level loop of `Remove`, from level `n - 1` down to `0`. -/
def removeLoop (k : K) :
    Nat → SkipList K V × Option Nat × Option Nat →
    SkipList K V × Option Nat × Option Nat
  | 0, s => s
  | n + 1, s => removeLoop k n (removeLevelStep k s n)

/-- `func (l *SkipList[K, V]) Remove(key K) *Node[K, V]` from `skiplist.go`.
Returns the updated list and the removed node handle (`none` when the key
was absent). -/
def Remove (l : SkipList K V) (k : K) : SkipList K V × Option Nat :=
  let short : Bool :=
    match l.nodes with
    | some m => lookupA m k = none
    | none => false
  if short then (l, none)
  else
    let res := removeLoop k MaxLevel (l, none, none)
    let l := res.1
    match res.2.2 with
    | none => (l, none)
    | some j =>
      let l := { l with length := l.length - 1 }
      let l :=
        match l.nodes with
        | some m => { l with nodes := some (eraseA m k) }
        | none => l
      let l :=
        match laneOf l (some j) 0 with
        | some succ => setPrevAt l succ (prevOf l j)
        | none => l
      let l :=
        if laneOf l (some j) 0 = none then { l with last := prevOf l j }
        else l
      (l, some j)

/-- The tail of `SkipList.Remove` (`skiplist.go`, lines 206–217) after a
node `j` was found: decrement `length`, drop the key from the hash index,
repair the successor's backward reference, and update `last` when the
removed node had no successor.  `Remove` above is the descent followed by
exactly this tail. -/
def removeTail (st : SkipList K V) (k : K) (j : Nat) : SkipList K V :=
  let st1 := { st with length := st.length - 1 }
  let st2 :=
    match st1.nodes with
    | some m => { st1 with nodes := some (eraseA m k) }
    | none => st1
  let st3 :=
    match laneOf st2 (some j) 0 with
    | some succ => setPrevAt st2 succ (prevOf st2 j)
    | none => st2
  if laneOf st3 (some j) 0 = none then { st3 with last := prevOf st3 j }
  else st3

/-- The descent of `SkipList.Search` (`skiplist.go`, lines 261–265): a pure
advance at every level from `MaxLevel - 1` down to `0`. -/
def searchLoop (l : SkipList K V) (k : K) (n : Nat) (p : Option Nat) :
    Option Nat :=
  Walk.searchLoop (laneOf l) (keyAt l) k (l.arena.length + 1) n p

/-- `func (l *SkipList[K, V]) Search(key K) *Node[K, V]` from `skiplist.go`:
the node at the key, or the first node with a larger key, or nil. -/
def Search (l : SkipList K V) (k : K) : Option Nat :=
  let fast : Option Nat :=
    match l.nodes with
    | some m => lookupA m k
    | none => none
  match fast with
  | some i => some i
  | none => laneOf l (searchLoop l k MaxLevel none) 0

/-- `func (l *SkipList[K, V]) Get(key K) *Node[K, V]` from `skiplist.go`. -/
def Get (l : SkipList K V) (k : K) : Option Nat :=
  match l.nodes with
  | some m => lookupA m k
  | none =>
    match Search l k with
    | some i => if keyAt l i = some k then some i else none
    | none => none

/-- `func (l *SkipList[K, V]) First() *Node[K, V]` from `skiplist.go`. -/
def First (l : SkipList K V) : Option Nat :=
  l.header.getD 0 none

/-- `func (l *SkipList[K, V]) Last() *Node[K, V]` from `skiplist.go`. -/
def Last (l : SkipList K V) : Option Nat :=
  l.last

/-- `func (l *SkipList[K, V]) Length() int` from `skiplist.go`. -/
def Length (l : SkipList K V) : Int :=
  l.length

/-- `func (l *SkipList[K, V]) RemoveFirst() *Node[K, V]` from `skiplist.go`. -/
def RemoveFirst (l : SkipList K V) : SkipList K V × Option Nat :=
  match l.header.getD 0 none with
  | none => (l, none)
  | some nid =>
    let l := (List.range l.header.length).foldl
      (fun acc level =>
        if acc.header.getD level none = some nid then
          { acc with header := acc.header.set level (laneOf acc (some nid) level) }
        else acc) l
    let l :=
      match l.nodes, keyAt l nid with
      | some m, some kk => { l with nodes := some (eraseA m kk) }
      | _, _ => l
    let l := { l with length := l.length - 1 }
    let l :=
      if l.length = 0 then { l with last := none }
      else
        match laneOf l (some nid) 0 with
        | some succ => setPrevAt l succ none
        | none => l
    (l, some nid)

/-- Options of `skiplist.go` (`type skipListOptions struct`). -/
structure skipListOptions where
  prob : ℚ
  seed : Int
  hashmap : Bool
  deriving Repr, DecidableEq

/-- The concrete option values of `skiplist.go`. -/
inductive Option' where
  | withSeed (seed : Int)
  | withProbability (prob : ℚ)
  | withHashmap
  deriving Repr, DecidableEq

/-- The `apply` methods of the option types in `skiplist.go`. -/
def Option'.apply (o : Option') (opts : skipListOptions) : skipListOptions :=
  match o with
  | .withSeed s => { opts with seed := s }
  | .withProbability p => { opts with prob := p }
  | .withHashmap => { opts with hashmap := true }

/-- `func New[K, V](opts ...Option) *SkipList[K, V]` from `skiplist.go`.
The wall-clock default seed is `now`; the generator's output stream is
`rng`. -/
def New (K V : Type) [LinearOrder K] (opts : List Option') (now : Int)
    (rng : List Nat) : Except String (SkipList K V) :=
  let o := opts.foldl (fun acc opt => opt.apply acc)
    { prob := 1/2, seed := now, hashmap := false }
  if o.prob < 0 ∨ o.prob > 1 then .error "probability out of range"
  else
    .ok { arena := []
          nodes := if o.hashmap then some [] else none
          header := List.replicate MaxLevel none
          last := none
          length := 0
          prob := o.prob
          rng := rng }

/-- The lane-`L` node sequence of the list, read from the heap. -/
def lanesAt (l : SkipList K V) (L : Nat) : List Nat :=
  Walk.chase (laneOf l) L (l.arena.length + 1) none

/-- The lane-0 node sequence of the list. -/
def chain (l : SkipList K V) : List Nat :=
  lanesAt l 0

/-- Backward traversal following `prev` references, starting from a node
handle. -/
def backFrom (l : SkipList K V) : Nat → Option Nat → List Nat
  | 0, _ => []
  | fuel + 1, p =>
    match p with
    | none => []
    | some j => j :: backFrom l fuel (prevOf l j)

/-- The backward node sequence from `Last()`. -/
def backChain (l : SkipList K V) : List Nat :=
  backFrom l (l.arena.length + 1) (Last l)

/-- Well-formedness of a `skiplist.go` list state: the lane structure is a
well-formed multi-level chain over the node order `chain l`, the header has
its declared 32 slots, node handles are live arena indices, and `last`,
`length`, the backward references and the optional hash index agree with
the lane-0 chain. -/
structure WF (l : SkipList K V) : Prop where
  lanesWF : Walk.LaneWF (laneOf l) (keyAt l) MaxLevel (chain l) (lanesAt l)
  headerLen : l.header.length = MaxLevel
  sizeOk : ∀ a ∈ chain l, a < l.arena.length
  lastOk : l.last = (chain l).getLast?
  lengthOk : l.length = ((chain l).length : Int)
  prevHead : ∀ h ∈ (chain l).head?.toList, prevOf l h = none
  prevChain : ∀ pr ∈ (chain l).zip (chain l).tail, prevOf l pr.2 = some pr.1
  mapMem : ∀ p ∈ l.nodes.getD [], p.2 ∈ chain l ∧ keyAt l p.2 = some p.1
  mapLook : ∀ a ∈ chain l, ∀ ka ∈ (keyAt l a).toList,
    l.nodes.isSome = true → lookupA (l.nodes.getD []) ka = some a
  mapNodup : ((l.nodes.getD []).map Prod.fst).Nodup

theorem WF.lenArena {l : SkipList K V} (h : WF l) :
    (chain l).length ≤ l.arena.length :=
  Walk.length_le_of_nodup_lt (Walk.nodup_of_sorted h.lanesWF.sorted) h.sizeOk

theorem WF.prevHd {l : SkipList K V} (h : WF l) {hd : Nat}
    (hh : (chain l).head? = some hd) : prevOf l hd = none :=
  h.prevHead hd (by rw [hh]; simp)

theorem WF.map_mem {l : SkipList K V} {m : List (K × Nat)} {k : K} {i : Nat}
    (h : WF l) (hn : l.nodes = some m) (hp : (k, i) ∈ m) :
    i ∈ chain l ∧ keyAt l i = some k :=
  h.mapMem (k, i) (by rw [hn]; simpa using hp)

theorem WF.map_lookup {l : SkipList K V} {m : List (K × Nat)} {a : Nat}
    {ka : K} (h : WF l) (hn : l.nodes = some m) (ha : a ∈ chain l)
    (hk : keyAt l a = some ka) : lookupA m ka = some a := by
  have := h.mapLook a ha ka (by rw [hk]; simp) (by rw [hn]; rfl)
  rwa [hn] at this

theorem lookupA_mem {m : List (K × Nat)} {k : K} {i : Nat}
    (h : lookupA m k = some i) : (k, i) ∈ m := by
  unfold lookupA at h
  cases hf : m.find? (fun p => decide (p.1 = k)) with
  | none => rw [hf] at h; simp at h
  | some pr =>
    rw [hf] at h
    simp at h
    have hmem := List.mem_of_find?_eq_some hf
    have hkey := List.find?_some hf
    simp only [decide_eq_true_eq] at hkey
    have hpr : pr = (k, i) := by
      cases pr with
      | mk a b =>
        simp only at hkey h
        simp [hkey, h]
    rw [hpr] at hmem
    exact hmem

theorem setLaneAt_none_eq (l : SkipList K V) (L : Nat) (v : Option Nat) :
    setLaneAt l none L v = { l with header := l.header.set L v } := rfl

theorem setLaneAt_some_eq (l : SkipList K V) (L : Nat) (v : Option Nat)
    {j : Nat} {nd : Node K V} (hg : l.arena.get? j = some nd) :
    setLaneAt l (some j) L v =
      { l with arena := l.arena.set j { nd with lanes := nd.lanes.set L v } } := by
  show (match l.arena.get? j with
    | none => l
    | some nd =>
      { l with arena := l.arena.set j { nd with lanes := nd.lanes.set L v } }) = _
  rw [hg]

theorem setLaneAt_dangling (l : SkipList K V) (L : Nat) (v : Option Nat)
    {j : Nat} (hg : l.arena.get? j = none) :
    setLaneAt l (some j) L v = l := by
  show (match l.arena.get? j with
    | none => l
    | some nd =>
      { l with arena := l.arena.set j { nd with lanes := nd.lanes.set L v } }) = _
  rw [hg]

theorem setPrevAt_some_eq (l : SkipList K V) (v : Option Nat)
    {i : Nat} {nd : Node K V} (hg : l.arena.get? i = some nd) :
    setPrevAt l i v = { l with arena := l.arena.set i { nd with prev := v } } := by
  unfold setPrevAt
  rw [hg]

theorem setPrevAt_dangling (l : SkipList K V) (v : Option Nat)
    {i : Nat} (hg : l.arena.get? i = none) :
    setPrevAt l i v = l := by
  unfold setPrevAt
  rw [hg]

theorem laneOf_some_eq (l : SkipList K V) (L : Nat)
    {j : Nat} {nd : Node K V} (hg : l.arena.get? j = some nd) :
    laneOf l (some j) L = nd.lanes.getD L none := by
  show (match l.arena.get? j with
    | none => none
    | some nd => nd.lanes.getD L none) = _
  rw [hg]

theorem laneOf_dangling (l : SkipList K V) (L : Nat)
    {j : Nat} (hg : l.arena.get? j = none) :
    laneOf l (some j) L = none := by
  show (match l.arena.get? j with
    | none => none
    | some nd => nd.lanes.getD L none) = _
  rw [hg]

theorem setLaneAt_arena_length (l : SkipList K V) (p : Option Nat) (L : Nat)
    (v : Option Nat) : (setLaneAt l p L v).arena.length = l.arena.length := by
  cases p with
  | none => rfl
  | some j =>
    cases hg : l.arena.get? j with
    | none => rw [setLaneAt_dangling l L v hg]
    | some nd => rw [setLaneAt_some_eq l L v hg]; simp

theorem setLaneAt_nodes (l : SkipList K V) (p : Option Nat) (L : Nat)
    (v : Option Nat) : (setLaneAt l p L v).nodes = l.nodes := by
  cases p with
  | none => rfl
  | some j =>
    cases hg : l.arena.get? j with
    | none => rw [setLaneAt_dangling l L v hg]
    | some nd => rw [setLaneAt_some_eq l L v hg]

theorem setLaneAt_last (l : SkipList K V) (p : Option Nat) (L : Nat)
    (v : Option Nat) : (setLaneAt l p L v).last = l.last := by
  cases p with
  | none => rfl
  | some j =>
    cases hg : l.arena.get? j with
    | none => rw [setLaneAt_dangling l L v hg]
    | some nd => rw [setLaneAt_some_eq l L v hg]

theorem setLaneAt_length (l : SkipList K V) (p : Option Nat) (L : Nat)
    (v : Option Nat) : (setLaneAt l p L v).length = l.length := by
  cases p with
  | none => rfl
  | some j =>
    cases hg : l.arena.get? j with
    | none => rw [setLaneAt_dangling l L v hg]
    | some nd => rw [setLaneAt_some_eq l L v hg]

theorem setLaneAt_header_length (l : SkipList K V) (p : Option Nat) (L : Nat)
    (v : Option Nat) : (setLaneAt l p L v).header.length = l.header.length := by
  cases p with
  | none => rw [setLaneAt_none_eq]; simp
  | some j =>
    cases hg : l.arena.get? j with
    | none => rw [setLaneAt_dangling l L v hg]
    | some nd => rw [setLaneAt_some_eq l L v hg]

theorem keyAt_setLaneAt (l : SkipList K V) (p : Option Nat) (L : Nat)
    (v : Option Nat) (i : Nat) : keyAt (setLaneAt l p L v) i = keyAt l i := by
  cases p with
  | none => rfl
  | some j =>
    cases hg : l.arena.get? j with
    | none => rw [setLaneAt_dangling l L v hg]
    | some nd =>
      rw [setLaneAt_some_eq l L v hg]
      unfold keyAt
      by_cases hij : j = i
      · subst hij
        show ((l.arena.set j _).get? j).map _ = _
        rw [List.get?_set_eq_of_lt _ (getQ_some_lt hg), hg]
        rfl
      · show ((l.arena.set j _).get? i).map _ = _
        rw [List.get?_set_ne _ _ hij]

theorem valueAt_setLaneAt (l : SkipList K V) (p : Option Nat) (L : Nat)
    (v : Option Nat) (i : Nat) : valueAt (setLaneAt l p L v) i = valueAt l i := by
  cases p with
  | none => rfl
  | some j =>
    cases hg : l.arena.get? j with
    | none => rw [setLaneAt_dangling l L v hg]
    | some nd =>
      rw [setLaneAt_some_eq l L v hg]
      unfold valueAt
      by_cases hij : j = i
      · subst hij
        show ((l.arena.set j _).get? j).map _ = _
        rw [List.get?_set_eq_of_lt _ (getQ_some_lt hg), hg]
        rfl
      · show ((l.arena.set j _).get? i).map _ = _
        rw [List.get?_set_ne _ _ hij]

theorem prevOf_setLaneAt (l : SkipList K V) (p : Option Nat) (L : Nat)
    (v : Option Nat) (i : Nat) : prevOf (setLaneAt l p L v) i = prevOf l i := by
  cases p with
  | none => rfl
  | some j =>
    cases hg : l.arena.get? j with
    | none => rw [setLaneAt_dangling l L v hg]
    | some nd =>
      rw [setLaneAt_some_eq l L v hg]
      unfold prevOf
      by_cases hij : j = i
      · subst hij
        show (match (l.arena.set j _).get? j with
          | none => none
          | some nd => nd.prev) = _
        rw [List.get?_set_eq_of_lt _ (getQ_some_lt hg), hg]
      · show (match (l.arena.set j _).get? i with
          | none => none
          | some nd => nd.prev) = _
        rw [List.get?_set_ne _ _ hij]

theorem laneOf_setLaneAt_ne (l : SkipList K V) {p q : Option Nat} {L L' : Nat}
    (v : Option Nat) (h : q ≠ p ∨ L' ≠ L) :
    laneOf (setLaneAt l p L v) q L' = laneOf l q L' := by
  cases p with
  | none =>
    cases q with
    | none =>
      have hL : L' ≠ L := by
        rcases h with h | h
        · exact absurd rfl h
        · exact h
      rw [setLaneAt_none_eq]
      show (l.header.set L v).getD L' none = l.header.getD L' none
      rw [List.getD_eq_get?, List.getD_eq_get?, List.get?_set_ne _ _ (Ne.symm hL)]
    | some i => rfl
  | some j =>
    cases hg : l.arena.get? j with
    | none => rw [setLaneAt_dangling l L v hg]
    | some nd =>
      rw [setLaneAt_some_eq l L v hg]
      cases q with
      | none => rfl
      | some i =>
        unfold laneOf
        by_cases hij : j = i
        · subst hij
          have hL : L' ≠ L := by
            rcases h with h | h
            · exact absurd rfl h
            · exact h
          show (match (l.arena.set j _).get? j with
            | none => none
            | some nd => nd.lanes.getD L' none) =
            (match l.arena.get? j with
            | none => none
            | some nd => nd.lanes.getD L' none)
          rw [List.get?_set_eq_of_lt _ (getQ_some_lt hg), hg]
          show (nd.lanes.set L v).getD L' none = nd.lanes.getD L' none
          rw [List.getD_eq_get?, List.getD_eq_get?,
            List.get?_set_ne _ _ (Ne.symm hL)]
        · show (match (l.arena.set j _).get? i with
            | none => none
            | some nd => nd.lanes.getD L' none) = _
          rw [List.get?_set_ne _ _ hij]

theorem laneOf_setLaneAt_self (l : SkipList K V) {p : Option Nat} {L : Nat}
    (v : Option Nat) {w : Nat} (h : laneOf l p L = some w) :
    laneOf (setLaneAt l p L v) p L = v := by
  cases p with
  | none =>
    have hread : l.header.get? L ≠ none := by
      intro hnone
      have : l.header.getD L none = none := by
        rw [List.getD_eq_get?, hnone]
        rfl
      rw [show laneOf l none L = l.header.getD L none from rfl, this] at h
      exact absurd h (by simp)
    have hlt : L < l.header.length := by
      by_contra hge
      exact hread (List.get?_eq_none.mpr (by omega))
    rw [setLaneAt_none_eq]
    show (l.header.set L v).getD L none = v
    rw [List.getD_eq_get?, List.get?_set_eq_of_lt _ hlt]
    rfl
  | some j =>
    cases hg : l.arena.get? j with
    | none =>
      rw [laneOf_dangling l L hg] at h
      exact absurd h (by simp)
    | some nd =>
      rw [laneOf_some_eq l L hg] at h
      have hread : nd.lanes.get? L ≠ none := by
        intro hnone
        rw [List.getD_eq_get?, hnone] at h
        exact absurd h (by simp)
      have hlt : L < nd.lanes.length := by
        by_contra hge
        exact hread (List.get?_eq_none.mpr (by omega))
      rw [setLaneAt_some_eq l L v hg]
      show (match (l.arena.set j _).get? j with
        | none => none
        | some nd => nd.lanes.getD L none) = _
      rw [List.get?_set_eq_of_lt _ (getQ_some_lt hg)]
      show (nd.lanes.set L v).getD L none = v
      rw [List.getD_eq_get?, List.get?_set_eq_of_lt _ hlt]
      rfl

theorem setPrevAt_arena_length (l : SkipList K V) (i : Nat) (v : Option Nat) :
    (setPrevAt l i v).arena.length = l.arena.length := by
  cases hg : l.arena.get? i with
  | none => rw [setPrevAt_dangling l v hg]
  | some nd => rw [setPrevAt_some_eq l v hg]; simp

theorem setPrevAt_nodes (l : SkipList K V) (i : Nat) (v : Option Nat) :
    (setPrevAt l i v).nodes = l.nodes := by
  cases hg : l.arena.get? i with
  | none => rw [setPrevAt_dangling l v hg]
  | some nd => rw [setPrevAt_some_eq l v hg]

theorem setPrevAt_last (l : SkipList K V) (i : Nat) (v : Option Nat) :
    (setPrevAt l i v).last = l.last := by
  cases hg : l.arena.get? i with
  | none => rw [setPrevAt_dangling l v hg]
  | some nd => rw [setPrevAt_some_eq l v hg]

theorem setPrevAt_length (l : SkipList K V) (i : Nat) (v : Option Nat) :
    (setPrevAt l i v).length = l.length := by
  cases hg : l.arena.get? i with
  | none => rw [setPrevAt_dangling l v hg]
  | some nd => rw [setPrevAt_some_eq l v hg]

theorem setPrevAt_header (l : SkipList K V) (i : Nat) (v : Option Nat) :
    (setPrevAt l i v).header = l.header := by
  cases hg : l.arena.get? i with
  | none => rw [setPrevAt_dangling l v hg]
  | some nd => rw [setPrevAt_some_eq l v hg]

theorem keyAt_setPrevAt (l : SkipList K V) (i : Nat) (v : Option Nat)
    (i' : Nat) : keyAt (setPrevAt l i v) i' = keyAt l i' := by
  cases hg : l.arena.get? i with
  | none => rw [setPrevAt_dangling l v hg]
  | some nd =>
    rw [setPrevAt_some_eq l v hg]
    unfold keyAt
    by_cases hii : i = i'
    · subst hii
      show ((l.arena.set i _).get? i).map _ = _
      rw [List.get?_set_eq_of_lt _ (getQ_some_lt hg), hg]
      rfl
    · show ((l.arena.set i _).get? i').map _ = _
      rw [List.get?_set_ne _ _ hii]

theorem valueAt_setPrevAt (l : SkipList K V) (i : Nat) (v : Option Nat)
    (i' : Nat) : valueAt (setPrevAt l i v) i' = valueAt l i' := by
  cases hg : l.arena.get? i with
  | none => rw [setPrevAt_dangling l v hg]
  | some nd =>
    rw [setPrevAt_some_eq l v hg]
    unfold valueAt
    by_cases hii : i = i'
    · subst hii
      show ((l.arena.set i _).get? i).map _ = _
      rw [List.get?_set_eq_of_lt _ (getQ_some_lt hg), hg]
      rfl
    · show ((l.arena.set i _).get? i').map _ = _
      rw [List.get?_set_ne _ _ hii]

theorem laneOf_setPrevAt (l : SkipList K V) (i : Nat) (v : Option Nat)
    (q : Option Nat) (L : Nat) : laneOf (setPrevAt l i v) q L = laneOf l q L := by
  cases hg : l.arena.get? i with
  | none => rw [setPrevAt_dangling l v hg]
  | some nd =>
    rw [setPrevAt_some_eq l v hg]
    cases q with
    | none => rfl
    | some m =>
      unfold laneOf
      by_cases him : i = m
      · subst him
        show (match (l.arena.set i _).get? i with
          | none => none
          | some nd => nd.lanes.getD L none) =
          (match l.arena.get? i with
          | none => none
          | some nd => nd.lanes.getD L none)
        rw [List.get?_set_eq_of_lt _ (getQ_some_lt hg), hg]
      · show (match (l.arena.set i _).get? m with
          | none => none
          | some nd => nd.lanes.getD L none) = _
        rw [List.get?_set_ne _ _ him]

theorem prevOf_setPrevAt_ne (l : SkipList K V) (i : Nat) (v : Option Nat)
    {i' : Nat} (h : i' ≠ i) : prevOf (setPrevAt l i v) i' = prevOf l i' := by
  cases hg : l.arena.get? i with
  | none => rw [setPrevAt_dangling l v hg]
  | some nd =>
    rw [setPrevAt_some_eq l v hg]
    unfold prevOf
    show (match (l.arena.set i _).get? i' with
      | none => none
      | some nd => nd.prev) = _
    rw [List.get?_set_ne _ _ (Ne.symm h)]

theorem prevOf_setPrevAt_self (l : SkipList K V) (i : Nat) (v : Option Nat)
    {nd : Node K V} (hg : l.arena.get? i = some nd) :
    prevOf (setPrevAt l i v) i = v := by
  rw [setPrevAt_some_eq l v hg]
  unfold prevOf
  show (match (l.arena.set i _).get? i with
    | none => none
    | some nd => nd.prev) = _
  rw [List.get?_set_eq_of_lt _ (getQ_some_lt hg)]

theorem lanesAt_setPrevAt (l : SkipList K V) (i : Nat) (v : Option Nat)
    (L : Nat) : lanesAt (setPrevAt l i v) L = lanesAt l L := by
  unfold lanesAt
  rw [setPrevAt_arena_length]
  exact Walk.chase_congr (fun q => laneOf_setPrevAt l i v q L) _ none

theorem chain_setPrevAt (l : SkipList K V) (i : Nat) (v : Option Nat) :
    chain (setPrevAt l i v) = chain l := by
  unfold chain
  exact lanesAt_setPrevAt l i v 0

theorem lookupA_not_mem {m : List (K × Nat)} {k : K}
    (h : k ∉ m.map Prod.fst) : lookupA m k = none := by
  induction m with
  | nil => rfl
  | cons pr t ih =>
    obtain ⟨a, b⟩ := pr
    have hak : ¬ (a = k) := by
      intro hak
      exact h (by simp [hak])
    unfold lookupA
    rw [List.find?_cons_of_neg _ (by simpa using hak)]
    exact ih (fun hm => h (by simp [hm]))

theorem lookupA_eraseA_self {m : List (K × Nat)}
    (hnd : (m.map Prod.fst).Nodup) (k : K) :
    lookupA (eraseA m k) k = none := by
  induction m with
  | nil => rfl
  | cons pr t ih =>
    obtain ⟨a, b⟩ := pr
    rw [List.map_cons, List.nodup_cons] at hnd
    unfold eraseA
    by_cases hak : a = k
    · rw [if_pos hak]
      subst hak
      exact lookupA_not_mem hnd.1
    · rw [if_neg hak]
      unfold lookupA
      rw [List.find?_cons_of_neg _ (by simpa using hak)]
      exact ih hnd.2

/-- State agreement during the removal descent of `skiplist.go`: with the
loop counter at `n`, everything except the lanes at levels `≥ n` is still
exactly as in the starting list `l`. -/
structure RState (l st : SkipList K V) (n : Nat) : Prop where
  alen : st.arena.length = l.arena.length
  keys : ∀ i, keyAt st i = keyAt l i
  vals : ∀ i, valueAt st i = valueAt l i
  prevs : ∀ i, prevOf st i = prevOf l i
  nds : st.nodes = l.nodes
  lst : st.last = l.last
  len : st.length = l.length
  low : ∀ q L', L' < n → laneOf st q L' = laneOf l q L'

/-- State of `skiplist.go`'s `Remove` right after the descent found and
spliced out the node `j0`: every node field is unchanged and the lane-0
chain routes around `j0`. -/
structure RFinal (l st : SkipList K V) (j0 : Nat) : Prop where
  alen : st.arena.length = l.arena.length
  keys : ∀ i, keyAt st i = keyAt l i
  vals : ∀ i, valueAt st i = valueAt l i
  prevs : ∀ i, prevOf st i = prevOf l i
  nds : st.nodes = l.nodes
  lst : st.last = l.last
  len : st.length = l.length
  chain0 : Walk.isChain (laneOf st) 0 none ((chain l).erase j0)
  keep0 : laneOf st (some j0) 0 = laneOf l (some j0) 0

/-- When no node carries the key, no write of the descent fires: the state
comes out of the level loop unchanged. -/
theorem removeLoop_absent {l : SkipList K V} (h : WF l) {k : K}
    (habs : ∀ a ∈ chain l, keyAt l a ≠ some k) :
    ∀ n, n ≤ MaxLevel → ∀ p f, Walk.InvAt (lanesAt l) (keyAt l) k n p →
      ∃ p', removeLoop k n (l, p, f) = (l, p', f) := by
  intro n
  induction n with
  | zero =>
    intro _ p f _
    exact ⟨p, rfl⟩
  | succ m ih =>
    intro hle p f hInv
    have hm : m < MaxLevel := by omega
    have hInvm : Walk.InvAt (lanesAt l) (keyAt l) k m p := by
      rcases hInv with hp | ⟨a, hp, ha, hklt⟩
      · exact Or.inl hp
      · exact Or.inr ⟨a, hp, h.lanesWF.mono m hm a ha, hklt⟩
    have hfuel : (chain l).length ≤ l.arena.length + 1 := by
      have := h.lenArena
      omega
    have hInvPos : Walk.InvAt (lanesAt l) (keyAt l) k m
        (advanceLT l k m (l.arena.length + 1) p) :=
      Walk.advance_invAt h.lanesWF hfuel hm hInvm
    have hstep : removeLevelStep k (l, p, f) m =
        (l, advanceLT l k m (l.arena.length + 1) p, f) := by
      show (match laneOf l (advanceLT l k m (l.arena.length + 1) p) m with
        | some j =>
          if keyAt l j = some k then
            (setLaneAt l (advanceLT l k m (l.arena.length + 1) p) m
              (laneOf l (some j) m),
             advanceLT l k m (l.arena.length + 1) p, some j)
          else (l, advanceLT l k m (l.arena.length + 1) p, f)
        | none => (l, advanceLT l k m (l.arena.length + 1) p, f)) = _
      cases hl0 : laneOf l (advanceLT l k m (l.arena.length + 1) p) m with
      | none => rfl
      | some j =>
        have hmem := Walk.advance_next_mem h.lanesWF hfuel hm hInvm hl0
        have hkj : keyAt l j ≠ some k :=
          habs j ((h.lanesWF.sub m hm).subset hmem.1)
        show (if keyAt l j = some k then _ else _) = _
        rw [if_neg hkj]
    rw [show removeLoop k (m + 1) (l, p, f) =
      removeLoop k m (removeLevelStep k (l, p, f) m) from rfl, hstep]
    exact ih (by omega) _ f hInvPos

/-- `skiplist.go` `Remove` on an absent key: the whole list state is
returned unchanged, with an empty handle. -/
theorem Remove_absent {l : SkipList K V} (h : WF l) {k : K}
    (habs : ∀ a ∈ chain l, keyAt l a ≠ some k) :
    Remove l k = (l, none) := by
  cases hn : l.nodes with
  | some m =>
    have hlk : lookupA m k = none := by
      cases hl : lookupA m k with
      | none => rfl
      | some i =>
        have hmem := h.map_mem hn (lookupA_mem hl)
        exact absurd hmem.2 (habs i hmem.1)
    unfold Remove
    rw [hn]
    simp [hlk]
  | none =>
    obtain ⟨p', hloop⟩ := removeLoop_absent h habs MaxLevel (le_refl _)
      none none (Or.inl rfl)
    unfold Remove
    rw [hn]
    simp only [Bool.false_eq_true, if_false]
    rw [hloop]

/-- The lane-0 successor of a chain node is a different chain node. -/
theorem lane0_next_ne {l : SkipList K V} (h : WF l) {j succ : Nat}
    (hj : j ∈ chain l) (hs : laneOf l (some j) 0 = some succ) : succ ≠ j := by
  obtain ⟨pre, suf, hsplit, hch⟩ :=
    Walk.exists_suffix_chain h.lanesWF h.lanesWF.one_le hj
  have hhead := Walk.isChain_head _ _ _ _ hch
  rw [hs] at hhead
  have hsuccmem : succ ∈ suf := by
    cases hsuf : suf with
    | nil => rw [hsuf] at hhead; simp at hhead
    | cons c t =>
      rw [hsuf] at hhead
      have : succ = c := by simpa using hhead
      rw [this]
      simp
  have hnd : (chain l).Nodup := Walk.nodup_of_sorted h.lanesWF.sorted
  have hsplit' : chain l = pre ++ j :: suf := hsplit
  rw [hsplit'] at hnd
  have hjs : j ∉ suf := by
    have := (List.nodup_cons.mp hnd.of_append_right).1
    exact this
  intro heq
  rw [heq] at hsuccmem
  exact hjs hsuccmem

/-- The lane-0 chain of any state whose lane-0 reads match a spliced state
is the original chain with `j0` removed. -/
theorem chain_eq_erase_of {l st' : SkipList K V} {j0 : Nat} (h : WF l)
    (hj : j0 ∈ chain l) (hfin : RFinal l st' j0) (st4 : SkipList K V)
    (hlen4 : st4.arena.length = l.arena.length)
    (hlane0 : ∀ x, laneOf st4 x 0 = laneOf st' x 0) :
    chain st4 = (chain l).erase j0 := by
  show Walk.chase (laneOf st4) 0 (st4.arena.length + 1) none = (chain l).erase j0
  rw [hlen4, Walk.chase_congr hlane0 (l.arena.length + 1) none]
  refine Walk.chase_of_isChain _ _ _ _ _ hfin.chain0 ?_
  rw [List.length_erase_of_mem hj]
  have := h.lenArena
  omega

/-- The removal descent of `skiplist.go` on a present key: coming into the
level loop with everything still as in `l` and a valid descent position,
the loop returns the handle of the (unique) node carrying the key, leaves
every node field unchanged, and reroutes the lane-0 chain around it. -/
theorem removeLoop_present {l : SkipList K V} (h : WF l) {k : K} {j0 : Nat}
    (hj : j0 ∈ chain l) (hk : keyAt l j0 = some k) :
    ∀ n, 1 ≤ n → n ≤ MaxLevel → ∀ st p f,
      RState l st n → Walk.InvAt (lanesAt l) (keyAt l) k n p →
      (removeLoop k n (st, p, f)).2.2 = some j0 ∧
      RFinal l (removeLoop k n (st, p, f)).1 j0 := by
  intro n
  induction n with
  | zero =>
    intro h1
    omega
  | succ m ih =>
    intro h1 hle st p f R hInv
    have hm : m < MaxLevel := by omega
    have hInvm : Walk.InvAt (lanesAt l) (keyAt l) k m p := by
      rcases hInv with hp | ⟨a, hp, ha, hklt⟩
      · exact Or.inl hp
      · exact Or.inr ⟨a, hp, h.lanesWF.mono m hm a ha, hklt⟩
    have hfuel : (chain l).length ≤ l.arena.length + 1 := by
      have := h.lenArena
      omega
    have hlane_m : ∀ q, laneOf st q m = laneOf l q m := fun q => R.low q m (by omega)
    have hposeq : advanceLT st k m (st.arena.length + 1) p =
        advanceLT l k m (l.arena.length + 1) p := by
      unfold advanceLT
      rw [R.alen]
      exact Walk.advanceLT_congr hlane_m R.keys _ _
    have hInvPos : Walk.InvAt (lanesAt l) (keyAt l) k m
        (advanceLT l k m (l.arena.length + 1) p) :=
      Walk.advance_invAt h.lanesWF hfuel hm hInvm
    cases m with
    | zero =>
      have hceil : laneOf l (advanceLT l k 0 (l.arena.length + 1) p) 0 =
          Walk.ceilSpec (keyAt l) k (chain l) :=
        Walk.advance_zero_ceil h.lanesWF hfuel hInvm
      have hceq : Walk.ceilSpec (keyAt l) k (chain l) = some j0 :=
        Walk.ceilSpec_mem h.lanesWF.sorted hj hk
      have hl0 : laneOf st (advanceLT l k 0 (l.arena.length + 1) p) 0 = some j0 := by
        rw [hlane_m _, hceil, hceq]
      have hkey_st : keyAt st j0 = some k := by rw [R.keys]; exact hk
      have hj0pos : (some j0 : Option Nat) ≠ advanceLT l k 0 (l.arena.length + 1) p := by
        intro heq
        rcases hInvPos with hp | ⟨a, hp, ha, hklt⟩
        · rw [← heq] at hp
          exact absurd hp (by simp)
        · rw [← heq] at hp
          have haj : j0 = a := by simpa using hp
          subst haj
          unfold Walk.keyLT at hklt
          rw [hk] at hklt
          simp at hklt
      have hstep : removeLevelStep k (st, p, f) 0 =
          (setLaneAt st (advanceLT l k 0 (l.arena.length + 1) p) 0
            (laneOf st (some j0) 0),
           advanceLT l k 0 (l.arena.length + 1) p, some j0) := by
        show (match laneOf st (advanceLT st k 0 (st.arena.length + 1) p) 0 with
          | some j =>
            if keyAt st j = some k then
              (setLaneAt st (advanceLT st k 0 (st.arena.length + 1) p) 0
                (laneOf st (some j) 0),
               advanceLT st k 0 (st.arena.length + 1) p, some j)
            else (st, advanceLT st k 0 (st.arena.length + 1) p, f)
          | none => (st, advanceLT st k 0 (st.arena.length + 1) p, f)) = _
        rw [hposeq, hl0]
        show (if keyAt st j0 = some k then _ else _) = _
        rw [if_pos hkey_st]
      rw [show removeLoop k 1 (st, p, f) = removeLevelStep k (st, p, f) 0 from rfl,
        hstep]
      refine ⟨rfl, ?_⟩
      have hwrite_val : laneOf st (some j0) 0 = laneOf l (some j0) 0 := hlane_m _
      have hchl : Walk.isChain (laneOf l) 0 none (chain l) :=
        h.lanesWF.chains 0 (by exact h.lanesWF.one_le)
      have hch_st : Walk.isChain (laneOf st) 0 none (chain l) :=
        Walk.isChain_congr _ _ hchl (fun x _ => hlane_m x)
      have hhead_dw : ((chain l).dropWhile
          (fun x => Walk.keyLT (keyAt l) x k)).head? = some j0 := hceq
      have hdw : (chain l).dropWhile (fun x => Walk.keyLT (keyAt l) x k) =
          j0 :: ((chain l).dropWhile (fun x => Walk.keyLT (keyAt l) x k)).tail := by
        cases hcase : (chain l).dropWhile (fun x => Walk.keyLT (keyAt l) x k) with
        | nil => rw [hcase] at hhead_dw; simp at hhead_dw
        | cons c t =>
          rw [hcase] at hhead_dw
          have : c = j0 := by simpa using hhead_dw
          rw [this]
          rfl
      have hsplitns : chain l =
          (chain l).takeWhile (fun x => Walk.keyLT (keyAt l) x k) ++
          j0 :: ((chain l).dropWhile (fun x => Walk.keyLT (keyAt l) x k)).tail := by
        conv_lhs => rw [← List.takeWhile_append_dropWhile
          (fun x => Walk.keyLT (keyAt l) x k) (chain l)]
        rw [← hdw]
      have hj0nA : j0 ∉ (chain l).takeWhile (fun x => Walk.keyLT (keyAt l) x k) := by
        intro hmem
        have := List.mem_takeWhile_imp hmem
        unfold Walk.keyLT at this
        rw [hk] at this
        simp at this
      have hnd : ((chain l).takeWhile (fun x => Walk.keyLT (keyAt l) x k) ++
          j0 :: ((chain l).dropWhile (fun x => Walk.keyLT (keyAt l) x k)).tail).Nodup := by
        rw [← hsplitns]
        exact Walk.nodup_of_sorted h.lanesWF.sorted
      have hqform : advanceLT l k 0 (l.arena.length + 1) p =
          (match ((chain l).takeWhile
              (fun x => Walk.keyLT (keyAt l) x k)).getLast? with
           | none => none
           | some a => some a) :=
        Walk.advance_zero_landing h.lanesWF hfuel hInvm
      have hsuffix : Walk.isChain (laneOf l) 0 (some j0)
          ((chain l).dropWhile (fun x => Walk.keyLT (keyAt l) x k)).tail := by
        refine Walk.isChain_suffix (laneOf l) 0
          ((chain l).takeWhile (fun x => Walk.keyLT (keyAt l) x k)) none j0 _ ?_
        rw [← hsplitns]
        exact hchl
      have hBhead : laneOf l (some j0) 0 =
          (((chain l).dropWhile (fun x => Walk.keyLT (keyAt l) x k)).tail).head? :=
        Walk.isChain_head _ _ _ _ hsuffix
      have hlv : laneOf (setLaneAt st (advanceLT l k 0 (l.arena.length + 1) p) 0
            (laneOf st (some j0) 0))
          (advanceLT l k 0 (l.arena.length + 1) p) 0 = laneOf st (some j0) 0 :=
        laneOf_setLaneAt_self st _ hl0
      have hsplice : Walk.isChain
          (laneOf (setLaneAt st (advanceLT l k 0 (l.arena.length + 1) p) 0
            (laneOf st (some j0) 0))) 0 none
          ((chain l).takeWhile (fun x => Walk.keyLT (keyAt l) x k) ++
           ((chain l).dropWhile (fun x => Walk.keyLT (keyAt l) x k)).tail) := by
        refine @Walk.chain_splice (laneOf st)
          (laneOf (setLaneAt st (advanceLT l k 0 (l.arena.length + 1) p) 0
            (laneOf st (some j0) 0))) 0 j0
          (((chain l).dropWhile (fun x => Walk.keyLT (keyAt l) x k)).tail)
          (advanceLT l k 0 (l.arena.length + 1) p)
          ((chain l).takeWhile (fun x => Walk.keyLT (keyAt l) x k)) none
          ?_ hnd (Or.inl rfl) ?_ ?_ ?_
        · rw [← hsplitns]
          exact hch_st
        · exact hqform
        · rw [hlv, hwrite_val, hBhead]
        · intro x hx
          exact laneOf_setLaneAt_ne st _ (Or.inl hx)
      have herase : (chain l).erase j0 =
          (chain l).takeWhile (fun x => Walk.keyLT (keyAt l) x k) ++
          ((chain l).dropWhile (fun x => Walk.keyLT (keyAt l) x k)).tail := by
        conv_lhs => rw [hsplitns]
        rw [List.erase_append_right _ hj0nA, List.erase_cons_head]
      refine ⟨?_, ?_, ?_, ?_, ?_, ?_, ?_, ?_, ?_⟩
      · rw [setLaneAt_arena_length]
        exact R.alen
      · intro i
        rw [keyAt_setLaneAt]
        exact R.keys i
      · intro i
        rw [valueAt_setLaneAt]
        exact R.vals i
      · intro i
        rw [prevOf_setLaneAt]
        exact R.prevs i
      · rw [setLaneAt_nodes]
        exact R.nds
      · rw [setLaneAt_last]
        exact R.lst
      · rw [setLaneAt_length]
        exact R.len
      · rw [herase]
        exact hsplice
      · rw [laneOf_setLaneAt_ne st _ (Or.inl hj0pos)]
        exact hwrite_val
    | succ mm =>
      have hstepgen :
          (removeLevelStep k (st, p, f) (mm + 1) =
            (st, advanceLT l k (mm + 1) (l.arena.length + 1) p, f)) ∨
          (∃ j, removeLevelStep k (st, p, f) (mm + 1) =
            (setLaneAt st (advanceLT l k (mm + 1) (l.arena.length + 1) p) (mm + 1)
              (laneOf st (some j) (mm + 1)),
             advanceLT l k (mm + 1) (l.arena.length + 1) p, some j)) := by
        have hbody : removeLevelStep k (st, p, f) (mm + 1) =
            (match laneOf st (advanceLT l k (mm + 1) (l.arena.length + 1) p) (mm + 1) with
              | some j =>
                if keyAt st j = some k then
                  (setLaneAt st (advanceLT l k (mm + 1) (l.arena.length + 1) p) (mm + 1)
                    (laneOf st (some j) (mm + 1)),
                   advanceLT l k (mm + 1) (l.arena.length + 1) p, some j)
                else (st, advanceLT l k (mm + 1) (l.arena.length + 1) p, f)
              | none => (st, advanceLT l k (mm + 1) (l.arena.length + 1) p, f)) := by
          show (match laneOf st (advanceLT st k (mm + 1) (st.arena.length + 1) p) (mm + 1) with
            | some j =>
              if keyAt st j = some k then
                (setLaneAt st (advanceLT st k (mm + 1) (st.arena.length + 1) p) (mm + 1)
                  (laneOf st (some j) (mm + 1)),
                 advanceLT st k (mm + 1) (st.arena.length + 1) p, some j)
              else (st, advanceLT st k (mm + 1) (st.arena.length + 1) p, f)
            | none => (st, advanceLT st k (mm + 1) (st.arena.length + 1) p, f)) = _
          rw [hposeq]
        rw [hbody]
        cases laneOf st (advanceLT l k (mm + 1) (l.arena.length + 1) p) (mm + 1) with
        | none => exact Or.inl rfl
        | some j =>
          by_cases hkj : keyAt st j = some k
          · refine Or.inr ⟨j, ?_⟩
            show (if keyAt st j = some k then _ else _) = _
            rw [if_pos hkj]
          · refine Or.inl ?_
            show (if keyAt st j = some k then _ else _) = _
            rw [if_neg hkj]
      have hloopeq : removeLoop k (mm + 1 + 1) (st, p, f) =
          removeLoop k (mm + 1) (removeLevelStep k (st, p, f) (mm + 1)) := rfl
      rcases hstepgen with hstep | ⟨j, hstep⟩
      · rw [hloopeq, hstep]
        refine ih (by omega) (by omega) st _ f ?_ hInvPos
        exact ⟨R.alen, R.keys, R.vals, R.prevs, R.nds, R.lst, R.len,
          fun q L' hL' => R.low q L' (by omega)⟩
      · rw [hloopeq, hstep]
        refine ih (by omega) (by omega) _ _ _ ?_ hInvPos
        refine ⟨?_, ?_, ?_, ?_, ?_, ?_, ?_, ?_⟩
        · rw [setLaneAt_arena_length]
          exact R.alen
        · intro i
          rw [keyAt_setLaneAt]
          exact R.keys i
        · intro i
          rw [valueAt_setLaneAt]
          exact R.vals i
        · intro i
          rw [prevOf_setLaneAt]
          exact R.prevs i
        · rw [setLaneAt_nodes]
          exact R.nds
        · rw [setLaneAt_last]
          exact R.lst
        · rw [setLaneAt_length]
          exact R.len
        · intro q L' hL'
          rw [laneOf_setLaneAt_ne st _ (Or.inr (by omega))]
          exact R.low q L' (by omega)

/-- Shared conclusion of the `Remove` tail: any state that agrees with the
spliced state on lanes, keys, values and the removed node's backward
reference, and carries the decremented length and erased hash index, is the
original list minus the removed node. -/
theorem removeTail_facts_any {l st' : SkipList K V} {k : K} {j0 : Nat}
    (h : WF l) (hj : j0 ∈ chain l) (hfin : RFinal l st' j0)
    (st4 : SkipList K V)
    (halen : st4.arena.length = l.arena.length)
    (hlanes : ∀ x, laneOf st4 x 0 = laneOf st' x 0)
    (hkeys : ∀ i, keyAt st4 i = keyAt st' i)
    (hvals : ∀ i, valueAt st4 i = valueAt st' i)
    (hprev : prevOf st4 j0 = prevOf st' j0)
    (hlen : st4.length = l.length - 1)
    (hnodes : st4.nodes = Option.map (fun m => eraseA m k) l.nodes) :
    chain st4 = (chain l).erase j0 ∧
    st4.length = l.length - 1 ∧
    (∀ i, keyAt st4 i = keyAt l i) ∧
    (∀ i, valueAt st4 i = valueAt l i) ∧
    st4.nodes = Option.map (fun m => eraseA m k) l.nodes ∧
    laneOf st4 (some j0) 0 = laneOf l (some j0) 0 ∧
    prevOf st4 j0 = prevOf l j0 :=
  ⟨chain_eq_erase_of h hj hfin st4 halen hlanes, hlen,
   fun i => (hkeys i).trans (hfin.keys i),
   fun i => (hvals i).trans (hfin.vals i), hnodes,
   (hlanes _).trans hfin.keep0, hprev.trans (hfin.prevs j0)⟩

/-- The post-descent tail of `Remove` keeps every node field of the spliced
state, so the result of a successful removal carries exactly the original
list minus the removed node. -/
theorem removeTail_facts {l st' : SkipList K V} {k : K} {j0 : Nat} (h : WF l)
    (hj : j0 ∈ chain l) (hk : keyAt l j0 = some k) (hfin : RFinal l st' j0) :
    chain (removeTail st' k j0) = (chain l).erase j0 ∧
    (removeTail st' k j0).length = l.length - 1 ∧
    (∀ i, keyAt (removeTail st' k j0) i = keyAt l i) ∧
    (∀ i, valueAt (removeTail st' k j0) i = valueAt l i) ∧
    (removeTail st' k j0).nodes = Option.map (fun m => eraseA m k) l.nodes ∧
    laneOf (removeTail st' k j0) (some j0) 0 = laneOf l (some j0) 0 ∧
    prevOf (removeTail st' k j0) j0 = prevOf l j0 := by
  cases hn : l.nodes with
  | some m =>
    have hn' : st'.nodes = some m := by rw [hfin.nds, hn]
    have hl2 : laneOf
        ({ st' with length := st'.length - 1, nodes := some (eraseA m k) } :
          SkipList K V) (some j0) 0 = laneOf l (some j0) 0 := hfin.keep0
    cases hsucc : laneOf l (some j0) 0 with
    | some succ =>
      have htail : removeTail st' k j0 =
          setPrevAt ({ st' with length := st'.length - 1, nodes := some (eraseA m k) } : SkipList K V) succ
            (prevOf ({ st' with length := st'.length - 1, nodes := some (eraseA m k) } : SkipList K V) j0) := by
        show (let st2 :=
            match st'.nodes with
            | some m =>
              { st' with length := st'.length - 1, nodes := some (eraseA m k) }
            | none => { st' with length := st'.length - 1 }
          let st3 :=
            match laneOf st2 (some j0) 0 with
            | some succ => setPrevAt st2 succ (prevOf st2 j0)
            | none => st2
          if laneOf st3 (some j0) 0 = none then { st3 with last := prevOf st3 j0 }
          else st3) = _
        rw [hn']
        show (let st3 :=
            match laneOf ({ st' with length := st'.length - 1, nodes := some (eraseA m k) } :
                SkipList K V) (some j0) 0 with
            | some succ =>
              setPrevAt ({ st' with length := st'.length - 1, nodes := some (eraseA m k) } :
                  SkipList K V) succ
                (prevOf ({ st' with length := st'.length - 1, nodes := some (eraseA m k) } :
                  SkipList K V) j0)
            | none =>
              { st' with length := st'.length - 1, nodes := some (eraseA m k) }
          if laneOf st3 (some j0) 0 = none then { st3 with last := prevOf st3 j0 }
          else st3) = _
        rw [hl2, hsucc]
        show (if laneOf (setPrevAt _ succ _) (some j0) 0 = none
          then _ else setPrevAt _ succ _) = _
        rw [if_neg (by rw [laneOf_setPrevAt, hl2, hsucc]; simp)]
      rw [htail]
      obtain ⟨f1, f2, f3, f4, f5, f6, f7⟩ :=
        @removeTail_facts_any K V _ _ l st' k j0 h hj hfin
          (setPrevAt ({ st' with length := st'.length - 1, nodes := some (eraseA m k) } : SkipList K V) succ
            (prevOf ({ st' with length := st'.length - 1, nodes := some (eraseA m k) } : SkipList K V) j0))
          ((setPrevAt_arena_length _ succ _).trans hfin.alen)
          (fun x => laneOf_setPrevAt _ succ _ x 0)
          (fun i => keyAt_setPrevAt _ succ _ i)
          (fun i => valueAt_setPrevAt _ succ _ i)
          (prevOf_setPrevAt_ne _ succ _ (Ne.symm (lane0_next_ne h hj hsucc)))
          ((setPrevAt_length _ succ _).trans
            (by show st'.length - 1 = l.length - 1; rw [hfin.len]))
          ((setPrevAt_nodes _ succ _).trans
            (by show some (eraseA m k) = _; rw [hn]; rfl))
      rw [hn] at f5
      rw [hsucc] at f6
      exact ⟨f1, f2, f3, f4, f5, f6, f7⟩
    | none =>
      have htail : removeTail st' k j0 =
          { ({ st' with length := st'.length - 1, nodes := some (eraseA m k) } : SkipList K V) with
            last := prevOf ({ st' with length := st'.length - 1, nodes := some (eraseA m k) } : SkipList K V) j0 } := by
        show (let st2 :=
            match st'.nodes with
            | some m =>
              { st' with length := st'.length - 1, nodes := some (eraseA m k) }
            | none => { st' with length := st'.length - 1 }
          let st3 :=
            match laneOf st2 (some j0) 0 with
            | some succ => setPrevAt st2 succ (prevOf st2 j0)
            | none => st2
          if laneOf st3 (some j0) 0 = none then { st3 with last := prevOf st3 j0 }
          else st3) = _
        rw [hn']
        show (let st3 :=
            match laneOf ({ st' with length := st'.length - 1, nodes := some (eraseA m k) } :
                SkipList K V) (some j0) 0 with
            | some succ =>
              setPrevAt ({ st' with length := st'.length - 1, nodes := some (eraseA m k) } :
                  SkipList K V) succ
                (prevOf ({ st' with length := st'.length - 1, nodes := some (eraseA m k) } :
                  SkipList K V) j0)
            | none =>
              { st' with length := st'.length - 1, nodes := some (eraseA m k) }
          if laneOf st3 (some j0) 0 = none then { st3 with last := prevOf st3 j0 }
          else st3) = _
        rw [hl2, hsucc]
        show (if laneOf ({ st' with length := st'.length - 1, nodes := some (eraseA m k) } :
            SkipList K V) (some j0) 0 = none
          then _ else _) = _
        rw [if_pos (by rw [hl2, hsucc])]
      rw [htail]
      obtain ⟨f1, f2, f3, f4, f5, f6, f7⟩ :=
        @removeTail_facts_any K V _ _ l st' k j0 h hj hfin
          ({ ({ st' with length := st'.length - 1, nodes := some (eraseA m k) } : SkipList K V) with
            last := prevOf ({ st' with length := st'.length - 1, nodes := some (eraseA m k) } : SkipList K V) j0 })
          hfin.alen (fun x => rfl) (fun i => rfl) (fun i => rfl) rfl
          (by show st'.length - 1 = l.length - 1; rw [hfin.len])
          (by show some (eraseA m k) = _; rw [hn]; rfl)
      rw [hn] at f5
      rw [hsucc] at f6
      exact ⟨f1, f2, f3, f4, f5, f6, f7⟩
  | none =>
    have hn' : st'.nodes = none := by rw [hfin.nds, hn]
    have hl2 : laneOf
        ({ st' with length := st'.length - 1, nodes := none } : SkipList K V) (some j0) 0 =
        laneOf l (some j0) 0 := hfin.keep0
    cases hsucc : laneOf l (some j0) 0 with
    | some succ =>
      have htail : removeTail st' k j0 =
          setPrevAt ({ st' with length := st'.length - 1, nodes := none } : SkipList K V) succ
            (prevOf ({ st' with length := st'.length - 1, nodes := none } : SkipList K V) j0) := by
        show (let st2 :=
            match st'.nodes with
            | some m =>
              { st' with length := st'.length - 1, nodes := some (eraseA m k) }
            | none => { st' with length := st'.length - 1 }
          let st3 :=
            match laneOf st2 (some j0) 0 with
            | some succ => setPrevAt st2 succ (prevOf st2 j0)
            | none => st2
          if laneOf st3 (some j0) 0 = none then { st3 with last := prevOf st3 j0 }
          else st3) = _
        rw [hn']
        show (let st3 :=
            match laneOf ({ st' with length := st'.length - 1, nodes := none } :
                SkipList K V) (some j0) 0 with
            | some succ =>
              setPrevAt ({ st' with length := st'.length - 1, nodes := none } :
                  SkipList K V) succ
                (prevOf ({ st' with length := st'.length - 1, nodes := none } :
                  SkipList K V) j0)
            | none => { st' with length := st'.length - 1, nodes := none }
          if laneOf st3 (some j0) 0 = none then { st3 with last := prevOf st3 j0 }
          else st3) = _
        rw [hl2, hsucc]
        show (if laneOf (setPrevAt _ succ _) (some j0) 0 = none
          then _ else setPrevAt _ succ _) = _
        rw [if_neg (by rw [laneOf_setPrevAt, hl2, hsucc]; simp)]
      rw [htail]
      obtain ⟨f1, f2, f3, f4, f5, f6, f7⟩ :=
        @removeTail_facts_any K V _ _ l st' k j0 h hj hfin
          (setPrevAt ({ st' with length := st'.length - 1, nodes := none } : SkipList K V) succ
            (prevOf ({ st' with length := st'.length - 1, nodes := none } : SkipList K V) j0))
          ((setPrevAt_arena_length _ succ _).trans hfin.alen)
          (fun x => laneOf_setPrevAt _ succ _ x 0)
          (fun i => keyAt_setPrevAt _ succ _ i)
          (fun i => valueAt_setPrevAt _ succ _ i)
          (prevOf_setPrevAt_ne _ succ _ (Ne.symm (lane0_next_ne h hj hsucc)))
          ((setPrevAt_length _ succ _).trans
            (by show st'.length - 1 = l.length - 1; rw [hfin.len]))
          ((setPrevAt_nodes _ succ _).trans
            (by show (none : Option (List (K × Nat))) = _; rw [hn]; rfl))
      rw [hn] at f5
      rw [hsucc] at f6
      exact ⟨f1, f2, f3, f4, f5, f6, f7⟩
    | none =>
      have htail : removeTail st' k j0 =
          { ({ st' with length := st'.length - 1, nodes := none } : SkipList K V) with
            last := prevOf ({ st' with length := st'.length - 1, nodes := none } : SkipList K V) j0 } := by
        show (let st2 :=
            match st'.nodes with
            | some m =>
              { st' with length := st'.length - 1, nodes := some (eraseA m k) }
            | none => { st' with length := st'.length - 1 }
          let st3 :=
            match laneOf st2 (some j0) 0 with
            | some succ => setPrevAt st2 succ (prevOf st2 j0)
            | none => st2
          if laneOf st3 (some j0) 0 = none then { st3 with last := prevOf st3 j0 }
          else st3) = _
        rw [hn']
        show (let st3 :=
            match laneOf ({ st' with length := st'.length - 1, nodes := none } :
                SkipList K V) (some j0) 0 with
            | some succ =>
              setPrevAt ({ st' with length := st'.length - 1, nodes := none } :
                  SkipList K V) succ
                (prevOf ({ st' with length := st'.length - 1, nodes := none } :
                  SkipList K V) j0)
            | none => { st' with length := st'.length - 1, nodes := none }
          if laneOf st3 (some j0) 0 = none then { st3 with last := prevOf st3 j0 }
          else st3) = _
        rw [hl2, hsucc]
        show (if laneOf ({ st' with length := st'.length - 1, nodes := none } :
            SkipList K V) (some j0) 0 = none
          then _ else _) = _
        rw [if_pos (by rw [hl2, hsucc])]
      rw [htail]
      obtain ⟨f1, f2, f3, f4, f5, f6, f7⟩ :=
        @removeTail_facts_any K V _ _ l st' k j0 h hj hfin
          ({ ({ st' with length := st'.length - 1, nodes := none } : SkipList K V) with
            last := prevOf ({ st' with length := st'.length - 1, nodes := none } : SkipList K V) j0 })
          hfin.alen (fun x => rfl) (fun i => rfl) (fun i => rfl) rfl
          (by show st'.length - 1 = l.length - 1; rw [hfin.len])
          (by show (none : Option (List (K × Nat))) = _; rw [hn]; rfl)
      rw [hn] at f5
      rw [hsucc] at f6
      exact ⟨f1, f2, f3, f4, f5, f6, f7⟩

/-- `skiplist.go` `Remove` on a present key: the unique node carrying the
key is returned, the lane-0 chain loses exactly that node, `length` drops
by one, every node keeps its key, value, and — for the removed node — its
lane-0 forward and backward references, and the hash index (when present)
loses the key. -/
theorem Remove_present {l : SkipList K V} (h : WF l) {k : K} {j0 : Nat}
    (hj : j0 ∈ chain l) (hk : keyAt l j0 = some k) :
    (Remove l k).2 = some j0 ∧
    chain (Remove l k).1 = (chain l).erase j0 ∧
    (Remove l k).1.length = l.length - 1 ∧
    (∀ i, keyAt (Remove l k).1 i = keyAt l i) ∧
    (∀ i, valueAt (Remove l k).1 i = valueAt l i) ∧
    (Remove l k).1.nodes = Option.map (fun m => eraseA m k) l.nodes ∧
    laneOf (Remove l k).1 (some j0) 0 = laneOf l (some j0) 0 ∧
    prevOf (Remove l k).1 j0 = prevOf l j0 := by
  obtain ⟨hfound, hfin⟩ := removeLoop_present h hj hk MaxLevel (by norm_num [MaxLevel])
    (le_refl _) l none none
    ⟨rfl, fun _ => rfl, fun _ => rfl, fun _ => rfl, rfl, rfl, rfl, fun _ _ _ => rfl⟩
    (Or.inl rfl)
  have hRem : Remove l k =
      (removeTail (removeLoop k MaxLevel (l, none, none)).1 k j0, some j0) := by
    unfold Remove
    cases hn : l.nodes with
    | none =>
      simp only [Bool.false_eq_true, if_false]
      rw [hfound]
      rfl
    | some m =>
      have hlook : lookupA m k = some j0 := h.map_lookup hn hj hk
      simp only [hlook]
      simp only [Bool.false_eq_true, if_false, reduceCtorEq, decide_False]
      rw [hfound]
      rfl
  obtain ⟨f1, f2, f3, f4, f5, f6, f7⟩ := removeTail_facts h hj hk hfin
  rw [hRem]
  exact ⟨rfl, f1, f2, f3, f4, f5, f6, f7⟩

theorem keyAt_eq_of_arena {a b : SkipList K V} (hab : a.arena = b.arena)
    (i : Nat) : keyAt a i = keyAt b i := by
  unfold keyAt
  rw [hab]

theorem valueAt_eq_of_arena {a b : SkipList K V} (hab : a.arena = b.arena)
    (i : Nat) : valueAt a i = valueAt b i := by
  unfold valueAt
  rw [hab]

theorem prevOf_eq_of_arena {a b : SkipList K V} (hab : a.arena = b.arena)
    (i : Nat) : prevOf a i = prevOf b i := by
  unfold prevOf
  rw [hab]

theorem laneOf_some_eq_of_arena {a b : SkipList K V} (hab : a.arena = b.arena)
    (i L : Nat) : laneOf a (some i) L = laneOf b (some i) L := by
  unfold laneOf
  rw [hab]

/-- Invariant carried across successive `RemoveFirst` calls of
`skiplist.go`: `c` is the lane-0 chain, its handles are live, and `last`
and `length` agree with it.  `WF` implies it (with `c = chain l`), and it
is all `RemoveFirst` needs and preserves. -/
structure Inv0 (l : SkipList K V) (c : List Nat) : Prop where
  chain0 : Walk.isChain (laneOf l) 0 none c
  nodup : c.Nodup
  size : ∀ a ∈ c, a < l.arena.length
  lst : l.last = c.getLast?
  len : l.length = (c.length : Int)

theorem inv0_of_wf {l : SkipList K V} (h : WF l) : Inv0 l (chain l) :=
  ⟨h.lanesWF.chains 0 h.lanesWF.one_le,
   Walk.nodup_of_sorted h.lanesWF.sorted, h.sizeOk, h.lastOk, h.lengthOk⟩

/-- Iterated `RemoveFirst` (`skiplist.go`): the state after `n` calls,
discarding the returned handles. -/
def removeFirstN : Nat → SkipList K V → SkipList K V
  | 0, l => l
  | n + 1, l => removeFirstN n (RemoveFirst l).1

/-- The tail of `RemoveFirst` (`skiplist.go`, lines 234–242) after the
header repair: hash-index delete, `length` decrement, and the `last` /
backward-reference repair.  `RemoveFirst` is the header repair followed by
exactly this tail. -/
def removeFirstTail (st : SkipList K V) (nid : Nat) : SkipList K V :=
  let l2 :=
    match st.nodes, keyAt st nid with
    | some m, some kk => { st with nodes := some (eraseA m kk) }
    | _, _ => st
  let l3 := { l2 with length := l2.length - 1 }
  if l3.length = 0 then { l3 with last := none }
  else
    match laneOf l3 (some nid) 0 with
    | some succ => setPrevAt l3 succ none
    | none => l3

/-- The header-repair loop of `RemoveFirst` at levels above 0 does not
touch slot 0 or anything outside the header. -/
theorem rf_foldl_frame (nid : Nat) :
    ∀ (levels : List Nat), (∀ L ∈ levels, L ≠ 0) → ∀ (acc : SkipList K V),
      (levels.foldl (fun acc level =>
        if acc.header.getD level none = some nid then
          { acc with header := acc.header.set level (laneOf acc (some nid) level) }
        else acc) acc).arena = acc.arena ∧
      (levels.foldl (fun acc level =>
        if acc.header.getD level none = some nid then
          { acc with header := acc.header.set level (laneOf acc (some nid) level) }
        else acc) acc).nodes = acc.nodes ∧
      (levels.foldl (fun acc level =>
        if acc.header.getD level none = some nid then
          { acc with header := acc.header.set level (laneOf acc (some nid) level) }
        else acc) acc).last = acc.last ∧
      (levels.foldl (fun acc level =>
        if acc.header.getD level none = some nid then
          { acc with header := acc.header.set level (laneOf acc (some nid) level) }
        else acc) acc).length = acc.length ∧
      (levels.foldl (fun acc level =>
        if acc.header.getD level none = some nid then
          { acc with header := acc.header.set level (laneOf acc (some nid) level) }
        else acc) acc).header.getD 0 none = acc.header.getD 0 none := by
  intro levels
  induction levels with
  | nil =>
    intro _ acc
    exact ⟨rfl, rfl, rfl, rfl, rfl⟩
  | cons L tl ih =>
    intro hne acc
    have hL0 : L ≠ 0 := hne L (by simp)
    rw [List.foldl_cons]
    by_cases hc : acc.header.getD L none = some nid
    · rw [if_pos hc]
      obtain ⟨a1, a2, a3, a4, a5⟩ := ih (fun x hx => hne x (by simp [hx]))
        { acc with header := acc.header.set L (laneOf acc (some nid) L) }
      refine ⟨a1, a2, a3, a4, a5.trans ?_⟩
      show (acc.header.set L (laneOf acc (some nid) L)).getD 0 none =
        acc.header.getD 0 none
      rw [List.getD_eq_get?, List.getD_eq_get?, List.get?_set_ne _ _ hL0]
    · rw [if_neg hc]
      exact ih (fun x hx => hne x (by simp [hx])) acc

/-- The tail of `RemoveFirst` after the header repair: starting from any
state that kept the arena, hash index, `last` and `length` of `l` and
whose first-slot header already points past the removed head, it produces
the list over the remaining chain. -/
theorem removeFirstTail_facts {l : SkipList K V} {hd : Nat} {t : List Nat}
    (hI : Inv0 l (hd :: t)) (st1 : SkipList K V)
    (h1a : st1.arena = l.arena) (h1n : st1.nodes = l.nodes)
    (h1l : st1.last = l.last) (h1len : st1.length = l.length)
    (h1h : st1.header.getD 0 none = laneOf l (some hd) 0) :
    Inv0 (removeFirstTail st1 hd) t ∧
    (removeFirstTail st1 hd).length = l.length - 1 ∧
    (∀ h2 ∈ t.head?.toList, prevOf (removeFirstTail st1 hd) h2 = none) ∧
    (∀ i, keyAt (removeFirstTail st1 hd) i = keyAt l i) ∧
    (∀ i, valueAt (removeFirstTail st1 hd) i = valueAt l i) ∧
    (∀ kh, keyAt l hd = some kh →
      (removeFirstTail st1 hd).nodes =
        Option.map (fun m => eraseA m kh) l.nodes) := by
  have hsize_hd : hd < l.arena.length := hI.size hd (by simp)
  obtain ⟨nd, hnd⟩ : ∃ nd, l.arena.get? hd = some nd := by
    cases hg : l.arena.get? hd with
    | some nd => exact ⟨nd, rfl⟩
    | none =>
      have := List.get?_eq_none.mp hg
      omega
  have hkh : keyAt l hd = some nd.key := by
    unfold keyAt
    rw [hnd]
    rfl
  have hkst1 : keyAt st1 hd = some nd.key :=
    (keyAt_eq_of_arena h1a hd).trans hkh
  have hlen_goal : st1.length - 1 = l.length - 1 := by rw [h1len]
  have hlenl : l.length = ((hd :: t).length : Int) := hI.len
  cases hn : l.nodes with
  | some m =>
    have h1n' : st1.nodes = some m := by rw [h1n, hn]
    cases ht : t with
    | nil =>
      have htail : removeFirstTail st1 hd =
          { st1 with
            nodes := some (eraseA m nd.key), length := st1.length - 1, last := none } := by
        simp only [removeFirstTail, h1n', hkst1]
        rw [if_pos (show st1.length - 1 = 0 by
          rw [h1len, hlenl, ht]; simp)]
      rw [htail]
      refine ⟨⟨?_, by simp, by simp, rfl, ?_⟩, hlen_goal, by simp, ?_, ?_, ?_⟩
      · show st1.header.getD 0 none = none
        rw [h1h]
        have hc2 : Walk.isChain (laneOf l) 0 (some hd) t := hI.chain0.2
        rw [ht] at hc2
        exact hc2
      · show st1.length - 1 = ((0 : Nat) : Int)
        rw [h1len, hlenl, ht]
        simp
      · intro i
        exact keyAt_eq_of_arena h1a i
      · intro i
        exact valueAt_eq_of_arena h1a i
      · intro kh hkh2
        have : kh = nd.key := by
          rw [hkh] at hkh2
          exact (Option.some.inj hkh2).symm
        subst this
        rfl
    | cons a t2 =>
      have hlane : laneOf ({ st1 with
          nodes := some (eraseA m nd.key), length := st1.length - 1 } : SkipList K V) (some hd) 0 = some a := by
        have : laneOf l (some hd) 0 = some a := by
          have hc2 : Walk.isChain (laneOf l) 0 (some hd) t := hI.chain0.2
          rw [ht] at hc2
          exact hc2.1
        rw [← this]
        exact laneOf_some_eq_of_arena h1a hd 0
      have htail : removeFirstTail st1 hd =
          setPrevAt ({ st1 with
            nodes := some (eraseA m nd.key), length := st1.length - 1 } : SkipList K V) a none := by
        simp only [removeFirstTail, h1n', hkst1]
        rw [if_neg (show ¬ (st1.length - 1 = 0) by
          rw [h1len, hlenl, ht]; push_cast [List.length_cons]; omega)]
        rw [hlane]
      rw [htail]
      have harena3 : (setPrevAt ({ st1 with
          nodes := some (eraseA m nd.key), length := st1.length - 1 } : SkipList K V) a none).arena.length =
          l.arena.length := by
        rw [setPrevAt_arena_length]
        show st1.arena.length = _
        rw [h1a]
      obtain ⟨nda, hnda⟩ : ∃ nda, l.arena.get? a = some nda := by
        cases hg : l.arena.get? a with
        | some nda => exact ⟨nda, rfl⟩
        | none =>
          have h1 := List.get?_eq_none.mp hg
          have h2 := hI.size a (by rw [ht]; simp)
          omega
      refine ⟨⟨?_, ?_, ?_, ?_, ?_⟩, ?_, ?_, ?_, ?_, ?_⟩
      · refine ⟨?_, ?_⟩
        · rw [laneOf_setPrevAt]
          show st1.header.getD 0 none = some a
          rw [h1h]
          have hc2 : Walk.isChain (laneOf l) 0 (some hd) t := hI.chain0.2
          rw [ht] at hc2
          exact hc2.1
        · have hc3 : Walk.isChain (laneOf l) 0 (some a) t2 := by
            have hc2 : Walk.isChain (laneOf l) 0 (some hd) t := hI.chain0.2
            rw [ht] at hc2
            exact hc2.2
          refine Walk.isChain_congr _ _ hc3 ?_
          intro x hx
          obtain ⟨y, hxy⟩ : ∃ y, x = some y := by
            rcases hx with hx | ⟨b, hb, hx⟩
            · exact ⟨a, hx⟩
            · exact ⟨b, hx⟩
          subst hxy
          rw [laneOf_setPrevAt]
          exact laneOf_some_eq_of_arena h1a y 0
      · have hnodup : (hd :: t).Nodup := hI.nodup
        rw [ht] at hnodup
        exact ((List.nodup_cons.mp hnodup).2)
      · intro x hx
        rw [harena3]
        refine hI.size x ?_
        rw [ht]
        simp [hx]
      · rw [setPrevAt_last]
        show st1.last = _
        rw [h1l, hI.lst, ht]
        exact List.getLast?_cons_cons
      · rw [setPrevAt_length]
        show st1.length - 1 = _
        rw [h1len, hlenl, ht]
        push_cast [List.length_cons]
        omega
      · rw [setPrevAt_length]
        exact hlen_goal
      · intro h2 hh2
        have hh2a : h2 = a := by simpa using hh2
        subst hh2a
        exact prevOf_setPrevAt_self _ h2 none
          (show st1.arena.get? h2 = some nda by rw [h1a]; exact hnda)
      · intro i
        rw [keyAt_setPrevAt]
        exact keyAt_eq_of_arena h1a i
      · intro i
        rw [valueAt_setPrevAt]
        exact valueAt_eq_of_arena h1a i
      · intro kh hkh2
        have : kh = nd.key := by
          rw [hkh] at hkh2
          exact (Option.some.inj hkh2).symm
        subst this
        rw [setPrevAt_nodes]
        rfl
  | none =>
    have h1n' : st1.nodes = none := by rw [h1n, hn]
    cases ht : t with
    | nil =>
      have htail : removeFirstTail st1 hd =
          { st1 with length := st1.length - 1, last := none, nodes := none } := by
        simp only [removeFirstTail, h1n']
        rw [if_pos (show st1.length - 1 = 0 by
          rw [h1len, hlenl, ht]; simp)]
      rw [htail]
      refine ⟨⟨?_, by simp, by simp, rfl, ?_⟩, hlen_goal, by simp, ?_, ?_, ?_⟩
      · show st1.header.getD 0 none = none
        rw [h1h]
        have hc2 : Walk.isChain (laneOf l) 0 (some hd) t := hI.chain0.2
        rw [ht] at hc2
        exact hc2
      · show st1.length - 1 = ((0 : Nat) : Int)
        rw [h1len, hlenl, ht]
        simp
      · intro i
        exact keyAt_eq_of_arena h1a i
      · intro i
        exact valueAt_eq_of_arena h1a i
      · intro kh hkh2
        rfl
    | cons a t2 =>
      have hlane : laneOf ({ st1 with length := st1.length - 1, nodes := none } :
          SkipList K V) (some hd) 0 = some a := by
        have : laneOf l (some hd) 0 = some a := by
          have hc2 : Walk.isChain (laneOf l) 0 (some hd) t := hI.chain0.2
          rw [ht] at hc2
          exact hc2.1
        rw [← this]
        exact laneOf_some_eq_of_arena h1a hd 0
      have htail : removeFirstTail st1 hd =
          setPrevAt ({ st1 with length := st1.length - 1, nodes := none } :
            SkipList K V) a none := by
        simp only [removeFirstTail, h1n']
        rw [if_neg (show ¬ (st1.length - 1 = 0) by
          rw [h1len, hlenl, ht]; push_cast [List.length_cons]; omega)]
        rw [hlane]
      rw [htail]
      have harena3 : (setPrevAt ({ st1 with
            length := st1.length - 1, nodes := none } : SkipList K V)
          a none).arena.length = l.arena.length := by
        rw [setPrevAt_arena_length]
        show st1.arena.length = _
        rw [h1a]
      obtain ⟨nda, hnda⟩ : ∃ nda, l.arena.get? a = some nda := by
        cases hg : l.arena.get? a with
        | some nda => exact ⟨nda, rfl⟩
        | none =>
          have h1 := List.get?_eq_none.mp hg
          have h2 := hI.size a (by rw [ht]; simp)
          omega
      refine ⟨⟨?_, ?_, ?_, ?_, ?_⟩, ?_, ?_, ?_, ?_, ?_⟩
      · refine ⟨?_, ?_⟩
        · rw [laneOf_setPrevAt]
          show st1.header.getD 0 none = some a
          rw [h1h]
          have hc2 : Walk.isChain (laneOf l) 0 (some hd) t := hI.chain0.2
          rw [ht] at hc2
          exact hc2.1
        · have hc3 : Walk.isChain (laneOf l) 0 (some a) t2 := by
            have hc2 : Walk.isChain (laneOf l) 0 (some hd) t := hI.chain0.2
            rw [ht] at hc2
            exact hc2.2
          refine Walk.isChain_congr _ _ hc3 ?_
          intro x hx
          obtain ⟨y, hxy⟩ : ∃ y, x = some y := by
            rcases hx with hx | ⟨b, hb, hx⟩
            · exact ⟨a, hx⟩
            · exact ⟨b, hx⟩
          subst hxy
          rw [laneOf_setPrevAt]
          exact laneOf_some_eq_of_arena h1a y 0
      · have hnodup : (hd :: t).Nodup := hI.nodup
        rw [ht] at hnodup
        exact ((List.nodup_cons.mp hnodup).2)
      · intro x hx
        rw [harena3]
        refine hI.size x ?_
        rw [ht]
        simp [hx]
      · rw [setPrevAt_last]
        show st1.last = _
        rw [h1l, hI.lst, ht]
        exact List.getLast?_cons_cons
      · rw [setPrevAt_length]
        show st1.length - 1 = _
        rw [h1len, hlenl, ht]
        push_cast [List.length_cons]
        omega
      · rw [setPrevAt_length]
        exact hlen_goal
      · intro h2 hh2
        have hh2a : h2 = a := by simpa using hh2
        subst hh2a
        exact prevOf_setPrevAt_self _ h2 none
          (show st1.arena.get? h2 = some nda by rw [h1a]; exact hnda)
      · intro i
        rw [keyAt_setPrevAt]
        exact keyAt_eq_of_arena h1a i
      · intro i
        rw [valueAt_setPrevAt]
        exact valueAt_eq_of_arena h1a i
      · intro kh hkh2
        rw [setPrevAt_nodes]
        rfl

/-- `RemoveFirst` on an empty `skiplist.go` list: nothing happens. -/
theorem RemoveFirst_nil {l : SkipList K V} (hI : Inv0 l []) :
    RemoveFirst l = (l, none) := by
  have h0 : l.header.getD 0 none = none := hI.chain0
  unfold RemoveFirst
  rw [h0]

/-- `RemoveFirst` on a non-empty `skiplist.go` list removes and returns
exactly the first chain node, keeps the invariant over the remaining
chain, decrements `length`, clears the new head's backward reference,
keeps every key and value, and erases the removed key from the hash
index. -/
theorem RemoveFirst_cons {l : SkipList K V} {hd : Nat} {t : List Nat}
    (hI : Inv0 l (hd :: t)) :
    (RemoveFirst l).2 = some hd ∧
    Inv0 (RemoveFirst l).1 t ∧
    (RemoveFirst l).1.length = l.length - 1 ∧
    (∀ h2 ∈ t.head?.toList, prevOf (RemoveFirst l).1 h2 = none) ∧
    (∀ i, keyAt (RemoveFirst l).1 i = keyAt l i) ∧
    (∀ i, valueAt (RemoveFirst l).1 i = valueAt l i) ∧
    (∀ kh, keyAt l hd = some kh →
      (RemoveFirst l).1.nodes = Option.map (fun m => eraseA m kh) l.nodes) := by
  have hh0 : l.header.getD 0 none = some hd := hI.chain0.1
  have hpos : 0 < l.header.length := by
    rcases Nat.eq_zero_or_pos l.header.length with h0 | h0
    · rw [List.length_eq_zero] at h0
      rw [h0] at hh0
      simp [List.getD] at hh0
    · exact h0
  have hRF : RemoveFirst l =
      (removeFirstTail ((List.range l.header.length).foldl
        (fun acc level =>
          if acc.header.getD level none = some hd then
            { acc with header := acc.header.set level (laneOf acc (some hd) level) }
          else acc) l) hd, some hd) := by
    unfold RemoveFirst
    rw [hh0]
    rfl
  obtain ⟨hl0, hrangelen⟩ : ∃ hl0, l.header.length = hl0 + 1 :=
    ⟨l.header.length - 1, by omega⟩
  have hfacts : ((List.range l.header.length).foldl
        (fun acc level =>
          if acc.header.getD level none = some hd then
            { acc with header := acc.header.set level (laneOf acc (some hd) level) }
          else acc) l).arena = l.arena ∧
      ((List.range l.header.length).foldl
        (fun acc level =>
          if acc.header.getD level none = some hd then
            { acc with header := acc.header.set level (laneOf acc (some hd) level) }
          else acc) l).nodes = l.nodes ∧
      ((List.range l.header.length).foldl
        (fun acc level =>
          if acc.header.getD level none = some hd then
            { acc with header := acc.header.set level (laneOf acc (some hd) level) }
          else acc) l).last = l.last ∧
      ((List.range l.header.length).foldl
        (fun acc level =>
          if acc.header.getD level none = some hd then
            { acc with header := acc.header.set level (laneOf acc (some hd) level) }
          else acc) l).length = l.length ∧
      ((List.range l.header.length).foldl
        (fun acc level =>
          if acc.header.getD level none = some hd then
            { acc with header := acc.header.set level (laneOf acc (some hd) level) }
          else acc) l).header.getD 0 none = laneOf l (some hd) 0 := by
    rw [hrangelen, List.range_succ_eq_map, List.foldl_cons, if_pos hh0]
    obtain ⟨a1, a2, a3, a4, a5⟩ := rf_foldl_frame hd ((List.range hl0).map Nat.succ)
      (fun L hL => by
        simp only [List.mem_map] at hL
        obtain ⟨x, -, hx⟩ := hL
        omega)
      { l with header := l.header.set 0 (laneOf l (some hd) 0) }
    refine ⟨a1, a2, a3, a4, a5.trans ?_⟩
    show (l.header.set 0 (laneOf l (some hd) 0)).getD 0 none =
      laneOf l (some hd) 0
    rw [List.getD_eq_get?, List.get?_set_eq_of_lt _ hpos]
    rfl
  obtain ⟨hf1, hf2, hf3, hf4, hf5⟩ := hfacts
  obtain ⟨g1, g2, g3, g4, g5, g6⟩ := removeFirstTail_facts hI _ hf1 hf2 hf3 hf4 hf5
  rw [hRF]
  exact ⟨rfl, g1, g2, g3, g4, g5, g6⟩

/-- Calling `RemoveFirst` once per chain node leaves the `skiplist.go`
list empty: `First`, `Last` and `Length` all report emptiness. -/
theorem removeFirstN_empties :
    ∀ (c : List Nat) (l : SkipList K V), Inv0 l c →
      First (removeFirstN c.length l) = none ∧
      Last (removeFirstN c.length l) = none ∧
      Length (removeFirstN c.length l) = 0 := by
  intro c
  induction c with
  | nil =>
    intro l hI
    refine ⟨?_, ?_, ?_⟩
    · show l.header.getD 0 none = none
      exact hI.chain0
    · show l.last = none
      rw [hI.lst]
      rfl
    · show l.length = 0
      rw [hI.len]
      rfl
  | cons hd t ih =>
    intro l hI
    obtain ⟨-, hInv', -, -, -, -, -⟩ := RemoveFirst_cons hI
    have hstep : removeFirstN (hd :: t).length l =
        removeFirstN t.length (RemoveFirst l).1 := rfl
    rw [hstep]
    exact ih _ hInv'

/-- `Search` computes the ceiling of the key on every well-formed list (C5
for the key-based variant): the result is the first lane-0 node whose key is
not below the target. -/
theorem Search_eq_ceil {l : SkipList K V} (h : WF l) (k : K) :
    Search l k = Walk.ceilSpec (keyAt l) k (chain l) := by
  have hdesc : laneOf l (searchLoop l k MaxLevel none) 0 =
      Walk.ceilSpec (keyAt l) k (chain l) := by
    unfold searchLoop
    exact Walk.searchLoop_ceil h.lanesWF
      (by have := h.lenArena; omega) MaxLevel (le_refl _)
      h.lanesWF.one_le none (Or.inl rfl)
  unfold Search
  cases hn : l.nodes with
  | none => exact hdesc
  | some m =>
    cases hl : lookupA m k with
    | none =>
      simp only [hl]
      exact hdesc
    | some i =>
      have hmem := h.map_mem hn (lookupA_mem hl)
      simp only [hl]
      exact (Walk.ceilSpec_mem h.lanesWF.sorted hmem.1 hmem.2).symm

end SGo

namespace Slice

/-- `func sampleGeometricDistribution(limit int, rng *rand.Rand) int` from
`part_006`; identical to `sampleCoinflipGeoDist32` of `skiplist.go`. -/
def sampleGeometricDistribution (limit : Nat) (u : Nat) : Nat :=
  trailingOnes (Nat.land (Nat.shiftRight (2 ^ 32 - 1) (32 - limit)) u)

/-- `MaxLevel = 32` from `part_006`. -/
def MaxLevel : Nat := 32

/-- Heap node of `part_006` (`type Node[K, V any] struct`): slice lanes whose
length is the node's sampled level. -/
structure Node (K V : Type) where
  key : K
  value : V
  lanes : List (Option Nat)
  prev : Option Nat
  deriving Repr, DecidableEq

/-- List state of `part_006` (`type SkipList[K, V] struct`). -/
structure SkipList (K V : Type) where
  arena : List (Node K V)
  nodes : Option (List (K × Nat))
  header : List (Option Nat)
  last : Option Nat
  length : Int
  rng : List Nat
  deriving Repr, DecidableEq

variable {K V : Type} [LinearOrder K] [DecidableEq K]

/-- Reads `lanes[level]` through a lanes pointer (`none` is the header). -/
def laneOf (l : SkipList K V) (p : Option Nat) (level : Nat) : Option Nat :=
  match p with
  | none => l.header.getD level none
  | some i =>
    match l.arena.get? i with
    | none => none
    | some nd => nd.lanes.getD level none

/-- Reads `node_i.key`. -/
def keyAt (l : SkipList K V) (i : Nat) : Option K :=
  (l.arena.get? i).map Node.key

/-- Reads `node_i.prev`. -/
def prevOf (l : SkipList K V) (i : Nat) : Option Nat :=
  match l.arena.get? i with
  | none => none
  | some nd => nd.prev

/-- Writes `lanes[level] = v` through a lanes pointer. -/
def setLaneAt (l : SkipList K V) (p : Option Nat) (level : Nat)
    (v : Option Nat) : SkipList K V :=
  match p with
  | none => { l with header := l.header.set level v }
  | some i =>
    match l.arena.get? i with
    | none => l
    | some nd =>
      { l with arena := l.arena.set i { nd with lanes := nd.lanes.set level v } }

/-- Writes `node_i.prev = v`. -/
def setPrevAt (l : SkipList K V) (i : Nat) (v : Option Nat) : SkipList K V :=
  match l.arena.get? i with
  | none => l
  | some nd => { l with arena := l.arena.set i { nd with prev := v } }

/-- Writes `node_i.value = v`. -/
def setValueAt (l : SkipList K V) (i : Nat) (v : V) : SkipList K V :=
  match l.arena.get? i with
  | none => l
  | some nd => { l with arena := l.arena.set i { nd with value := v } }

/-- Association-list lookup (Go map indexing). -/
def lookupA (m : List (K × Nat)) (k : K) : Option Nat :=
  (m.find? (fun p => decide (p.1 = k))).map Prod.snd

/-- Association-list insert/replace (Go map assignment). -/
def insertA (m : List (K × Nat)) (k : K) (i : Nat) : List (K × Nat) :=
  match m with
  | [] => [(k, i)]
  | (a, b) :: t => if a = k then (k, i) :: t else (a, b) :: insertA t k i

/-- The inner advance loop of `Set` in `part_006`. -/
def advanceLT (l : SkipList K V) (k : K) (level : Nat) :
    Nat → Option Nat → Option Nat
  | 0, p => p
  | fuel + 1, p =>
    match laneOf l p level with
    | some j =>
      match keyAt l j with
      | some kj => if kj < k then advanceLT l k level fuel (some j) else p
      | none => p
    | none => p

/-- One level of the insertion descent of `SkipList.Set` (`part_006`, lines
124–148).  Unlike `skiplist.go`, the backward-reference repair is guarded by
`!replaced` rather than `node.prev == nil`. -/
def setLevelStep (k : K) (nodeId nodeLevel : Nat)
    (s : SkipList K V × Option Nat × Bool) (level : Nat) :
    SkipList K V × Option Nat × Bool :=
  let l := s.1
  let pos := advanceLT l k level (l.arena.length + 1) s.2.1
  let replaced := s.2.2
  let (l, replaced) :=
    match laneOf l pos level with
    | some j =>
      if keyAt l j = some k then
        let l := setPrevAt l nodeId (prevOf l j)
        let l := setLaneAt l pos level (laneOf l (some j) level)
        (l, true)
      else (l, replaced)
    | none => (l, replaced)
  if level < nodeLevel then
    let l := setLaneAt l (some nodeId) level (laneOf l pos level)
    let l := setLaneAt l pos level (some nodeId)
    let l :=
      if level = 0 then
        match laneOf l (some nodeId) 0 with
        | some succ =>
          let l := if ¬replaced then setPrevAt l nodeId (prevOf l succ) else l
          setPrevAt l succ (some nodeId)
        | none => l
      else l
    (l, pos, replaced)
  else (l, pos, replaced)

/-- The level loop of `Set` (`part_006`), from level `n - 1` down to `0`. -/
def setLoop (k : K) (nodeId nodeLevel : Nat) :
    Nat → SkipList K V × Option Nat × Bool → SkipList K V × Option Nat × Bool
  | 0, s => s
  | n + 1, s => setLoop k nodeId nodeLevel n (setLevelStep k nodeId nodeLevel s n)

/-- `func (l *SkipList[K, V]) Set(key K, value V) *Node[K, V]` from
`part_006`.  The new node's lane slice has length `nodeLevel`. -/
def Set (l : SkipList K V) (k : K) (v : V) : SkipList K V × Nat :=
  let fast : Option Nat :=
    match l.nodes with
    | some m => lookupA m k
    | none => none
  match fast with
  | some i => (setValueAt l i v, i)
  | none =>
    let u := l.rng.headD 0
    let l := { l with rng := l.rng.tail }
    let nodeLevel := 1 + sampleGeometricDistribution (MaxLevel - 1) u
    let nodeId := l.arena.length
    let l := { l with arena :=
      l.arena ++ [{ key := k, value := v,
                    lanes := List.replicate nodeLevel none, prev := none }] }
    let res := setLoop k nodeId nodeLevel MaxLevel (l, none, false)
    let l := res.1
    let replaced := res.2.2
    let l := if replaced then l else { l with length := l.length + 1 }
    let l :=
      match l.nodes with
      | some m => { l with nodes := some (insertA m k nodeId) }
      | none => l
    let l :=
      match l.last with
      | none =>
        let l := setPrevAt l nodeId none
        { l with last := some nodeId }
      | some t =>
        match keyAt l t with
        | some kt =>
          if kt < k then
            let l := setPrevAt l nodeId (some t)
            { l with last := some nodeId }
          else l
        | none => l
    (l, nodeId)

/-- `func (l *SkipList[K, V]) Last() *Node[K, V]` from `part_006`. -/
def Last (l : SkipList K V) : Option Nat :=
  l.last

/-- `func New[K, V](opts ...Option) *SkipList[K, V]` from `part_006` with
default options (no hash index) and an injected generator stream. -/
def New (K V : Type) (rng : List Nat) : SkipList K V :=
  { arena := []
    nodes := none
    header := List.replicate MaxLevel none
    last := none
    length := 0
    rng := rng }

end Slice

namespace Elem

/-- Heap node of the `part_005` variant (`type Element[K, V any] struct`).
`lanes` has length equal to the element's sampled level; `prev` is the
backward reference. -/
structure Element (K V : Type) where
  key : K
  value : V
  lanes : List (Option Nat)
  prev : Option Nat
  deriving Repr, DecidableEq

/-- List state of the `part_005` variant (`type SkipList[K, V] struct`).
`arena` is the heap holding every allocated element; element handles are
arena indices.  `elements` is the optional hash index, modelled as an
association list.  `rwMutex` records whether a mutex was allocated (the
mutex itself has no observable effect in a single-threaded embedding).
`rng` is the stream of 64-bit words the seeded generator would produce. -/
structure SkipList (K V : Type) where
  arena : List (Element K V)
  elements : Option (List (K × Nat))
  header : List (Option Nat)
  last : Option Nat
  length : Int
  maxLevel : Nat
  prob : ℚ
  rng : List Nat
  rwMutex : Bool
  deriving Repr, DecidableEq

/-- From `part_005`: `type skipListOptions struct`. `maxLevel` is a Go `int`,
so it is modelled as `Int` (validation rejects values below 1). -/
structure skipListOptions where
  maxLevel : Int
  prob : ℚ
  seed : Int
  threadSafe : Bool
  hashmap : Bool
  deriving Repr, DecidableEq

/-- The concrete option values of `part_005`.  Each public constructor
(`WithMaxLevel`, `WithSeed`, ...) returns one of these; `apply` below is the
dispatch of the `SkipListOption` interface. -/
inductive SkipListOption where
  | withMaxLevel (maxLevel : Int)
  | withSeed (seed : Int)
  | withProbability (prob : ℚ)
  | withThreadSafe
  | withoutHashmap
  deriving Repr, DecidableEq

/-- The `apply` methods of the option types in `part_005`. -/
def SkipListOption.apply (o : SkipListOption) (opts : skipListOptions) :
    skipListOptions :=
  match o with
  | .withMaxLevel m => { opts with maxLevel := m }
  | .withSeed s => { opts with seed := s }
  | .withProbability p => { opts with prob := p }
  | .withThreadSafe => { opts with threadSafe := true }
  | .withoutHashmap => { opts with hashmap := false }

/-- `func WithMaxLevel(maxLevel int) SkipListOption` from `part_005`. -/
def WithMaxLevel (maxLevel : Int) : SkipListOption := .withMaxLevel maxLevel

/-- `func WithSeed(seed int64) SkipListOption` from `part_005`. -/
def WithSeed (seed : Int) : SkipListOption := .withSeed seed

/-- `func WithProbability(prob float64) SkipListOption` from `part_005`. -/
def WithProbability (prob : ℚ) : SkipListOption := .withProbability prob

/-- `func WithThreadSafe() SkipListOption` from `part_005`. -/
def WithThreadSafe : SkipListOption := .withThreadSafe

/-- `func WithoutHashmap() SkipListOption` from `part_005`.  The Go source
reads `return &withThreadSafe{}` — it returns the thread-safety option value,
not the hashmap-disabling one.  This is translated faithfully. -/
def WithoutHashmap : SkipListOption := .withThreadSafe

/-- `func (o skipListOptions) validate() error` from `part_005`; `some`
carries the error message. -/
def validate (o : skipListOptions) : Option String :=
  if o.maxLevel < 1 then
    some "maximum level for skip list must be a positive integer"
  else if o.prob < 0 ∨ o.prob > 1 then
    some "probability for skip list must be in the range [0, 1]"
  else
    none

/-- `func New[K, V](opts ...SkipListOption) *SkipList[K, V]` from `part_005`.
The wall-clock default seed is the parameter `now`; the generator's output
stream is the parameter `rng`.  A validation failure (Go panic) is returned
as `.error`. -/
def New (K V : Type) (opts : List SkipListOption) (now : Int) (rng : List Nat) :
    Except String (SkipList K V) :=
  let o := opts.foldl (fun acc opt => opt.apply acc)
    { maxLevel := 32, prob := 1/2, seed := now,
      threadSafe := false, hashmap := true }
  match validate o with
  | some e => .error e
  | none =>
      .ok { arena := []
            elements := if o.hashmap then some [] else none
            header := List.replicate o.maxLevel.toNat none
            last := none
            length := 0
            maxLevel := o.maxLevel.toNat
            prob := o.prob
            rng := rng
            rwMutex := o.threadSafe }

/-- `func (e *Element[K, V]) Next() (next *Element[K, V])` from `part_005`:
`nil` receivers yield the zero (`nil`) result; otherwise `e.lanes[0]`.
Go panics when `lanes` is empty; every element the list allocates has at
least one lane, and `getD` returns `none` in that ghost case. -/
def Next {K V : Type} (arena : List (Element K V)) (e : Option Nat) :
    Option Nat :=
  match e with
  | none => none
  | some i =>
    match arena.get? i with
    | none => none
    | some nd => nd.lanes.getD 0 none

/-- `func (e *Element[K, V]) Prev() (prev *Element[K, V])` from `part_005`. -/
def Prev {K V : Type} (arena : List (Element K V)) (e : Option Nat) :
    Option Nat :=
  match e with
  | none => none
  | some i =>
    match arena.get? i with
    | none => none
    | some nd => nd.prev

/-- `func (e *Element[K, V]) Key() (key K)` from `part_005`: a `nil`
receiver yields the zero value of `K`, modelled by `default`. -/
def Key {K V : Type} [Inhabited K] (arena : List (Element K V))
    (e : Option Nat) : K :=
  match e with
  | none => default
  | some i =>
    match arena.get? i with
    | none => default
    | some nd => nd.key

/-- `func (e *Element[K, V]) Value() (value V)` from `part_005`. -/
def Value {K V : Type} [Inhabited V] (arena : List (Element K V))
    (e : Option Nat) : V :=
  match e with
  | none => default
  | some i =>
    match arena.get? i with
    | none => default
    | some nd => nd.value

/-- `func (l *SkipList[K, V]) randomLevel() int` from `part_005`.  `u` is the
word `rng.Uint64()` would return on the fast path; `trials` is the stream of
outcomes of the comparisons `rng.Float64() < prob` on the general path (an
arbitrary boolean stream covers every possible generator output). -/
def trialLoop (listMaxLevel : Nat) (level : Nat) (trials : List Bool) : Nat :=
  if level < listMaxLevel then
    match trials with
    | [] => level
    | t :: ts => if t then trialLoop listMaxLevel (level + 1) ts else level
  else level

/-- Fast-path mask and count of `randomLevel` (`part_005`): for
`prob == 0.5 && maxLevel <= 65` the code masks a uniform 64-bit word with
`^uint64(0) >> (65 - maxLevel)` and counts trailing one bits starting from a
base level of 1; otherwise it performs explicit trials. -/
def randomLevel (listMaxLevel : Nat) (prob : ℚ) (u : Nat)
    (trials : List Bool) : Nat :=
  if prob = 1/2 ∧ listMaxLevel ≤ 65 then
    1 + trailingOnes (Nat.land (Nat.shiftRight (2 ^ 64 - 1) (65 - listMaxLevel)) u)
  else
    trialLoop listMaxLevel 1 trials

variable {K V : Type} [LinearOrder K] [DecidableEq K]

/-- Reads `lanes[level]` through a lanes pointer (`none` is the header). -/
def laneOf (l : SkipList K V) (p : Option Nat) (level : Nat) : Option Nat :=
  match p with
  | none => l.header.getD level none
  | some i =>
    match l.arena.get? i with
    | none => none
    | some nd => nd.lanes.getD level none

/-- Reads `element_i.key`. -/
def keyAt (l : SkipList K V) (i : Nat) : Option K :=
  (l.arena.get? i).map Element.key

/-- Reads `element_i.value`. -/
def valueAt (l : SkipList K V) (i : Nat) : Option V :=
  (l.arena.get? i).map Element.value

/-- Reads `element_i.prev`. -/
def prevOf (l : SkipList K V) (i : Nat) : Option Nat :=
  match l.arena.get? i with
  | none => none
  | some nd => nd.prev

/-- Writes `lanes[level] = v` through a lanes pointer. -/
def setLaneAt (l : SkipList K V) (p : Option Nat) (level : Nat)
    (v : Option Nat) : SkipList K V :=
  match p with
  | none => { l with header := l.header.set level v }
  | some i =>
    match l.arena.get? i with
    | none => l
    | some nd =>
      { l with arena := l.arena.set i { nd with lanes := nd.lanes.set level v } }

/-- Writes `element_i.prev = v`. -/
def setPrevAt (l : SkipList K V) (i : Nat) (v : Option Nat) : SkipList K V :=
  match l.arena.get? i with
  | none => l
  | some nd => { l with arena := l.arena.set i { nd with prev := v } }

/-- Association-list lookup (Go map indexing). -/
def lookupA (m : List (K × Nat)) (k : K) : Option Nat :=
  (m.find? (fun p => decide (p.1 = k))).map Prod.snd

/-- Association-list removal (Go `delete(m, key)`). -/
def eraseA (m : List (K × Nat)) (k : K) : List (K × Nat) :=
  match m with
  | [] => []
  | (a, b) :: t => if a = k then t else (a, b) :: eraseA t k

theorem setLaneAt_none_eqE (l : SkipList K V) (L : Nat) (v : Option Nat) :
    setLaneAt l none L v = { l with header := l.header.set L v } := rfl

theorem setLaneAt_some_eqE (l : SkipList K V) (L : Nat) (v : Option Nat)
    {j : Nat} {nd : Element K V} (hg : l.arena.get? j = some nd) :
    setLaneAt l (some j) L v =
      { l with arena := l.arena.set j { nd with lanes := nd.lanes.set L v } } := by
  show (match l.arena.get? j with
    | none => l
    | some nd =>
      { l with arena := l.arena.set j { nd with lanes := nd.lanes.set L v } }) = _
  rw [hg]

theorem setLaneAt_danglingE (l : SkipList K V) (L : Nat) (v : Option Nat)
    {j : Nat} (hg : l.arena.get? j = none) :
    setLaneAt l (some j) L v = l := by
  show (match l.arena.get? j with
    | none => l
    | some nd =>
      { l with arena := l.arena.set j { nd with lanes := nd.lanes.set L v } }) = _
  rw [hg]

theorem setPrevAt_some_eqE (l : SkipList K V) (v : Option Nat)
    {i : Nat} {nd : Element K V} (hg : l.arena.get? i = some nd) :
    setPrevAt l i v = { l with arena := l.arena.set i { nd with prev := v } } := by
  unfold setPrevAt
  rw [hg]

theorem setPrevAt_danglingE (l : SkipList K V) (v : Option Nat)
    {i : Nat} (hg : l.arena.get? i = none) :
    setPrevAt l i v = l := by
  unfold setPrevAt
  rw [hg]

theorem laneOf_some_eqE (l : SkipList K V) (L : Nat)
    {j : Nat} {nd : Element K V} (hg : l.arena.get? j = some nd) :
    laneOf l (some j) L = nd.lanes.getD L none := by
  show (match l.arena.get? j with
    | none => none
    | some nd => nd.lanes.getD L none) = _
  rw [hg]

theorem laneOf_danglingE (l : SkipList K V) (L : Nat)
    {j : Nat} (hg : l.arena.get? j = none) :
    laneOf l (some j) L = none := by
  show (match l.arena.get? j with
    | none => none
    | some nd => nd.lanes.getD L none) = _
  rw [hg]

theorem setLaneAt_arena_lengthE (l : SkipList K V) (p : Option Nat) (L : Nat)
    (v : Option Nat) : (setLaneAt l p L v).arena.length = l.arena.length := by
  cases p with
  | none => rfl
  | some j =>
    cases hg : l.arena.get? j with
    | none => rw [setLaneAt_danglingE l L v hg]
    | some nd => rw [setLaneAt_some_eqE l L v hg]; simp

theorem setLaneAt_elementsE (l : SkipList K V) (p : Option Nat) (L : Nat)
    (v : Option Nat) : (setLaneAt l p L v).elements = l.elements := by
  cases p with
  | none => rfl
  | some j =>
    cases hg : l.arena.get? j with
    | none => rw [setLaneAt_danglingE l L v hg]
    | some nd => rw [setLaneAt_some_eqE l L v hg]

theorem setLaneAt_lastE (l : SkipList K V) (p : Option Nat) (L : Nat)
    (v : Option Nat) : (setLaneAt l p L v).last = l.last := by
  cases p with
  | none => rfl
  | some j =>
    cases hg : l.arena.get? j with
    | none => rw [setLaneAt_danglingE l L v hg]
    | some nd => rw [setLaneAt_some_eqE l L v hg]

theorem setLaneAt_lengthE (l : SkipList K V) (p : Option Nat) (L : Nat)
    (v : Option Nat) : (setLaneAt l p L v).length = l.length := by
  cases p with
  | none => rfl
  | some j =>
    cases hg : l.arena.get? j with
    | none => rw [setLaneAt_danglingE l L v hg]
    | some nd => rw [setLaneAt_some_eqE l L v hg]

theorem setLaneAt_header_lengthE (l : SkipList K V) (p : Option Nat) (L : Nat)
    (v : Option Nat) : (setLaneAt l p L v).header.length = l.header.length := by
  cases p with
  | none => rw [setLaneAt_none_eqE]; simp
  | some j =>
    cases hg : l.arena.get? j with
    | none => rw [setLaneAt_danglingE l L v hg]
    | some nd => rw [setLaneAt_some_eqE l L v hg]

theorem keyAt_setLaneAtE (l : SkipList K V) (p : Option Nat) (L : Nat)
    (v : Option Nat) (i : Nat) : keyAt (setLaneAt l p L v) i = keyAt l i := by
  cases p with
  | none => rfl
  | some j =>
    cases hg : l.arena.get? j with
    | none => rw [setLaneAt_danglingE l L v hg]
    | some nd =>
      rw [setLaneAt_some_eqE l L v hg]
      unfold keyAt
      by_cases hij : j = i
      · subst hij
        show ((l.arena.set j _).get? j).map _ = _
        rw [List.get?_set_eq_of_lt _ (getQ_some_lt hg), hg]
        rfl
      · show ((l.arena.set j _).get? i).map _ = _
        rw [List.get?_set_ne _ _ hij]

theorem valueAt_setLaneAtE (l : SkipList K V) (p : Option Nat) (L : Nat)
    (v : Option Nat) (i : Nat) : valueAt (setLaneAt l p L v) i = valueAt l i := by
  cases p with
  | none => rfl
  | some j =>
    cases hg : l.arena.get? j with
    | none => rw [setLaneAt_danglingE l L v hg]
    | some nd =>
      rw [setLaneAt_some_eqE l L v hg]
      unfold valueAt
      by_cases hij : j = i
      · subst hij
        show ((l.arena.set j _).get? j).map _ = _
        rw [List.get?_set_eq_of_lt _ (getQ_some_lt hg), hg]
        rfl
      · show ((l.arena.set j _).get? i).map _ = _
        rw [List.get?_set_ne _ _ hij]

theorem prevOf_setLaneAtE (l : SkipList K V) (p : Option Nat) (L : Nat)
    (v : Option Nat) (i : Nat) : prevOf (setLaneAt l p L v) i = prevOf l i := by
  cases p with
  | none => rfl
  | some j =>
    cases hg : l.arena.get? j with
    | none => rw [setLaneAt_danglingE l L v hg]
    | some nd =>
      rw [setLaneAt_some_eqE l L v hg]
      unfold prevOf
      by_cases hij : j = i
      · subst hij
        show (match (l.arena.set j _).get? j with
          | none => none
          | some nd => nd.prev) = _
        rw [List.get?_set_eq_of_lt _ (getQ_some_lt hg), hg]
      · show (match (l.arena.set j _).get? i with
          | none => none
          | some nd => nd.prev) = _
        rw [List.get?_set_ne _ _ hij]

theorem laneOf_setLaneAt_neE (l : SkipList K V) {p q : Option Nat} {L L' : Nat}
    (v : Option Nat) (h : q ≠ p ∨ L' ≠ L) :
    laneOf (setLaneAt l p L v) q L' = laneOf l q L' := by
  cases p with
  | none =>
    cases q with
    | none =>
      have hL : L' ≠ L := by
        rcases h with h | h
        · exact absurd rfl h
        · exact h
      rw [setLaneAt_none_eqE]
      show (l.header.set L v).getD L' none = l.header.getD L' none
      rw [List.getD_eq_get?, List.getD_eq_get?, List.get?_set_ne _ _ (Ne.symm hL)]
    | some i => rfl
  | some j =>
    cases hg : l.arena.get? j with
    | none => rw [setLaneAt_danglingE l L v hg]
    | some nd =>
      rw [setLaneAt_some_eqE l L v hg]
      cases q with
      | none => rfl
      | some i =>
        unfold laneOf
        by_cases hij : j = i
        · subst hij
          have hL : L' ≠ L := by
            rcases h with h | h
            · exact absurd rfl h
            · exact h
          show (match (l.arena.set j _).get? j with
            | none => none
            | some nd => nd.lanes.getD L' none) =
            (match l.arena.get? j with
            | none => none
            | some nd => nd.lanes.getD L' none)
          rw [List.get?_set_eq_of_lt _ (getQ_some_lt hg), hg]
          show (nd.lanes.set L v).getD L' none = nd.lanes.getD L' none
          rw [List.getD_eq_get?, List.getD_eq_get?,
            List.get?_set_ne _ _ (Ne.symm hL)]
        · show (match (l.arena.set j _).get? i with
            | none => none
            | some nd => nd.lanes.getD L' none) = _
          rw [List.get?_set_ne _ _ hij]

theorem laneOf_setLaneAt_selfE (l : SkipList K V) {p : Option Nat} {L : Nat}
    (v : Option Nat) {w : Nat} (h : laneOf l p L = some w) :
    laneOf (setLaneAt l p L v) p L = v := by
  cases p with
  | none =>
    have hread : l.header.get? L ≠ none := by
      intro hnone
      have : l.header.getD L none = none := by
        rw [List.getD_eq_get?, hnone]
        rfl
      rw [show laneOf l none L = l.header.getD L none from rfl, this] at h
      exact absurd h (by simp)
    have hlt : L < l.header.length := by
      by_contra hge
      exact hread (List.get?_eq_none.mpr (by omega))
    rw [setLaneAt_none_eqE]
    show (l.header.set L v).getD L none = v
    rw [List.getD_eq_get?, List.get?_set_eq_of_lt _ hlt]
    rfl
  | some j =>
    cases hg : l.arena.get? j with
    | none =>
      rw [laneOf_danglingE l L hg] at h
      exact absurd h (by simp)
    | some nd =>
      rw [laneOf_some_eqE l L hg] at h
      have hread : nd.lanes.get? L ≠ none := by
        intro hnone
        rw [List.getD_eq_get?, hnone] at h
        exact absurd h (by simp)
      have hlt : L < nd.lanes.length := by
        by_contra hge
        exact hread (List.get?_eq_none.mpr (by omega))
      rw [setLaneAt_some_eqE l L v hg]
      show (match (l.arena.set j _).get? j with
        | none => none
        | some nd => nd.lanes.getD L none) = _
      rw [List.get?_set_eq_of_lt _ (getQ_some_lt hg)]
      show (nd.lanes.set L v).getD L none = v
      rw [List.getD_eq_get?, List.get?_set_eq_of_lt _ hlt]
      rfl

theorem setPrevAt_arena_lengthE (l : SkipList K V) (i : Nat) (v : Option Nat) :
    (setPrevAt l i v).arena.length = l.arena.length := by
  cases hg : l.arena.get? i with
  | none => rw [setPrevAt_danglingE l v hg]
  | some nd => rw [setPrevAt_some_eqE l v hg]; simp

theorem setPrevAt_elementsE (l : SkipList K V) (i : Nat) (v : Option Nat) :
    (setPrevAt l i v).elements = l.elements := by
  cases hg : l.arena.get? i with
  | none => rw [setPrevAt_danglingE l v hg]
  | some nd => rw [setPrevAt_some_eqE l v hg]

theorem setPrevAt_lastE (l : SkipList K V) (i : Nat) (v : Option Nat) :
    (setPrevAt l i v).last = l.last := by
  cases hg : l.arena.get? i with
  | none => rw [setPrevAt_danglingE l v hg]
  | some nd => rw [setPrevAt_some_eqE l v hg]

theorem setPrevAt_lengthE (l : SkipList K V) (i : Nat) (v : Option Nat) :
    (setPrevAt l i v).length = l.length := by
  cases hg : l.arena.get? i with
  | none => rw [setPrevAt_danglingE l v hg]
  | some nd => rw [setPrevAt_some_eqE l v hg]

theorem setPrevAt_headerE (l : SkipList K V) (i : Nat) (v : Option Nat) :
    (setPrevAt l i v).header = l.header := by
  cases hg : l.arena.get? i with
  | none => rw [setPrevAt_danglingE l v hg]
  | some nd => rw [setPrevAt_some_eqE l v hg]

theorem keyAt_setPrevAtE (l : SkipList K V) (i : Nat) (v : Option Nat)
    (i' : Nat) : keyAt (setPrevAt l i v) i' = keyAt l i' := by
  cases hg : l.arena.get? i with
  | none => rw [setPrevAt_danglingE l v hg]
  | some nd =>
    rw [setPrevAt_some_eqE l v hg]
    unfold keyAt
    by_cases hii : i = i'
    · subst hii
      show ((l.arena.set i _).get? i).map _ = _
      rw [List.get?_set_eq_of_lt _ (getQ_some_lt hg), hg]
      rfl
    · show ((l.arena.set i _).get? i').map _ = _
      rw [List.get?_set_ne _ _ hii]

theorem valueAt_setPrevAtE (l : SkipList K V) (i : Nat) (v : Option Nat)
    (i' : Nat) : valueAt (setPrevAt l i v) i' = valueAt l i' := by
  cases hg : l.arena.get? i with
  | none => rw [setPrevAt_danglingE l v hg]
  | some nd =>
    rw [setPrevAt_some_eqE l v hg]
    unfold valueAt
    by_cases hii : i = i'
    · subst hii
      show ((l.arena.set i _).get? i).map _ = _
      rw [List.get?_set_eq_of_lt _ (getQ_some_lt hg), hg]
      rfl
    · show ((l.arena.set i _).get? i').map _ = _
      rw [List.get?_set_ne _ _ hii]

theorem laneOf_setPrevAtE (l : SkipList K V) (i : Nat) (v : Option Nat)
    (q : Option Nat) (L : Nat) : laneOf (setPrevAt l i v) q L = laneOf l q L := by
  cases hg : l.arena.get? i with
  | none => rw [setPrevAt_danglingE l v hg]
  | some nd =>
    rw [setPrevAt_some_eqE l v hg]
    cases q with
    | none => rfl
    | some m =>
      unfold laneOf
      by_cases him : i = m
      · subst him
        show (match (l.arena.set i _).get? i with
          | none => none
          | some nd => nd.lanes.getD L none) =
          (match l.arena.get? i with
          | none => none
          | some nd => nd.lanes.getD L none)
        rw [List.get?_set_eq_of_lt _ (getQ_some_lt hg), hg]
      · show (match (l.arena.set i _).get? m with
          | none => none
          | some nd => nd.lanes.getD L none) = _
        rw [List.get?_set_ne _ _ him]

theorem prevOf_setPrevAt_neE (l : SkipList K V) (i : Nat) (v : Option Nat)
    {i' : Nat} (h : i' ≠ i) : prevOf (setPrevAt l i v) i' = prevOf l i' := by
  cases hg : l.arena.get? i with
  | none => rw [setPrevAt_danglingE l v hg]
  | some nd =>
    rw [setPrevAt_some_eqE l v hg]
    unfold prevOf
    show (match (l.arena.set i _).get? i' with
      | none => none
      | some nd => nd.prev) = _
    rw [List.get?_set_ne _ _ (Ne.symm h)]

theorem prevOf_setPrevAt_selfE (l : SkipList K V) (i : Nat) (v : Option Nat)
    {nd : Element K V} (hg : l.arena.get? i = some nd) :
    prevOf (setPrevAt l i v) i = v := by
  rw [setPrevAt_some_eqE l v hg]
  unfold prevOf
  show (match (l.arena.set i _).get? i with
    | none => none
    | some nd => nd.prev) = _
  rw [List.get?_set_eq_of_lt _ (getQ_some_lt hg)]

theorem lookupA_not_memE {m : List (K × Nat)} {k : K}
    (h : k ∉ m.map Prod.fst) : lookupA m k = none := by
  induction m with
  | nil => rfl
  | cons pr t ih =>
    obtain ⟨a, b⟩ := pr
    have hak : ¬ (a = k) := by
      intro hak
      exact h (by simp [hak])
    unfold lookupA
    rw [List.find?_cons_of_neg _ (by simpa using hak)]
    exact ih (fun hm => h (by simp [hm]))

theorem lookupA_eraseA_selfE {m : List (K × Nat)}
    (hnd : (m.map Prod.fst).Nodup) (k : K) :
    lookupA (eraseA m k) k = none := by
  induction m with
  | nil => rfl
  | cons pr t ih =>
    obtain ⟨a, b⟩ := pr
    rw [List.map_cons, List.nodup_cons] at hnd
    unfold eraseA
    by_cases hak : a = k
    · rw [if_pos hak]
      subst hak
      exact lookupA_not_memE hnd.1
    · rw [if_neg hak]
      unfold lookupA
      rw [List.find?_cons_of_neg _ (by simpa using hak)]
      exact ih hnd.2

theorem keyAt_eq_of_arenaE {a b : SkipList K V} (hab : a.arena = b.arena)
    (i : Nat) : keyAt a i = keyAt b i := by
  unfold keyAt
  rw [hab]

theorem valueAt_eq_of_arenaE {a b : SkipList K V} (hab : a.arena = b.arena)
    (i : Nat) : valueAt a i = valueAt b i := by
  unfold valueAt
  rw [hab]

theorem prevOf_eq_of_arenaE {a b : SkipList K V} (hab : a.arena = b.arena)
    (i : Nat) : prevOf a i = prevOf b i := by
  unfold prevOf
  rw [hab]

theorem laneOf_some_eq_of_arenaE {a b : SkipList K V} (hab : a.arena = b.arena)
    (i L : Nat) : laneOf a (some i) L = laneOf b (some i) L := by
  unfold laneOf
  rw [hab]


/-- The shared floor descent of `part_005` (`get`, `AtOrBefore`,
`AtOrAfter`):
```
for level := l.maxLevel - 1; level >= 0; level-- {
  if lanes[level] != nil && lanes[level].key <= key {
    elem = lanes[level]; lanes = elem.lanes; level++
  }
}
```
`n` is `level + 1` (the loop counter as a natural number), `elem` is both
the running result and the lanes pointer (they coincide: `lanes` is the
header exactly when `elem` is nil).  The loop is `Walk.floorLoop`
instantiated with this variant's state readers; the fuel bounds the total
number of iterations and `descentFuel` below always suffices on well-formed
heaps. -/
def floorLoop (l : SkipList K V) (k : K) (fuel : Nat) (n : Nat)
    (elem : Option Nat) : Option Nat :=
  Walk.floorLoop (laneOf l) (keyAt l) k fuel n elem

/-- Fuel for the `part_005` descents: one unit per level plus one per
possible forward move. -/
def descentFuel (l : SkipList K V) : Nat :=
  l.arena.length + l.maxLevel + 1

/-- `func (l *SkipList[K, V]) fastGet(key K) (elem *Element[K, V])` from
`part_005`: the hash-index hit, or nil when the index is disabled. -/
def fastGet (l : SkipList K V) (k : K) : Option Nat :=
  match l.elements with
  | some m => lookupA m k
  | none => none

/-- `func (l *SkipList[K, V]) get(key K) (elem *Element[K, V])` from
`part_005`: hash-index lookup when present, otherwise the floor descent
followed by an exact-key check. -/
def get (l : SkipList K V) (k : K) : Option Nat :=
  match l.elements with
  | some m => lookupA m k
  | none =>
    match floorLoop l k (descentFuel l) l.maxLevel none with
    | some i => if keyAt l i ≠ some k then none else some i
    | none => none

/-- `func (l *SkipList[K, V]) Get(key K)` from `part_005` (the mutex has no
observable effect in a single-threaded embedding). -/
def Get (l : SkipList K V) (k : K) : Option Nat :=
  get l k

/-- `func (l *SkipList[K, V]) Contains(key K) bool` from `part_005`. -/
def Contains (l : SkipList K V) (k : K) : Bool :=
  (get l k).isSome

/-- `func (l *SkipList[K, V]) AtOrBefore(key K)` from `part_005`. -/
def AtOrBefore (l : SkipList K V) (k : K) : Option Nat :=
  match fastGet l k with
  | some i => some i
  | none => floorLoop l k (descentFuel l) l.maxLevel none

/-- `func (l *SkipList[K, V]) AtOrAfter(key K)` from `part_005`: a first-
element pre-check, the hash-index hit, then the floor descent with a final
forward step when the floor's key is strictly below the target. -/
def AtOrAfter (l : SkipList K V) (k : K) : Option Nat :=
  let firstHit : Bool :=
    match l.header.getD 0 none with
    | some f =>
      match keyAt l f with
      | some kf => k ≤ kf
      | none => false
    | none => false
  if firstHit then l.header.getD 0 none
  else
    match fastGet l k with
    | some i => some i
    | none =>
      match floorLoop l k (descentFuel l) l.maxLevel none with
      | some i =>
        match keyAt l i with
        | some ki => if ki < k then laneOf l (some i) 0 else some i
        | none => some i
      | none => none

/-- `func (l *SkipList[K, V]) Before(key K)` from `part_005`: `AtOrBefore`,
stepped backward once on an exact hit. -/
def Before (l : SkipList K V) (k : K) : Option Nat :=
  match AtOrBefore l k with
  | some i => if keyAt l i = some k then prevOf l i else some i
  | none => none

/-- `func (l *SkipList[K, V]) After(key K)` from `part_005`: `AtOrAfter`,
stepped forward once on an exact hit. -/
def After (l : SkipList K V) (k : K) : Option Nat :=
  match AtOrAfter l k with
  | some i => if keyAt l i = some k then laneOf l (some i) 0 else some i
  | none => none

/-- The lagged advance of `SkipList.Remove` (`part_005`, lines 223–226):
`for next != nil && next.key < key { lanes, next = next.lanes, lanes[level] }`.
The simultaneous assignment makes `next` lag one step behind the lanes
pointer, so each list node is visited at most twice; the loop is
`Walk.removeAdvance` instantiated with this variant's state readers. -/
def removeAdvance (l : SkipList K V) (k : K) (level : Nat) (fuel : Nat)
    (pos next : Option Nat) : Option Nat × Option Nat :=
  Walk.removeAdvance (laneOf l) (keyAt l) k level fuel pos next

/-- One level of the removal descent of `SkipList.Remove` (`part_005`,
lines 222–236); `n` is the level. -/
def removeLevelStep (k : K) (s : SkipList K V × Option Nat × Option Nat)
    (n : Nat) : SkipList K V × Option Nat × Option Nat :=
  let l := s.1
  let next0 := laneOf l s.2.1 n
  let pn := removeAdvance l k n (2 * l.arena.length + 2) s.2.1 next0
  let pos := pn.1
  let found := s.2.2
  match pn.2 with
  | some j =>
    if keyAt l j = some k then
      let l := setLaneAt l pos n (laneOf l (some j) n)
      if n = 0 then
        let l :=
          match laneOf l (some j) 0 with
          | some s2 => setPrevAt l s2 (prevOf l j)
          | none => l
        (l, pos, some j)
      else (l, pos, found)
    else (l, pos, found)
  | none => (l, pos, found)

/-- The level loop of `Remove` (`part_005`), from level `n - 1` down to 0. -/
def removeLoop (k : K) :
    Nat → SkipList K V × Option Nat × Option Nat →
    SkipList K V × Option Nat × Option Nat
  | 0, s => s
  | n + 1, s => removeLoop k n (removeLevelStep k s n)

/-- `func (l *SkipList[K, V]) Remove(key K) (elem *Element[K, V])` from
`part_005`.  Returns the updated list and the removed handle.  When a node
was removed the code nulls `elem.lanes[0]` ("make sure to remove Next()")
but never touches `elem.prev`.  The final `if l.last.key == key` would
nil-panic on an empty `last`; that branch is skipped in the model (it is
unreachable when an element was actually found on a well-formed heap). -/
def Remove (l : SkipList K V) (k : K) : SkipList K V × Option Nat :=
  let short : Bool :=
    match l.elements with
    | some m => lookupA m k = none
    | none => false
  if short then (l, none)
  else
    let res := removeLoop k l.maxLevel (l, none, none)
    let l := res.1
    match res.2.2 with
    | none => (l, none)
    | some j =>
      let l := { l with length := l.length - 1 }
      let l := setLaneAt l (some j) 0 none
      let l :=
        match l.elements with
        | some m => { l with elements := some (eraseA m k) }
        | none => l
      let l :=
        match l.last with
        | some t => if keyAt l t = some k then { l with last := prevOf l t } else l
        | none => l
      (l, some j)

/-- `func (l *SkipList[K, V]) RemoveFirst() (removed *Element[K, V])` from
`part_005`.  The header repair compares keys (`elem.key == removed.key`),
then the hash index, `length`, `last`, the new first element's backward
reference and the removed element's lane 0 are updated in source order. -/
def RemoveFirst (l : SkipList K V) : SkipList K V × Option Nat :=
  match l.header.getD 0 none with
  | none => (l, none)
  | some rid =>
    let rkey := keyAt l rid
    let l := (List.range l.header.length).foldl
      (fun acc level =>
        match acc.header.getD level none, rkey with
        | some e, some rk =>
          if keyAt acc e = some rk then
            { acc with header := acc.header.set level (laneOf acc (some rid) level) }
          else acc
        | _, _ => acc) l
    let l :=
      match l.elements, rkey with
      | some m, some rk => { l with elements := some (eraseA m rk) }
      | _, _ => l
    let l := { l with length := l.length - 1 }
    let l := if l.length = (0 : Int) then { l with last := none } else l
    let l :=
      match laneOf l (some rid) 0 with
      | some s => setPrevAt l s none
      | none => l
    let l := setLaneAt l (some rid) 0 none
    (l, some rid)

/-- `func (l *SkipList[K, V]) First()` from `part_005`. -/
def First (l : SkipList K V) : Option Nat :=
  l.header.getD 0 none

/-- `func (l *SkipList[K, V]) Last()` from `part_005`. -/
def Last (l : SkipList K V) : Option Nat :=
  l.last

/-- `func (l *SkipList[K, V]) Length() int` from `part_005`. -/
def Length (l : SkipList K V) : Int :=
  l.length

/-- The lane-`L` element sequence of the list, read from the heap. -/
def lanesAt (l : SkipList K V) (L : Nat) : List Nat :=
  Walk.chase (laneOf l) L (l.arena.length + 1) none

/-- The lane-0 element sequence of the list. -/
def chain (l : SkipList K V) : List Nat :=
  lanesAt l 0

theorem lanesAt_setPrevAtE (l : SkipList K V) (i : Nat) (v : Option Nat)
    (L : Nat) : lanesAt (setPrevAt l i v) L = lanesAt l L := by
  unfold lanesAt
  rw [setPrevAt_arena_lengthE]
  exact Walk.chase_congr (fun q => laneOf_setPrevAtE l i v q L) _ none

theorem chain_setPrevAtE (l : SkipList K V) (i : Nat) (v : Option Nat) :
    chain (setPrevAt l i v) = chain l := by
  unfold chain
  exact lanesAt_setPrevAtE l i v 0

/-- Well-formedness of a `part_005` list state, mirroring the invariants of
§3 of the spec: well-formed multi-level chains over the element order
`chain l`, header of `maxLevel` slots, live arena indices, and `last`,
`length`, backward references and the optional hash index consistent with
the lane-0 chain. -/
structure WF (l : SkipList K V) : Prop where
  lanesWF : Walk.LaneWF (laneOf l) (keyAt l) l.maxLevel (chain l) (lanesAt l)
  headerLen : l.header.length = l.maxLevel
  sizeOk : ∀ a ∈ chain l, a < l.arena.length
  lastOk : l.last = (chain l).getLast?
  lengthOk : l.length = ((chain l).length : Int)
  prevHead : ∀ h ∈ (chain l).head?.toList, prevOf l h = none
  prevChain : ∀ pr ∈ (chain l).zip (chain l).tail, prevOf l pr.2 = some pr.1
  mapMem : ∀ p ∈ l.elements.getD [], p.2 ∈ chain l ∧ keyAt l p.2 = some p.1
  mapLook : ∀ a ∈ chain l, ∀ ka ∈ (keyAt l a).toList,
    l.elements.isSome = true → lookupA (l.elements.getD []) ka = some a
  mapNodup : ((l.elements.getD []).map Prod.fst).Nodup

theorem WF.lenArenaE {l : SkipList K V} (h : WF l) :
    (chain l).length ≤ l.arena.length :=
  Walk.length_le_of_nodup_lt (Walk.nodup_of_sorted h.lanesWF.sorted) h.sizeOk

theorem WF.prevHdE {l : SkipList K V} (h : WF l) {hd : Nat}
    (hh : (chain l).head? = some hd) : prevOf l hd = none :=
  h.prevHead hd (by rw [hh]; simp)

theorem WF.map_memE {l : SkipList K V} {m : List (K × Nat)} {k : K} {i : Nat}
    (h : WF l) (hn : l.elements = some m) (hp : (k, i) ∈ m) :
    i ∈ chain l ∧ keyAt l i = some k :=
  h.mapMem (k, i) (by rw [hn]; simpa using hp)

theorem WF.map_lookupE {l : SkipList K V} {m : List (K × Nat)} {a : Nat}
    {ka : K} (h : WF l) (hn : l.elements = some m) (ha : a ∈ chain l)
    (hk : keyAt l a = some ka) : lookupA m ka = some a := by
  have := h.mapLook a ha ka (by rw [hk]; simp) (by rw [hn]; rfl)
  rwa [hn] at this

theorem lookupA_memE {m : List (K × Nat)} {k : K} {i : Nat}
    (h : lookupA m k = some i) : (k, i) ∈ m := by
  unfold lookupA at h
  cases hf : m.find? (fun p => decide (p.1 = k)) with
  | none => rw [hf] at h; simp at h
  | some pr =>
    rw [hf] at h
    simp at h
    have hmem := List.mem_of_find?_eq_some hf
    have hkey := List.find?_some hf
    simp only [decide_eq_true_eq] at hkey
    have hpr : pr = (k, i) := by
      cases pr with
      | mk a b =>
        simp only at hkey h
        simp [hkey, h]
    rw [hpr] at hmem
    exact hmem

/-- The shared descent of `part_005` computes the floor of the target key on
every well-formed list. -/
theorem floorLoop_eq_floor {l : SkipList K V} (h : WF l) (k : K) :
    floorLoop l k (descentFuel l) l.maxLevel none =
      Walk.floorSpec (keyAt l) k (chain l) := by
  unfold floorLoop descentFuel
  refine Walk.floorLoop_floor h.lanesWF (l.arena.length + l.maxLevel + 1)
    l.maxLevel none h.lanesWF.one_le (le_refl _) ?_ ?_
  · exact Or.inl rfl
  · simp only [Walk.measureIdx]
    have := h.lenArenaE
    omega

/-- `AtOrBefore` computes the floor of the key on every well-formed list. -/
theorem AtOrBefore_eq_floor {l : SkipList K V} (h : WF l) (k : K) :
    AtOrBefore l k = Walk.floorSpec (keyAt l) k (chain l) := by
  unfold AtOrBefore fastGet
  cases hn : l.elements with
  | none => exact floorLoop_eq_floor h k
  | some m =>
    cases hl : lookupA m k with
    | none =>
      simp only [hl]
      exact floorLoop_eq_floor h k
    | some i =>
      have hmem := h.map_memE hn (lookupA_memE hl)
      simp only [hl]
      exact (Walk.floorSpec_mem h.lanesWF.sorted hmem.1 hmem.2).symm

/-- `AtOrAfter` computes the ceiling of the key on every well-formed list
(C5 for the Element variant). -/
theorem AtOrAfter_eq_ceil {l : SkipList K V} (h : WF l) (k : K) :
    AtOrAfter l k = Walk.ceilSpec (keyAt l) k (chain l) := by
  have hhead : l.header.getD 0 none = (chain l).head? :=
    Walk.isChain_head _ _ _ _ (h.lanesWF.chains 0 h.lanesWF.one_le)
  have hfast : ∀ i, fastGet l k = some i →
      i ∈ chain l ∧ keyAt l i = some k := by
    intro i hi
    unfold fastGet at hi
    cases hn : l.elements with
    | none => rw [hn] at hi; simp at hi
    | some m =>
      rw [hn] at hi
      exact h.map_memE hn (lookupA_memE hi)
  cases hns : chain l with
  | nil =>
    have h0 : l.header.getD 0 none = none := by rw [hhead, hns]; rfl
    rw [← hns]
    have hceil : Walk.ceilSpec (keyAt l) k (chain l) = none := by
      rw [hns]; rfl
    rw [hceil]
    unfold AtOrAfter
    simp only [h0]
    simp only [if_neg (by simp : ¬(false = true))]
    cases hf : fastGet l k with
    | some i =>
      have := (hfast i hf).1
      rw [hns] at this
      simp at this
    | none =>
      have hfloor : floorLoop l k (descentFuel l) l.maxLevel none = none := by
        rw [floorLoop_eq_floor h k, hns]
        rfl
      simp [hfloor]
  | cons f rest =>
    have h0 : l.header.getD 0 none = some f := by rw [hhead, hns]; rfl
    have hfns : f ∈ chain l := by rw [hns]; simp
    obtain ⟨kf, hkf⟩ := Option.isSome_iff_exists.mp (h.lanesWF.keys f hfns)
    rw [← hns]
    by_cases hhit : k ≤ kf
    · -- first-element pre-check hits: the first element is the ceiling
      have hceil : Walk.ceilSpec (keyAt l) k (chain l) = some f := by
        unfold Walk.ceilSpec
        rw [hns, List.dropWhile_cons]
        have : Walk.keyLT (keyAt l) f k = false := by
          unfold Walk.keyLT
          rw [hkf]
          simp [not_lt.mpr hhit]
        simp [this]
      rw [hceil]
      unfold AtOrAfter
      simp only [h0, hkf]
      simp [hhit]
    · -- first element is below the target
      unfold AtOrAfter
      simp only [h0, hkf]
      simp only [if_neg (by simp [hhit] : ¬((decide (k ≤ kf)) = true))]
      cases hf2 : fastGet l k with
      | some i =>
        have hm := hfast i hf2
        exact (Walk.ceilSpec_mem h.lanesWF.sorted hm.1 hm.2).symm
      | none =>
        have hfloor := floorLoop_eq_floor h k
        rw [hfloor]
        cases hfl : Walk.floorSpec (keyAt l) k (chain l) with
        | none =>
          -- impossible: the first element has key below the target
          have hall := (Walk.floorSpec_none_iff h.lanesWF.sorted).mp hfl
          have := hall f hfns
          unfold Walk.keyLE at this
          rw [hkf] at this
          simp [le_of_lt (not_le.mp hhit)] at this
        | some i =>
          have hmemle := Walk.floorSpec_mem_le hfl
          have hki : ∃ ki, keyAt l i = some ki :=
            Option.isSome_iff_exists.mp (h.lanesWF.keys i hmemle.1)
          obtain ⟨ki, hki⟩ := hki
          have hkile : ki ≤ k := by
            have := hmemle.2
            unfold Walk.keyLE at this
            rw [hki] at this
            simpa using this
          simp only [hki]
          by_cases hkilt : ki < k
          · rw [if_pos hkilt]
            -- the floor's lane-0 successor is the ceiling
            have hchain0 : Walk.isChain (laneOf l) 0 none (chain l) :=
              h.lanesWF.chains 0 h.lanesWF.one_le
            have hsucc := Walk.ceil_of_floor hchain0 hfl
            rw [hsucc]
            unfold Walk.ceilSpec
            congr 1
            refine Walk.dropWhile_congr (chain l) ?_
            intro x hx
            have hxk := Walk.floor_lt_no_exact h.lanesWF.sorted hfl hki hkilt x hx
            unfold Walk.keyLE Walk.keyLT
            cases hkx : keyAt l x with
            | none => rfl
            | some kx =>
              have hne : kx ≠ k := by
                intro heq
                exact hxk (by rw [hkx, heq])
              have hiff : (kx ≤ k) ↔ (kx < k) :=
                ⟨fun hle => lt_of_le_of_ne hle hne, le_of_lt⟩
              exact decide_eq_decide.mpr hiff
          · have hkieq : ki = k := le_antisymm hkile (not_lt.mp hkilt)
            rw [if_neg hkilt]
            rw [hkieq] at hki
            exact (Walk.ceilSpec_mem h.lanesWF.sorted hmemle.1 hki).symm

/-- When the key is present, both `AtOrBefore` and `AtOrAfter` return
exactly the element holding it. -/
theorem present_queries {l : SkipList K V} (h : WF l) {i : Nat} {k : K}
    (hi : i ∈ chain l) (hk : keyAt l i = some k) :
    AtOrBefore l k = some i ∧ AtOrAfter l k = some i := by
  constructor
  · rw [AtOrBefore_eq_floor h k]
    exact Walk.floorSpec_mem h.lanesWF.sorted hi hk
  · rw [AtOrAfter_eq_ceil h k]
    exact Walk.ceilSpec_mem h.lanesWF.sorted hi hk

/-- When the key is absent, `Before` coincides with `AtOrBefore` and
`After` with `AtOrAfter`: the exact-hit stepping never fires. -/
theorem absent_queries {l : SkipList K V} (h : WF l) {k : K}
    (hab : ∀ a ∈ chain l, keyAt l a ≠ some k) :
    AtOrBefore l k = Before l k ∧ AtOrAfter l k = After l k := by
  constructor
  · unfold Before
    cases hb : AtOrBefore l k with
    | none => rfl
    | some i =>
      have hfl : Walk.floorSpec (keyAt l) k (chain l) = some i := by
        rw [← AtOrBefore_eq_floor h k]
        exact hb
      have hmem := (Walk.floorSpec_mem_le hfl).1
      show some i = if keyAt l i = some k then prevOf l i else some i
      rw [if_neg (hab i hmem)]
  · unfold After
    cases hb : AtOrAfter l k with
    | none => rfl
    | some i =>
      have hcl : Walk.ceilSpec (keyAt l) k (chain l) = some i := by
        rw [← AtOrAfter_eq_ceil h k]
        exact hb
      have hmem := (Walk.ceilSpec_mem_ge hcl).1
      show some i = if keyAt l i = some k then laneOf l (some i) 0 else some i
      rw [if_neg (hab i hmem)]

/-- Boundary behavior below: `AtOrBefore` is empty when the target is
strictly below every key, `Before` is empty when the target is at or below
every key. -/
theorem boundary_below {l : SkipList K V} (h : WF l) {k : K} :
    ((∀ a ∈ chain l, Walk.keyLE (keyAt l) a k = false) →
      AtOrBefore l k = none) ∧
    ((∀ a ∈ chain l, Walk.keyLT (keyAt l) a k = false) →
      Before l k = none) := by
  constructor
  · intro hall
    rw [AtOrBefore_eq_floor h k]
    exact (Walk.floorSpec_none_iff h.lanesWF.sorted).mpr hall
  · intro hall
    unfold Before
    cases hb : AtOrBefore l k with
    | none => rfl
    | some i =>
      have hfl : Walk.floorSpec (keyAt l) k (chain l) = some i := by
        rw [← AtOrBefore_eq_floor h k]
        exact hb
      obtain ⟨hi, hile⟩ := Walk.floorSpec_mem_le hfl
      obtain ⟨ki, hki⟩ := Option.isSome_iff_exists.mp (h.lanesWF.keys i hi)
      have hkieq : ki = k := by
        have h1 : ki ≤ k := by
          unfold Walk.keyLE at hile
          rw [hki] at hile
          simpa using hile
        have h2 := hall i hi
        unfold Walk.keyLT at h2
        rw [hki] at h2
        simp at h2
        exact le_antisymm h1 h2
      show (if keyAt l i = some k then prevOf l i else some i) = none
      rw [if_pos (by rw [hki, hkieq])]
      -- the element at the minimum key is the first element
      have hhd : (chain l).head? = some i := by
        obtain ⟨pre, suf, hsplit⟩ := List.append_of_mem hi
        cases hpre : pre with
        | nil =>
          rw [hsplit, hpre]
          rfl
        | cons x t =>
          exfalso
          have hsorted := h.lanesWF.sorted
          rw [hsplit, hpre] at hsorted
          rw [List.pairwise_append] at hsorted
          have hxi := hsorted.2.2 x (by simp) i (by simp)
          have hx : x ∈ chain l := by rw [hsplit, hpre]; simp
          have h2 := hall x hx
          unfold Walk.nodeLT at hxi
          unfold Walk.keyLT at h2
          cases hkx : keyAt l x with
          | none => rw [hkx] at hxi; simp at hxi
          | some kx =>
            rw [hkx, hki] at hxi
            rw [hkx] at h2
            simp only [decide_eq_true_eq] at hxi
            simp only [decide_eq_false_iff_not, not_lt] at h2
            rw [hkieq] at hxi
            exact absurd hxi (not_lt.mpr h2)
      exact h.prevHdE hhd

/-- Boundary behavior above: `AtOrAfter` is empty when the target is
strictly above every key, `After` is empty when the target is at or above
every key. -/
theorem boundary_above {l : SkipList K V} (h : WF l) {k : K} :
    ((∀ a ∈ chain l, Walk.keyLT (keyAt l) a k = true) →
      AtOrAfter l k = none) ∧
    ((∀ a ∈ chain l, Walk.keyLE (keyAt l) a k = true) →
      After l k = none) := by
  constructor
  · intro hall
    rw [AtOrAfter_eq_ceil h k]
    exact Walk.ceilSpec_none_iff.mpr hall
  · intro hall
    unfold After
    cases hb : AtOrAfter l k with
    | none => rfl
    | some i =>
      have hcl : Walk.ceilSpec (keyAt l) k (chain l) = some i := by
        rw [← AtOrAfter_eq_ceil h k]
        exact hb
      obtain ⟨hi, hige⟩ := Walk.ceilSpec_mem_ge hcl
      obtain ⟨ki, hki⟩ := Option.isSome_iff_exists.mp (h.lanesWF.keys i hi)
      have hkieq : ki = k := by
        have h1 : k ≤ ki := by
          unfold Walk.keyLT at hige
          rw [hki] at hige
          simpa using hige
        have h2 := hall i hi
        unfold Walk.keyLE at h2
        rw [hki] at h2
        simp at h2
        exact le_antisymm h2 h1
      show (if keyAt l i = some k then laneOf l (some i) 0 else some i) = none
      rw [if_pos (by rw [hki, hkieq])]
      -- the element at the maximum key is the last element
      obtain ⟨pre, suf, hsplit⟩ := List.append_of_mem hi
      have hsuf : suf = [] := by
        cases hsufe : suf with
        | nil => rfl
        | cons y t =>
          exfalso
          have hsorted := h.lanesWF.sorted
          rw [hsplit, hsufe] at hsorted
          rw [List.pairwise_append] at hsorted
          have hiy := (List.pairwise_cons.mp hsorted.2.1).1 y (by simp)
          have hy : y ∈ chain l := by rw [hsplit, hsufe]; simp
          have h2 := hall y hy
          unfold Walk.nodeLT at hiy
          unfold Walk.keyLE at h2
          cases hky : keyAt l y with
          | none => rw [hky] at h2; simp at h2
          | some ky =>
            rw [hki, hky] at hiy
            rw [hky] at h2
            simp only [decide_eq_true_eq] at hiy h2
            rw [hkieq] at hiy
            exact absurd hiy (not_lt.mpr h2)
      have hch : Walk.isChain (laneOf l) 0 (some i) suf := by
        have hc := h.lanesWF.chains 0 h.lanesWF.one_le
        rw [show lanesAt l 0 = chain l from rfl, hsplit] at hc
        exact Walk.isChain_suffix _ _ _ _ _ _ hc
      rw [hsuf] at hch
      exact hch


/-- The lagged advance (`removeAdvance`) entered with `next = lane p level`
lands exactly where the strict advance (`advanceLT`) lands, and returns the
matching `(lanes, next)` pair, whenever the position satisfies the descent
invariant.  This is the bridge between the `part_005` removal loop and the
run lemmas for the strict advance. -/
theorem removeAdvance_lands
    {lane : Option Nat → Nat → Option Nat} {key : Nat → Option K}
    {numLevels : Nat} {ns : List Nat} {lns : Nat → List Nat}
    (W : Walk.LaneWF lane key numLevels ns lns) {k : K} {f1 f2 : Nat}
    (hf1 : ns.length ≤ f1) (hf2 : 2 * ns.length + 1 ≤ f2)
    {L : Nat} (hL : L < numLevels) {p : Option Nat}
    (h : Walk.InvAt lns key k L p) :
    Walk.removeAdvance lane key k L f2 p (lane p L) =
      (Walk.advanceLT lane key k L f1 p,
       lane (Walk.advanceLT lane key k L f1 p) L) := by
  have hsub := W.sub L hL
  rcases h with hp | ⟨a, hp, ha, hklt⟩
  · subst hp
    have hc := W.chains L hL
    have hlen1 : (lns L).length ≤ f1 := le_trans hsub.length_le hf1
    have hlen2 : 2 * (lns L).length + 1 ≤ f2 := by
      have := hsub.length_le
      omega
    obtain ⟨ha1, -⟩ := Walk.advanceLT_spec lane key k L (lns L) none f1 hc hlen1
    obtain ⟨hr1, -⟩ := Walk.removeAdvance_spec lane key k L (lns L) none f2 hc hlen2
    rw [hr1, ha1]
  · subst hp
    obtain ⟨pre, suf, hsplit, hc⟩ := Walk.exists_suffix_chain W hL ha
    have hlenL : suf.length ≤ (lns L).length := by
      rw [hsplit]
      simp
      omega
    have hlen1 : suf.length ≤ f1 :=
      le_trans hlenL (le_trans hsub.length_le hf1)
    have hlen2 : 2 * suf.length + 1 ≤ f2 := by
      have := le_trans hlenL hsub.length_le
      omega
    obtain ⟨ha1, -⟩ := Walk.advanceLT_spec lane key k L suf (some a) f1 hc hlen1
    obtain ⟨hr1, -⟩ := Walk.removeAdvance_spec lane key k L suf (some a) f2 hc hlen2
    rw [hr1, ha1]

/-- Writing `none` into lane `L` of a live or dangling element always makes
the read of that lane come back `none` (the write either lands, overwrites
with `none`, or falls outside the element's lanes, which read `none`
anyway). -/
theorem laneOf_setLaneAt_nullE (l : SkipList K V) (i : Nat) (L : Nat) :
    laneOf (setLaneAt l (some i) L none) (some i) L = none := by
  cases hg : l.arena.get? i with
  | none =>
    rw [setLaneAt_danglingE l L none hg]
    exact laneOf_danglingE l L hg
  | some nd =>
    rw [setLaneAt_some_eqE l L none hg]
    show (match (l.arena.set i { nd with lanes := nd.lanes.set L none }).get? i with
      | none => none
      | some nd => nd.lanes.getD L none) = none
    rw [List.get?_set_eq_of_lt _ (getQ_some_lt hg)]
    show (nd.lanes.set L none).getD L none = none
    rw [List.getD_eq_get?]
    by_cases hlt : L < nd.lanes.length
    · rw [List.get?_set_eq_of_lt _ (by simpa using hlt)]
      rfl
    · rw [List.get?_eq_none.mpr (by simp; omega)]
      rfl

/-- Writing a lane of an element (a `some` position) never touches the
header. -/
theorem setLaneAt_some_headerE (l : SkipList K V) (i : Nat) (L : Nat)
    (v : Option Nat) : (setLaneAt l (some i) L v).header = l.header := by
  cases hg : l.arena.get? i with
  | none => rw [setLaneAt_danglingE l L v hg]
  | some nd => rw [setLaneAt_some_eqE l L v hg]

/-- `laneOf` reads only the arena and the header. -/
theorem laneOf_shape_eqE {a b : SkipList K V} (harena : a.arena = b.arena)
    (hheader : a.header = b.header) (q : Option Nat) (L : Nat) :
    laneOf a q L = laneOf b q L := by
  unfold laneOf
  rw [harena, hheader]

/-- The lane-0 successor of a chain element is a different chain element. -/
theorem lane0_next_neE {l : SkipList K V} (h : WF l) {j succ : Nat}
    (hj : j ∈ chain l) (hs : laneOf l (some j) 0 = some succ) : succ ≠ j := by
  obtain ⟨pre, suf, hsplit, hch⟩ :=
    Walk.exists_suffix_chain h.lanesWF h.lanesWF.one_le hj
  have hhead := Walk.isChain_head _ _ _ _ hch
  rw [hs] at hhead
  have hsuccmem : succ ∈ suf := by
    cases hsuf : suf with
    | nil => rw [hsuf] at hhead; simp at hhead
    | cons c t =>
      rw [hsuf] at hhead
      have : succ = c := by simpa using hhead
      rw [this]
      simp
  have hnd : (chain l).Nodup := Walk.nodup_of_sorted h.lanesWF.sorted
  have hsplit' : chain l = pre ++ j :: suf := hsplit
  rw [hsplit'] at hnd
  have hjs : j ∉ suf := (List.nodup_cons.mp hnd.of_append_right).1
  intro heq
  rw [heq] at hsuccmem
  exact hjs hsuccmem

/-- Any state whose lane-0 reads form the spliced chain and whose arena kept
its size carries exactly the original chain minus the removed element. -/
theorem chain_eq_erase_ofE {l st4 : SkipList K V} {j0 : Nat} (h : WF l)
    (hj : j0 ∈ chain l)
    (hch : Walk.isChain (laneOf st4) 0 none ((chain l).erase j0))
    (hlen4 : st4.arena.length = l.arena.length) :
    chain st4 = (chain l).erase j0 := by
  show Walk.chase (laneOf st4) 0 (st4.arena.length + 1) none = (chain l).erase j0
  rw [hlen4]
  refine Walk.chase_of_isChain _ _ _ _ _ hch ?_
  rw [List.length_erase_of_mem hj]
  have := h.lenArenaE
  omega


/-- The hash-index delete of the `Remove` tail (`part_005`):
`delete(l.elements, key)` when the index is present. -/
def eraseElemsE (X : SkipList K V) (k : K) : SkipList K V :=
  match X.elements with
  | some m => { X with elements := some (eraseA m k) }
  | none => X

/-- The `last` repair of the `Remove` tail (`part_005`): when the last
element carries the removed key, point `last` at its backward reference. -/
def lastRepairE (X : SkipList K V) (k : K) : SkipList K V :=
  match X.last with
  | some t => if keyAt X t = some k then { X with last := prevOf X t } else X
  | none => X

/-- The tail of `SkipList.Remove` (`part_005`, lines 240–250) after the
descent found an element `j0`: decrement `length`, null the removed
element's lane 0, drop the key from the hash index, and repair `last` by
key comparison.  `Remove` is the descent followed by exactly this tail. -/
def removeTailE (st : SkipList K V) (k : K) (j0 : Nat) : SkipList K V :=
  lastRepairE
    (eraseElemsE
      (setLaneAt { st with length := st.length - 1 } (some j0) 0 none) k) k

/-- State agreement during the removal descent of `part_005`: with the loop
counter at `n`, everything except the lanes at levels `≥ n` is still exactly
as in the starting list `l`. -/
structure RStateE (l st : SkipList K V) (n : Nat) : Prop where
  alen : st.arena.length = l.arena.length
  keys : ∀ i, keyAt st i = keyAt l i
  vals : ∀ i, valueAt st i = valueAt l i
  prevs : ∀ i, prevOf st i = prevOf l i
  elems : st.elements = l.elements
  lst : st.last = l.last
  len : st.length = l.length
  low : ∀ q L', L' < n → laneOf st q L' = laneOf l q L'

/-- State of `part_005`'s `Remove` right after the descent found and spliced
out the element `j0`: keys and values are unchanged, the lane-0 chain routes
around `j0`, `j0` keeps its own lane-0 and backward references, and the
in-loop backward repair has already pointed `j0`'s lane-0 successor (when it
exists) at `j0`'s former backward reference. -/
structure RFinalE (l st : SkipList K V) (j0 : Nat) : Prop where
  alen : st.arena.length = l.arena.length
  keys : ∀ i, keyAt st i = keyAt l i
  vals : ∀ i, valueAt st i = valueAt l i
  prevRep : ∀ s2, laneOf l (some j0) 0 = some s2 → prevOf st s2 = prevOf l j0
  prevKeep : ∀ i, laneOf l (some j0) 0 ≠ some i → prevOf st i = prevOf l i
  elems : st.elements = l.elements
  lst : st.last = l.last
  len : st.length = l.length
  chain0 : Walk.isChain (laneOf st) 0 none ((chain l).erase j0)
  keep0 : laneOf st (some j0) 0 = laneOf l (some j0) 0

/-- One-step evaluation of the removal descent of `part_005`, with the
lagged advance's landing pair left as projections. -/
theorem removeLevelStepE_eq (k : K) (st : SkipList K V) (p f : Option Nat)
    (n : Nat) :
    removeLevelStep k (st, p, f) n =
      (match (removeAdvance st k n (2 * st.arena.length + 2) p
          (laneOf st p n)).2 with
       | some j =>
         if keyAt st j = some k then
           if n = 0 then
             (match laneOf (setLaneAt st
                 (removeAdvance st k n (2 * st.arena.length + 2) p
                   (laneOf st p n)).1 n (laneOf st (some j) n))
                 (some j) 0 with
              | some s2 =>
                setPrevAt (setLaneAt st
                  (removeAdvance st k n (2 * st.arena.length + 2) p
                    (laneOf st p n)).1 n (laneOf st (some j) n)) s2
                  (prevOf (setLaneAt st
                    (removeAdvance st k n (2 * st.arena.length + 2) p
                      (laneOf st p n)).1 n (laneOf st (some j) n)) j)
              | none => setLaneAt st
                  (removeAdvance st k n (2 * st.arena.length + 2) p
                    (laneOf st p n)).1 n (laneOf st (some j) n),
              (removeAdvance st k n (2 * st.arena.length + 2) p
                (laneOf st p n)).1, some j)
           else (setLaneAt st
               (removeAdvance st k n (2 * st.arena.length + 2) p
                 (laneOf st p n)).1 n (laneOf st (some j) n),
             (removeAdvance st k n (2 * st.arena.length + 2) p
               (laneOf st p n)).1, f)
         else (st, (removeAdvance st k n (2 * st.arena.length + 2) p
           (laneOf st p n)).1, f)
       | none => (st, (removeAdvance st k n (2 * st.arena.length + 2) p
           (laneOf st p n)).1, f)) := by
  simp only [removeLevelStep]


/-- When no element carries the key, no write of the `part_005` removal
descent fires: the state comes out of the level loop unchanged. -/
theorem removeLoop_absentE {l : SkipList K V} (h : WF l) {k : K}
    (habs : ∀ a ∈ chain l, keyAt l a ≠ some k) :
    ∀ n, n ≤ l.maxLevel → ∀ p f, Walk.InvAt (lanesAt l) (keyAt l) k n p →
      ∃ p', removeLoop k n (l, p, f) = (l, p', f) := by
  intro n
  induction n with
  | zero =>
    intro _ p f _
    exact ⟨p, rfl⟩
  | succ m ih =>
    intro hle p f hInv
    have hm : m < l.maxLevel := by omega
    have hInvm : Walk.InvAt (lanesAt l) (keyAt l) k m p := by
      rcases hInv with hp | ⟨a, hp, ha, hklt⟩
      · exact Or.inl hp
      · exact Or.inr ⟨a, hp, h.lanesWF.mono m hm a ha, hklt⟩
    have hfuel : (chain l).length ≤ l.arena.length + 1 := by
      have := h.lenArenaE
      omega
    have hfuel2 : 2 * (chain l).length + 1 ≤ 2 * l.arena.length + 2 := by
      have := h.lenArenaE
      omega
    have hpn : removeAdvance l k m (2 * l.arena.length + 2) p (laneOf l p m) =
        (Walk.advanceLT (laneOf l) (keyAt l) k m (l.arena.length + 1) p,
         laneOf l
           (Walk.advanceLT (laneOf l) (keyAt l) k m (l.arena.length + 1) p)
           m) := by
      unfold removeAdvance
      exact removeAdvance_lands h.lanesWF hfuel hfuel2 hm hInvm
    have hInvPos : Walk.InvAt (lanesAt l) (keyAt l) k m
        (Walk.advanceLT (laneOf l) (keyAt l) k m (l.arena.length + 1) p) :=
      Walk.advance_invAt h.lanesWF hfuel hm hInvm
    have hstep : removeLevelStep k (l, p, f) m =
        (l, Walk.advanceLT (laneOf l) (keyAt l) k m (l.arena.length + 1) p,
         f) := by
      rw [removeLevelStepE_eq k l p f m, hpn]
      cases hl0 : laneOf l
          (Walk.advanceLT (laneOf l) (keyAt l) k m (l.arena.length + 1) p)
          m with
      | none => rfl
      | some j =>
        have hmem := Walk.advance_next_mem h.lanesWF hfuel hm hInvm hl0
        have hkj : keyAt l j ≠ some k :=
          habs j ((h.lanesWF.sub m hm).subset hmem.1)
        show (if keyAt l j = some k then _ else _) = _
        rw [if_neg hkj]
    rw [show removeLoop k (m + 1) (l, p, f) =
      removeLoop k m (removeLevelStep k (l, p, f) m) from rfl, hstep]
    exact ih (by omega) _ f hInvPos

/-- `part_005` `Remove` on an absent key: the whole list state is returned
unchanged, with an empty handle, on both the hash-index short-circuit and
the full-descent path. -/
theorem Remove_absentE {l : SkipList K V} (h : WF l) {k : K}
    (habs : ∀ a ∈ chain l, keyAt l a ≠ some k) :
    Remove l k = (l, none) := by
  cases hn : l.elements with
  | some m =>
    have hlk : lookupA m k = none := by
      cases hl : lookupA m k with
      | none => rfl
      | some i =>
        have hmem := h.map_memE hn (lookupA_memE hl)
        exact absurd hmem.2 (habs i hmem.1)
    unfold Remove
    rw [hn]
    simp [hlk]
  | none =>
    obtain ⟨p', hloop⟩ := removeLoop_absentE h habs l.maxLevel (le_refl _)
      none none (Or.inl rfl)
    unfold Remove
    rw [hn]
    simp only [Bool.false_eq_true, if_false]
    rw [hloop]


/-- The lane-0 successor of a chain element is itself on the chain. -/
theorem lane0_next_memE {l : SkipList K V} (h : WF l) {j succ : Nat}
    (hj : j ∈ chain l) (hs : laneOf l (some j) 0 = some succ) :
    succ ∈ chain l := by
  obtain ⟨pre, suf, hsplit, hch⟩ :=
    Walk.exists_suffix_chain h.lanesWF h.lanesWF.one_le hj
  have hhead := Walk.isChain_head _ _ _ _ hch
  rw [hs] at hhead
  cases hsuf : suf with
  | nil => rw [hsuf] at hhead; simp at hhead
  | cons c t =>
    rw [hsuf] at hhead
    have hc : succ = c := by simpa using hhead
    have hmem : succ ∈ suf := by rw [hsuf, hc]; simp
    have hsplit' : chain l = pre ++ j :: suf := hsplit
    rw [hsplit']
    simp [hmem]

/-- The removal descent of `part_005` on a present key: coming into the
level loop with everything still as in `l` and a valid descent position,
the loop returns the handle of the (unique) element carrying the key,
splices the lane-0 chain around it, and performs the in-loop backward
repair of its successor. -/
theorem removeLoop_presentE {l : SkipList K V} (h : WF l) {k : K} {j0 : Nat}
    (hj : j0 ∈ chain l) (hk : keyAt l j0 = some k) :
    ∀ n, 1 ≤ n → n ≤ l.maxLevel → ∀ st p f,
      RStateE l st n → Walk.InvAt (lanesAt l) (keyAt l) k n p →
      (removeLoop k n (st, p, f)).2.2 = some j0 ∧
      RFinalE l (removeLoop k n (st, p, f)).1 j0 := by
  intro n
  induction n with
  | zero =>
    intro h1
    omega
  | succ m ih =>
    intro h1 hle st p f R hInv
    have hm : m < l.maxLevel := by omega
    have hInvm : Walk.InvAt (lanesAt l) (keyAt l) k m p := by
      rcases hInv with hp | ⟨a, hp, ha, hklt⟩
      · exact Or.inl hp
      · exact Or.inr ⟨a, hp, h.lanesWF.mono m hm a ha, hklt⟩
    have hfuel : (chain l).length ≤ l.arena.length + 1 := by
      have := h.lenArenaE
      omega
    have hfuel2 : 2 * (chain l).length + 1 ≤ 2 * l.arena.length + 2 := by
      have := h.lenArenaE
      omega
    have hlane_m : ∀ q, laneOf st q m = laneOf l q m := fun q => R.low q m (by omega)
    have hpn : removeAdvance st k m (2 * st.arena.length + 2) p (laneOf st p m) =
        (Walk.advanceLT (laneOf l) (keyAt l) k m (l.arena.length + 1) p,
         laneOf l
           (Walk.advanceLT (laneOf l) (keyAt l) k m (l.arena.length + 1) p)
           m) := by
      unfold removeAdvance
      rw [R.alen, hlane_m p,
        Walk.removeAdvance_congr hlane_m R.keys (2 * l.arena.length + 2) p
          (laneOf l p m)]
      exact removeAdvance_lands h.lanesWF hfuel hfuel2 hm hInvm
    have hpn1 : (removeAdvance st k m (2 * st.arena.length + 2) p
        (laneOf st p m)).1 =
        Walk.advanceLT (laneOf l) (keyAt l) k m (l.arena.length + 1) p := by
      rw [hpn]
    have hpn2 : (removeAdvance st k m (2 * st.arena.length + 2) p
        (laneOf st p m)).2 =
        laneOf l
          (Walk.advanceLT (laneOf l) (keyAt l) k m (l.arena.length + 1) p)
          m := by
      rw [hpn]
    have hInvPos : Walk.InvAt (lanesAt l) (keyAt l) k m
        (Walk.advanceLT (laneOf l) (keyAt l) k m (l.arena.length + 1) p) :=
      Walk.advance_invAt h.lanesWF hfuel hm hInvm
    cases m with
    | zero =>
      have hceil : laneOf l
          (Walk.advanceLT (laneOf l) (keyAt l) k 0 (l.arena.length + 1) p) 0 =
          Walk.ceilSpec (keyAt l) k (chain l) :=
        Walk.advance_zero_ceil h.lanesWF hfuel hInvm
      have hceq : Walk.ceilSpec (keyAt l) k (chain l) = some j0 :=
        Walk.ceilSpec_mem h.lanesWF.sorted hj hk
      have hl0 : laneOf l
          (Walk.advanceLT (laneOf l) (keyAt l) k 0 (l.arena.length + 1) p) 0 =
          some j0 := by
        rw [hceil, hceq]
      rw [hl0] at hpn2
      have hkey_st : keyAt st j0 = some k := by rw [R.keys]; exact hk
      have hj0pos : (some j0 : Option Nat) ≠
          Walk.advanceLT (laneOf l) (keyAt l) k 0 (l.arena.length + 1) p := by
        intro heq
        rcases hInvPos with hp | ⟨a, hp, ha, hklt⟩
        · rw [← heq] at hp
          exact absurd hp (by simp)
        · rw [← heq] at hp
          have haj : j0 = a := by simpa using hp
          subst haj
          unfold Walk.keyLT at hklt
          rw [hk] at hklt
          simp at hklt
      have hwrite_val : laneOf st (some j0) 0 = laneOf l (some j0) 0 :=
        hlane_m _
      have hkeepval : laneOf
          (setLaneAt st
            (Walk.advanceLT (laneOf l) (keyAt l) k 0 (l.arena.length + 1) p) 0
            (laneOf st (some j0) 0)) (some j0) 0 = laneOf l (some j0) 0 := by
        rw [laneOf_setLaneAt_neE st _ (Or.inl hj0pos)]
        exact hwrite_val
      have hprev2 : prevOf
          (setLaneAt st
            (Walk.advanceLT (laneOf l) (keyAt l) k 0 (l.arena.length + 1) p) 0
            (laneOf st (some j0) 0)) j0 = prevOf l j0 := by
        rw [prevOf_setLaneAtE]
        exact R.prevs j0
      have hchl : Walk.isChain (laneOf l) 0 none (chain l) :=
        h.lanesWF.chains 0 (by exact h.lanesWF.one_le)
      have hch_st : Walk.isChain (laneOf st) 0 none (chain l) :=
        Walk.isChain_congr _ _ hchl (fun x _ => hlane_m x)
      have hhead_dw : ((chain l).dropWhile
          (fun x => Walk.keyLT (keyAt l) x k)).head? = some j0 := hceq
      have hdw : (chain l).dropWhile (fun x => Walk.keyLT (keyAt l) x k) =
          j0 :: ((chain l).dropWhile (fun x => Walk.keyLT (keyAt l) x k)).tail := by
        cases hcase : (chain l).dropWhile (fun x => Walk.keyLT (keyAt l) x k) with
        | nil => rw [hcase] at hhead_dw; simp at hhead_dw
        | cons c t =>
          rw [hcase] at hhead_dw
          have : c = j0 := by simpa using hhead_dw
          rw [this]
          rfl
      have hsplitns : chain l =
          (chain l).takeWhile (fun x => Walk.keyLT (keyAt l) x k) ++
          j0 :: ((chain l).dropWhile (fun x => Walk.keyLT (keyAt l) x k)).tail := by
        conv_lhs => rw [← List.takeWhile_append_dropWhile
          (fun x => Walk.keyLT (keyAt l) x k) (chain l)]
        rw [← hdw]
      have hj0nA : j0 ∉ (chain l).takeWhile (fun x => Walk.keyLT (keyAt l) x k) := by
        intro hmem
        have := List.mem_takeWhile_imp hmem
        unfold Walk.keyLT at this
        rw [hk] at this
        simp at this
      have hnd : ((chain l).takeWhile (fun x => Walk.keyLT (keyAt l) x k) ++
          j0 :: ((chain l).dropWhile (fun x => Walk.keyLT (keyAt l) x k)).tail).Nodup := by
        rw [← hsplitns]
        exact Walk.nodup_of_sorted h.lanesWF.sorted
      have hqform : Walk.advanceLT (laneOf l) (keyAt l) k 0 (l.arena.length + 1) p =
          (match ((chain l).takeWhile
              (fun x => Walk.keyLT (keyAt l) x k)).getLast? with
           | none => none
           | some a => some a) :=
        Walk.advance_zero_landing h.lanesWF hfuel hInvm
      have hsuffix : Walk.isChain (laneOf l) 0 (some j0)
          ((chain l).dropWhile (fun x => Walk.keyLT (keyAt l) x k)).tail := by
        refine Walk.isChain_suffix (laneOf l) 0
          ((chain l).takeWhile (fun x => Walk.keyLT (keyAt l) x k)) none j0 _ ?_
        rw [← hsplitns]
        exact hchl
      have hBhead : laneOf l (some j0) 0 =
          (((chain l).dropWhile (fun x => Walk.keyLT (keyAt l) x k)).tail).head? :=
        Walk.isChain_head _ _ _ _ hsuffix
      have hlvaux : laneOf st
          (Walk.advanceLT (laneOf l) (keyAt l) k 0 (l.arena.length + 1) p) 0 =
          some j0 := by
        rw [hlane_m _]
        exact hl0
      have hlv : laneOf (setLaneAt st
            (Walk.advanceLT (laneOf l) (keyAt l) k 0 (l.arena.length + 1) p) 0
            (laneOf st (some j0) 0))
          (Walk.advanceLT (laneOf l) (keyAt l) k 0 (l.arena.length + 1) p) 0 =
          laneOf st (some j0) 0 :=
        laneOf_setLaneAt_selfE st (laneOf st (some j0) 0) hlvaux
      have hsplice : Walk.isChain
          (laneOf (setLaneAt st
            (Walk.advanceLT (laneOf l) (keyAt l) k 0 (l.arena.length + 1) p) 0
            (laneOf st (some j0) 0))) 0 none
          ((chain l).takeWhile (fun x => Walk.keyLT (keyAt l) x k) ++
           ((chain l).dropWhile (fun x => Walk.keyLT (keyAt l) x k)).tail) := by
        refine @Walk.chain_splice (laneOf st)
          (laneOf (setLaneAt st
            (Walk.advanceLT (laneOf l) (keyAt l) k 0 (l.arena.length + 1) p) 0
            (laneOf st (some j0) 0))) 0 j0
          (((chain l).dropWhile (fun x => Walk.keyLT (keyAt l) x k)).tail)
          (Walk.advanceLT (laneOf l) (keyAt l) k 0 (l.arena.length + 1) p)
          ((chain l).takeWhile (fun x => Walk.keyLT (keyAt l) x k)) none
          ?_ hnd (Or.inl rfl) ?_ ?_ ?_
        · rw [← hsplitns]
          exact hch_st
        · exact hqform
        · rw [hlv, hwrite_val, hBhead]
        · intro x hx
          exact laneOf_setLaneAt_neE st _ (Or.inl hx)
      have herase : (chain l).erase j0 =
          (chain l).takeWhile (fun x => Walk.keyLT (keyAt l) x k) ++
          ((chain l).dropWhile (fun x => Walk.keyLT (keyAt l) x k)).tail := by
        conv_lhs => rw [hsplitns]
        rw [List.erase_append_right _ hj0nA, List.erase_cons_head]
      cases hsucc : laneOf l (some j0) 0 with
      | none =>
        have hstep : removeLevelStep k (st, p, f) 0 =
            (setLaneAt st
              (Walk.advanceLT (laneOf l) (keyAt l) k 0 (l.arena.length + 1) p) 0
              (laneOf st (some j0) 0),
             Walk.advanceLT (laneOf l) (keyAt l) k 0 (l.arena.length + 1) p,
             some j0) := by
          rw [removeLevelStepE_eq k st p f 0, hpn2, hpn1]
          show (if keyAt st j0 = some k then _ else _) = _
          rw [if_pos hkey_st, if_pos (show (0 : Nat) = 0 from rfl),
            hkeepval, hsucc]
        rw [show removeLoop k 1 (st, p, f) = removeLevelStep k (st, p, f) 0
          from rfl, hstep]
        refine ⟨rfl, ?_, ?_, ?_, ?_, ?_, ?_, ?_, ?_, ?_, ?_⟩
        · rw [setLaneAt_arena_lengthE]
          exact R.alen
        · intro i
          rw [keyAt_setLaneAtE]
          exact R.keys i
        · intro i
          rw [valueAt_setLaneAtE]
          exact R.vals i
        · intro s2 hs2
          rw [hsucc] at hs2
          exact absurd hs2 (by simp)
        · intro i hi
          rw [prevOf_setLaneAtE]
          exact R.prevs i
        · rw [setLaneAt_elementsE]
          exact R.elems
        · rw [setLaneAt_lastE]
          exact R.lst
        · rw [setLaneAt_lengthE]
          exact R.len
        · rw [herase]
          exact hsplice
        · exact hkeepval
      | some s2 =>
        have hs2mem : s2 ∈ chain l := lane0_next_memE h hj hsucc
        have hs2ne : s2 ≠ j0 := lane0_next_neE h hj hsucc
        have halen2 : (setLaneAt st
            (Walk.advanceLT (laneOf l) (keyAt l) k 0 (l.arena.length + 1) p) 0
            (laneOf st (some j0) 0)).arena.length = l.arena.length := by
          rw [setLaneAt_arena_lengthE]
          exact R.alen
        obtain ⟨el, hel⟩ : ∃ el, (setLaneAt st
            (Walk.advanceLT (laneOf l) (keyAt l) k 0 (l.arena.length + 1) p) 0
            (laneOf st (some j0) 0)).arena.get? s2 = some el := by
          cases hg : (setLaneAt st
              (Walk.advanceLT (laneOf l) (keyAt l) k 0 (l.arena.length + 1) p) 0
              (laneOf st (some j0) 0)).arena.get? s2 with
          | some el => exact ⟨el, rfl⟩
          | none =>
            have h1 := List.get?_eq_none.mp hg
            have h2 := h.sizeOk s2 hs2mem
            rw [halen2] at h1
            omega
        have hstep : removeLevelStep k (st, p, f) 0 =
            (setPrevAt (setLaneAt st
              (Walk.advanceLT (laneOf l) (keyAt l) k 0 (l.arena.length + 1) p) 0
              (laneOf st (some j0) 0)) s2
              (prevOf (setLaneAt st
                (Walk.advanceLT (laneOf l) (keyAt l) k 0 (l.arena.length + 1) p) 0
                (laneOf st (some j0) 0)) j0),
             Walk.advanceLT (laneOf l) (keyAt l) k 0 (l.arena.length + 1) p,
             some j0) := by
          rw [removeLevelStepE_eq k st p f 0, hpn2, hpn1]
          show (if keyAt st j0 = some k then _ else _) = _
          rw [if_pos hkey_st, if_pos (show (0 : Nat) = 0 from rfl),
            hkeepval, hsucc]
        rw [show removeLoop k 1 (st, p, f) = removeLevelStep k (st, p, f) 0
          from rfl, hstep]
        refine ⟨rfl, ?_, ?_, ?_, ?_, ?_, ?_, ?_, ?_, ?_, ?_⟩
        · rw [setPrevAt_arena_lengthE]
          exact halen2
        · intro i
          rw [keyAt_setPrevAtE, keyAt_setLaneAtE]
          exact R.keys i
        · intro i
          rw [valueAt_setPrevAtE, valueAt_setLaneAtE]
          exact R.vals i
        · intro s2' hs2'
          have hs2eq : s2' = s2 := by
            rw [hsucc] at hs2'
            exact (Option.some.inj hs2').symm
          rw [hs2eq, prevOf_setPrevAt_selfE _ s2 _ hel]
          exact hprev2
        · intro i hi
          have hine : i ≠ s2 := by
            intro he
            exact hi (by rw [hsucc, he])
          rw [prevOf_setPrevAt_neE _ s2 _ hine, prevOf_setLaneAtE]
          exact R.prevs i
        · rw [setPrevAt_elementsE, setLaneAt_elementsE]
          exact R.elems
        · rw [setPrevAt_lastE, setLaneAt_lastE]
          exact R.lst
        · rw [setPrevAt_lengthE, setLaneAt_lengthE]
          exact R.len
        · rw [herase]
          refine Walk.isChain_congr _ _ hsplice ?_
          intro x hx
          exact laneOf_setPrevAtE _ s2 _ x 0
        · rw [laneOf_setPrevAtE]
          exact hkeepval
    | succ mm =>
      have hstepgen :
          (removeLevelStep k (st, p, f) (mm + 1) =
            (st,
             Walk.advanceLT (laneOf l) (keyAt l) k (mm + 1)
               (l.arena.length + 1) p, f)) ∨
          (∃ j, removeLevelStep k (st, p, f) (mm + 1) =
            (setLaneAt st
              (Walk.advanceLT (laneOf l) (keyAt l) k (mm + 1)
                (l.arena.length + 1) p) (mm + 1)
              (laneOf st (some j) (mm + 1)),
             Walk.advanceLT (laneOf l) (keyAt l) k (mm + 1)
               (l.arena.length + 1) p, f)) := by
        rw [removeLevelStepE_eq k st p f (mm + 1), hpn2, hpn1]
        cases hl0 : laneOf l
            (Walk.advanceLT (laneOf l) (keyAt l) k (mm + 1)
              (l.arena.length + 1) p) (mm + 1) with
        | none => exact Or.inl rfl
        | some j =>
          by_cases hkj : keyAt st j = some k
          · refine Or.inr ⟨j, ?_⟩
            show (if keyAt st j = some k then _ else _) = _
            rw [if_pos hkj, if_neg (Nat.succ_ne_zero mm)]
          · refine Or.inl ?_
            show (if keyAt st j = some k then _ else _) = _
            rw [if_neg hkj]
      have hloopeq : removeLoop k (mm + 1 + 1) (st, p, f) =
          removeLoop k (mm + 1) (removeLevelStep k (st, p, f) (mm + 1)) := rfl
      rcases hstepgen with hstep | ⟨j, hstep⟩
      · rw [hloopeq, hstep]
        refine ih (by omega) (by omega) st _ f ?_ hInvPos
        exact ⟨R.alen, R.keys, R.vals, R.prevs, R.elems, R.lst, R.len,
          fun q L' hL' => R.low q L' (by omega)⟩
      · rw [hloopeq, hstep]
        refine ih (by omega) (by omega) _ _ _ ?_ hInvPos
        refine ⟨?_, ?_, ?_, ?_, ?_, ?_, ?_, ?_⟩
        · rw [setLaneAt_arena_lengthE]
          exact R.alen
        · intro i
          rw [keyAt_setLaneAtE]
          exact R.keys i
        · intro i
          rw [valueAt_setLaneAtE]
          exact R.vals i
        · intro i
          rw [prevOf_setLaneAtE]
          exact R.prevs i
        · rw [setLaneAt_elementsE]
          exact R.elems
        · rw [setLaneAt_lastE]
          exact R.lst
        · rw [setLaneAt_lengthE]
          exact R.len
        · intro q L' hL'
          rw [laneOf_setLaneAt_neE st _ (Or.inr (by omega))]
          exact R.low q L' (by omega)


/-- The hash-index delete touches only the `elements` field. -/
theorem eraseElemsE_fields (X : SkipList K V) (k : K) :
    (eraseElemsE X k).arena = X.arena ∧
    (eraseElemsE X k).header = X.header ∧
    (eraseElemsE X k).last = X.last ∧
    (eraseElemsE X k).length = X.length ∧
    (eraseElemsE X k).elements = Option.map (fun m => eraseA m k) X.elements := by
  unfold eraseElemsE
  cases he : X.elements with
  | none => exact ⟨rfl, rfl, rfl, rfl, he⟩
  | some m => exact ⟨rfl, rfl, rfl, rfl, rfl⟩

/-- The `last` repair touches only the `last` field. -/
theorem lastRepairE_shape (X : SkipList K V) (k : K) :
    ∃ la, lastRepairE X k = { X with last := la } := by
  unfold lastRepairE
  cases hl : X.last with
  | none => exact ⟨X.last, rfl⟩
  | some t =>
    by_cases hkt : keyAt X t = some k
    · refine ⟨prevOf X t, ?_⟩
      show (if keyAt X t = some k then { X with last := prevOf X t } else X) = _
      rw [if_pos hkt]
    · refine ⟨X.last, ?_⟩
      show (if keyAt X t = some k then { X with last := prevOf X t } else X) = _
      rw [if_neg hkt]

/-- The post-descent tail of `part_005`'s `Remove`: applied to the spliced
state it produces exactly the original list minus the removed element, with
its hash index erased, the removed element's lane-0 forward reference
nulled and its backward reference untouched. -/
theorem removeTailE_facts {l st' : SkipList K V} {k : K} {j0 : Nat} (h : WF l)
    (hj : j0 ∈ chain l) (hk : keyAt l j0 = some k) (hfin : RFinalE l st' j0) :
    chain (removeTailE st' k j0) = (chain l).erase j0 ∧
    (removeTailE st' k j0).length = l.length - 1 ∧
    (∀ i, keyAt (removeTailE st' k j0) i = keyAt l i) ∧
    (∀ i, valueAt (removeTailE st' k j0) i = valueAt l i) ∧
    (removeTailE st' k j0).elements =
      Option.map (fun m => eraseA m k) l.elements ∧
    laneOf (removeTailE st' k j0) (some j0) 0 = none ∧
    prevOf (removeTailE st' k j0) j0 = prevOf l j0 := by
  obtain ⟨e1, e2, e3, e4, e5⟩ := eraseElemsE_fields
    (setLaneAt ({ st' with length := st'.length - 1 }) (some j0) 0 none) k
  obtain ⟨la, hla⟩ := lastRepairE_shape
    (eraseElemsE
      (setLaneAt ({ st' with length := st'.length - 1 }) (some j0) 0 none) k) k
  have hres : removeTailE st' k j0 =
      { eraseElemsE
          (setLaneAt ({ st' with length := st'.length - 1 }) (some j0) 0 none) k
        with last := la } := hla
  have hW2alen : (setLaneAt ({ st' with length := st'.length - 1 })
      (some j0) 0 none).arena.length = l.arena.length := by
    rw [setLaneAt_arena_lengthE]
    show st'.arena.length = _
    exact hfin.alen
  have hFlane : ∀ q L, laneOf (removeTailE st' k j0) q L =
      laneOf (setLaneAt ({ st' with length := st'.length - 1 })
        (some j0) 0 none) q L := by
    intro q L
    rw [hres]
    exact laneOf_shape_eqE e1 e2 q L
  have hnd : (chain l).Nodup := Walk.nodup_of_sorted h.lanesWF.sorted
  have hlane_ne : ∀ q : Option Nat, q ≠ some j0 →
      laneOf (setLaneAt ({ st' with length := st'.length - 1 })
        (some j0) 0 none) q 0 = laneOf st' q 0 := by
    intro q hq
    rw [laneOf_setLaneAt_neE _ _ (Or.inl hq)]
    exact laneOf_shape_eqE rfl rfl q 0
  have hch2 : Walk.isChain
      (laneOf (setLaneAt ({ st' with length := st'.length - 1 })
        (some j0) 0 none)) 0 none ((chain l).erase j0) := by
    refine Walk.isChain_congr _ _ hfin.chain0 ?_
    intro x hx
    refine hlane_ne x ?_
    rcases hx with hx | ⟨a, ha, hx⟩
    · rw [hx]
      simp
    · rw [hx]
      intro heq
      have haj : a = j0 := by simpa using heq
      rw [haj] at ha
      exact absurd ha (by simp [hnd.mem_erase_iff])
  have hchF : Walk.isChain (laneOf (removeTailE st' k j0)) 0 none
      ((chain l).erase j0) := by
    refine Walk.isChain_congr _ _ hch2 ?_
    intro x hx
    exact hFlane x 0
  have hFalen : (removeTailE st' k j0).arena.length = l.arena.length := by
    rw [hres]
    show (eraseElemsE (setLaneAt ({ st' with length := st'.length - 1 })
      (some j0) 0 none) k).arena.length = _
    rw [e1]
    exact hW2alen
  refine ⟨?_, ?_, ?_, ?_, ?_, ?_, ?_⟩
  · exact chain_eq_erase_ofE h hj hchF hFalen
  · rw [hres]
    show (eraseElemsE (setLaneAt ({ st' with length := st'.length - 1 })
      (some j0) 0 none) k).length = _
    rw [e4, setLaneAt_lengthE]
    show st'.length - 1 = _
    rw [hfin.len]
  · intro i
    rw [hres]
    exact (keyAt_eq_of_arenaE e1 i).trans
      ((keyAt_setLaneAtE _ _ _ _ i).trans
        ((keyAt_eq_of_arenaE rfl i).trans (hfin.keys i)))
  · intro i
    rw [hres]
    exact (valueAt_eq_of_arenaE e1 i).trans
      ((valueAt_setLaneAtE _ _ _ _ i).trans
        ((valueAt_eq_of_arenaE rfl i).trans (hfin.vals i)))
  · rw [hres]
    show (eraseElemsE (setLaneAt ({ st' with length := st'.length - 1 })
      (some j0) 0 none) k).elements = _
    rw [e5, setLaneAt_elementsE]
    show Option.map (fun m => eraseA m k) st'.elements = _
    rw [hfin.elems]
  · rw [hFlane (some j0) 0]
    exact laneOf_setLaneAt_nullE _ j0 0
  · rw [hres]
    refine (prevOf_eq_of_arenaE e1 j0).trans
      ((prevOf_setLaneAtE _ _ _ _ j0).trans
        ((prevOf_eq_of_arenaE rfl j0).trans ?_))
    refine hfin.prevKeep j0 ?_
    intro heq
    exact lane0_next_neE h hj heq rfl
  
/-- `part_005` `Remove` on a present key: the unique element carrying the
key is returned, the lane-0 chain loses exactly that element, `length`
drops by one, every element keeps its key and value, the hash index (when
present) loses the key, and the removed element's lane-0 forward reference
is nulled while its backward reference keeps its former value. -/
theorem Remove_presentE {l : SkipList K V} (h : WF l) {k : K} {j0 : Nat}
    (hj : j0 ∈ chain l) (hk : keyAt l j0 = some k) :
    (Remove l k).2 = some j0 ∧
    chain (Remove l k).1 = (chain l).erase j0 ∧
    (Remove l k).1.length = l.length - 1 ∧
    (∀ i, keyAt (Remove l k).1 i = keyAt l i) ∧
    (∀ i, valueAt (Remove l k).1 i = valueAt l i) ∧
    (Remove l k).1.elements = Option.map (fun m => eraseA m k) l.elements ∧
    laneOf (Remove l k).1 (some j0) 0 = none ∧
    prevOf (Remove l k).1 j0 = prevOf l j0 := by
  obtain ⟨hfound, hfin⟩ := removeLoop_presentE h hj hk l.maxLevel
    h.lanesWF.one_le (le_refl _) l none none
    ⟨rfl, fun _ => rfl, fun _ => rfl, fun _ => rfl, rfl, rfl, rfl,
     fun _ _ _ => rfl⟩
    (Or.inl rfl)
  have hRem : Remove l k =
      (removeTailE (removeLoop k l.maxLevel (l, none, none)).1 k j0,
       some j0) := by
    unfold Remove
    cases hn : l.elements with
    | none =>
      simp only [Bool.false_eq_true, if_false]
      rw [hfound]
      rfl
    | some m =>
      have hlook : lookupA m k = some j0 := h.map_lookupE hn hj hk
      simp only [hlook]
      simp only [Bool.false_eq_true, if_false, reduceCtorEq, decide_False]
      rw [hfound]
      rfl
  obtain ⟨f1, f2, f3, f4, f5, f6, f7⟩ := removeTailE_facts h hj hk hfin
  rw [hRem]
  exact ⟨rfl, f1, f2, f3, f4, f5, f6, f7⟩


/-- The value a header slot holds after the `RemoveFirst` repair of
`part_005` visited its level: a slot whose element carries the removed key
is rerouted to that element's lane at the level, all else is kept. -/
def postSlotE (l : SkipList K V) (hd : Nat) (s : Option Nat) (L : Nat) :
    Option Nat :=
  match s, keyAt l hd with
  | some e, some rk => if keyAt l e = some rk then laneOf l (some hd) L else some e
  | _, _ => s

/-- One step of the `RemoveFirst` header repair (`part_005`): either a
no-op that keeps the slot fixed under `postSlotE`, or a write of the
`postSlotE` value into a slot that was occupied. -/
theorem rfe_step_shape (l : SkipList K V) (hd : Nat) (acc : SkipList K V)
    (L : Nat) (haeq : acc.arena = l.arena) :
    ((match acc.header.getD L none, keyAt l hd with
      | some e, some rk =>
        if keyAt acc e = some rk then
          { acc with header := acc.header.set L (laneOf acc (some hd) L) }
        else acc
      | _, _ => acc) = acc ∧
      postSlotE l hd (acc.header.getD L none) L = acc.header.getD L none) ∨
    ((match acc.header.getD L none, keyAt l hd with
      | some e, some rk =>
        if keyAt acc e = some rk then
          { acc with header := acc.header.set L (laneOf acc (some hd) L) }
        else acc
      | _, _ => acc) =
      { acc with header :=
          acc.header.set L (postSlotE l hd (acc.header.getD L none) L) } ∧
      ∃ e, acc.header.getD L none = some e) := by
  cases hslot : acc.header.getD L none with
  | none =>
    refine Or.inl ⟨?_, rfl⟩
    cases hrk : keyAt l hd with
    | none => rfl
    | some rk => rfl
  | some e =>
    cases hrk : keyAt l hd with
    | none =>
      refine Or.inl ⟨rfl, ?_⟩
      unfold postSlotE
      rw [hrk]
    | some rk =>
      by_cases hke : keyAt acc e = some rk
      · refine Or.inr ⟨?_, e, rfl⟩
        show (if keyAt acc e = some rk then
          { acc with header := acc.header.set L (laneOf acc (some hd) L) }
          else acc) = _
        rw [if_pos hke]
        have hpost : postSlotE l hd (some e) L = laneOf acc (some hd) L := by
          have hkel : keyAt l e = some rk :=
            (keyAt_eq_of_arenaE haeq e).symm.trans hke
          unfold postSlotE
          rw [hrk]
          show (if keyAt l e = some rk then laneOf l (some hd) L else some e) = _
          rw [if_pos hkel]
          exact (laneOf_some_eq_of_arenaE haeq hd L).symm
        rw [hpost]
      · refine Or.inl ⟨?_, ?_⟩
        · show (if keyAt acc e = some rk then
            { acc with header := acc.header.set L (laneOf acc (some hd) L) }
            else acc) = _
          rw [if_neg hke]
        · unfold postSlotE
          rw [hrk]
          show (if keyAt l e = some rk then laneOf l (some hd) L else some e) = _
          rw [if_neg (fun hkel => hke ((keyAt_eq_of_arenaE haeq e).trans hkel))]

/-- A sublist of a cons list that avoids the head is a sublist of the
tail. -/
theorem sublist_of_not_memE {a : Nat} {l1 l2 : List Nat}
    (h : l1.Sublist (a :: l2)) (ha : a ∉ l1) : l1.Sublist l2 := by
  cases h with
  | cons _ h => exact h
  | cons₂ _ h => exact absurd (by simp) ha

/-- Dropping the shared head of a sublist of cons lists. -/
theorem sublist_tail_of_consE {a : Nat} {l1 l2 : List Nat}
    (h : (a :: l1).Sublist (a :: l2)) : l1.Sublist l2 := by
  cases h with
  | cons _ h => exact (List.sublist_cons_self a l1).trans h
  | cons₂ _ h => exact h

/-- Invariant carried across successive `RemoveFirst` calls of `part_005`:
`c` is the lane-0 chain of live, key-sorted elements, every level's lane is
a chain over a subsequence of `c`, and `last` and `length` agree with `c`.
`WF` implies it (with `c = chain l`), and it is all that `RemoveFirst`
(whose header repair compares keys) needs and preserves. -/
structure Inv0E (l : SkipList K V) (c : List Nat) : Prop where
  sorted : c.Pairwise (fun a b => Walk.nodeLT (keyAt l) a b = true)
  keysSome : ∀ a ∈ c, (keyAt l a).isSome = true
  size : ∀ a ∈ c, a < l.arena.length
  lanes : ∀ L, ∃ cL, Walk.isChain (laneOf l) L none cL ∧ cL.Sublist c
  lanes0 : Walk.isChain (laneOf l) 0 none c
  lst : l.last = c.getLast?
  len : l.length = (c.length : Int)

theorem inv0E_of_wf {l : SkipList K V} (h : WF l) : Inv0E l (chain l) := by
  refine ⟨h.lanesWF.sorted, h.lanesWF.keys, h.sizeOk, ?_, ?_, h.lastOk,
    h.lengthOk⟩
  · intro L
    by_cases hL : L < l.maxLevel
    · exact ⟨lanesAt l L, h.lanesWF.chains L hL, h.lanesWF.sub L hL⟩
    · refine ⟨[], ?_, List.nil_sublist _⟩
      show laneOf l none L = none
      show l.header.getD L none = none
      rw [List.getD_eq_get?, List.get?_eq_none.mpr (by rw [h.headerLen]; omega)]
      rfl
  · have := h.lanesWF.chains 0 h.lanesWF.one_le
    rwa [show lanesAt l 0 = chain l from rfl] at this

/-- Iterated `RemoveFirst` (`part_005`): the state after `n` calls,
discarding the returned handles. -/
def removeFirstNE : Nat → SkipList K V → SkipList K V
  | 0, l => l
  | n + 1, l => removeFirstNE n (RemoveFirst l).1

/-- Full run of the `RemoveFirst` header repair of `part_005` over a
duplicate-free level list: the arena, hash index, `last` and `length` are
untouched, and every visited slot ends up holding its `postSlotE` value
while unvisited slots are kept. -/
theorem rfe_foldl_run (l : SkipList K V) (hd : Nat) :
    ∀ (levels : List Nat), levels.Nodup →
    ∀ (acc : SkipList K V), acc.arena = l.arena →
      (levels.foldl (fun acc level =>
        match acc.header.getD level none, keyAt l hd with
        | some e, some rk =>
          if keyAt acc e = some rk then
            { acc with
              header := acc.header.set level (laneOf acc (some hd) level) }
          else acc
        | _, _ => acc) acc).arena = acc.arena ∧
      (levels.foldl (fun acc level =>
        match acc.header.getD level none, keyAt l hd with
        | some e, some rk =>
          if keyAt acc e = some rk then
            { acc with
              header := acc.header.set level (laneOf acc (some hd) level) }
          else acc
        | _, _ => acc) acc).elements = acc.elements ∧
      (levels.foldl (fun acc level =>
        match acc.header.getD level none, keyAt l hd with
        | some e, some rk =>
          if keyAt acc e = some rk then
            { acc with
              header := acc.header.set level (laneOf acc (some hd) level) }
          else acc
        | _, _ => acc) acc).last = acc.last ∧
      (levels.foldl (fun acc level =>
        match acc.header.getD level none, keyAt l hd with
        | some e, some rk =>
          if keyAt acc e = some rk then
            { acc with
              header := acc.header.set level (laneOf acc (some hd) level) }
          else acc
        | _, _ => acc) acc).length = acc.length ∧
      (levels.foldl (fun acc level =>
        match acc.header.getD level none, keyAt l hd with
        | some e, some rk =>
          if keyAt acc e = some rk then
            { acc with
              header := acc.header.set level (laneOf acc (some hd) level) }
          else acc
        | _, _ => acc) acc).header.length = acc.header.length ∧
      (∀ L, L ∉ levels →
        (levels.foldl (fun acc level =>
        match acc.header.getD level none, keyAt l hd with
        | some e, some rk =>
          if keyAt acc e = some rk then
            { acc with
              header := acc.header.set level (laneOf acc (some hd) level) }
          else acc
        | _, _ => acc) acc).header.getD L none = acc.header.getD L none) ∧
      (∀ L, L ∈ levels →
        (levels.foldl (fun acc level =>
        match acc.header.getD level none, keyAt l hd with
        | some e, some rk =>
          if keyAt acc e = some rk then
            { acc with
              header := acc.header.set level (laneOf acc (some hd) level) }
          else acc
        | _, _ => acc) acc).header.getD L none =
          postSlotE l hd (acc.header.getD L none) L) := by
  intro levels
  induction levels with
  | nil =>
    intro _ acc _
    exact ⟨rfl, rfl, rfl, rfl, rfl, fun L _ => rfl,
      fun L hL => absurd hL (by simp)⟩
  | cons L0 tl ih =>
    intro hnd acc haeq
    obtain ⟨hL0nin, hndtl⟩ := List.nodup_cons.mp hnd
    rw [List.foldl_cons]
    rcases rfe_step_shape l hd acc L0 haeq with ⟨hstep, hpost⟩ | ⟨hstep, e, hsome⟩
    · rw [hstep]
      obtain ⟨a1, a2, a3, a4, a5, a6, a7⟩ := ih hndtl acc haeq
      refine ⟨a1, a2, a3, a4, a5, ?_, ?_⟩
      · intro L hL
        exact a6 L (fun hLm => hL (List.mem_cons_of_mem _ hLm))
      · intro L hL
        rcases List.mem_cons.mp hL with rfl | hLm
        · rw [a6 L hL0nin]
          exact hpost.symm
        · exact a7 L hLm
    · rw [hstep]
      obtain ⟨a1, a2, a3, a4, a5, a6, a7⟩ := ih hndtl
        { acc with
           header := acc.header.set L0
             (postSlotE l hd (acc.header.getD L0 none) L0) } haeq
      have hg : acc.header.get? L0 = some (some e) := by
        have h2 := hsome
        rw [List.getD_eq_get?] at h2
        cases hq : acc.header.get? L0 with
        | none =>
          rw [hq] at h2
          exact absurd h2 (by simp)
        | some v =>
          rw [hq] at h2
          simp only [Option.getD_some] at h2
          rw [h2]
      have hlt : L0 < acc.header.length := getQ_some_lt hg
      refine ⟨a1, a2, a3, a4, ?_, ?_, ?_⟩
      · rw [a5]
        show (acc.header.set L0 _).length = acc.header.length
        simp
      · intro L hL
        have hLne : L ≠ L0 := fun he => hL (by rw [he]; simp)
        have hLnin : L ∉ tl := fun hm => hL (List.mem_cons_of_mem _ hm)
        rw [a6 L hLnin]
        show (acc.header.set L0
          (postSlotE l hd (acc.header.getD L0 none) L0)).getD L none = _
        rw [List.getD_eq_get?, List.get?_set_ne _ _ (Ne.symm hLne),
          ← List.getD_eq_get?]
      · intro L hL
        rcases List.mem_cons.mp hL with rfl | hLm
        · rw [a6 L hL0nin]
          show (acc.header.set L
            (postSlotE l hd (acc.header.getD L none) L)).getD L none = _
          rw [List.getD_eq_get?, List.get?_set_eq_of_lt _ hlt]
          rfl
        · rw [a7 L hLm]
          have hLne : L ≠ L0 := fun he => hL0nin (he ▸ hLm)
          have hslots : ({ acc with
              header := acc.header.set L0
                (postSlotE l hd (acc.header.getD L0 none) L0) } :
              SkipList K V).header.getD L none = acc.header.getD L none := by
            show (acc.header.set L0 _).getD L none = _
            rw [List.getD_eq_get?, List.get?_set_ne _ _ (Ne.symm hLne),
              ← List.getD_eq_get?]
          rw [hslots]


/-- After the `RemoveFirst` header repair and element writes of `part_005`,
every level's lane is still a chain over a subsequence of the remaining
elements, and level 0 carries exactly the remaining chain. -/
theorem rfe_lanes_preserved {l res : SkipList K V} {hd : Nat} {t : List Nat}
    (hI : Inv0E l (hd :: t))
    (hslot : ∀ L, res.header.getD L none =
      postSlotE l hd (l.header.getD L none) L)
    (hlane_ne : ∀ x : Nat, x ≠ hd → ∀ L,
      laneOf res (some x) L = laneOf l (some x) L) :
    (∀ L, ∃ cL, Walk.isChain (laneOf res) L none cL ∧ cL.Sublist t) ∧
    Walk.isChain (laneOf res) 0 none t := by
  have hcnd : (hd :: t).Nodup := Walk.nodup_of_sorted hI.sorted
  obtain ⟨rk, hkh⟩ : ∃ rk, keyAt l hd = some rk :=
    Option.isSome_iff_exists.mp (hI.keysSome hd (by simp))
  have build : ∀ (L : Nat) (cL : List Nat),
      Walk.isChain (laneOf l) L none cL → cL.Sublist (hd :: t) →
      ∃ cL', Walk.isChain (laneOf res) L none cL' ∧ cL'.Sublist t := by
    intro L cL hch hsub
    have hhead : laneOf l none L = cL.head? := Walk.isChain_head _ _ _ _ hch
    cases hcL : cL with
    | nil =>
      refine ⟨[], ?_, List.nil_sublist _⟩
      show res.header.getD L none = none
      rw [hslot L]
      have hln : l.header.getD L none = none := by
        rw [hcL] at hhead
        exact hhead
      rw [hln]
      unfold postSlotE
      cases keyAt l hd <;> rfl
    | cons c0 cl' =>
      have hl0L : l.header.getD L none = some c0 := by
        rw [hcL] at hhead
        exact hhead
      rw [hcL] at hch hsub
      have hc0c : c0 ∈ hd :: t := hsub.subset (by simp)
      have hnds : (c0 :: cl').Nodup := List.Nodup.sublist hsub hcnd
      by_cases hc0 : c0 = hd
      · have hv : res.header.getD L none = laneOf l (some hd) L := by
          rw [hslot L, hl0L, hc0]
          unfold postSlotE
          rw [hkh]
          show (if keyAt l hd = some rk then laneOf l (some hd) L
            else some hd) = _
          rw [if_pos hkh]
        have hnext : laneOf l (some hd) L = cl'.head? := by
          rw [← hc0]
          exact Walk.isChain_head _ _ _ _ hch.2
        have hdnin : hd ∉ cl' := by
          rw [← hc0]
          exact (List.nodup_cons.mp hnds).1
        have hclt : cl'.Sublist t := by
          rw [hc0] at hsub
          exact sublist_tail_of_consE hsub
        cases hcl' : cl' with
        | nil =>
          refine ⟨[], ?_, List.nil_sublist _⟩
          show res.header.getD L none = none
          rw [hv, hnext, hcl']
          rfl
        | cons a cl2 =>
          rw [hcl'] at hnext hdnin hclt
          refine ⟨a :: cl2, ⟨?_, ?_⟩, hclt⟩
          · show res.header.getD L none = some a
            rw [hv, hnext]
            rfl
          · have hch2 : Walk.isChain (laneOf l) L (some a) cl2 := by
              have := hch.2
              rw [hcl'] at this
              exact this.2
            refine Walk.isChain_congr _ _ hch2 ?_
            intro x hx
            obtain ⟨y, hy, hxy⟩ : ∃ y, y ∈ a :: cl2 ∧ x = some y := by
              rcases hx with hx | ⟨b, hb, hx⟩
              · exact ⟨a, by simp, hx⟩
              · exact ⟨b, by simp [hb], hx⟩
            rw [hxy]
            refine hlane_ne y ?_ L
            intro he
            rw [he] at hy
            exact hdnin hy
      · have hc0t : c0 ∈ t := by
          rcases List.mem_cons.mp hc0c with h0 | h0
          · exact absurd h0 hc0
          · exact h0
        have hne : keyAt l c0 ≠ some rk := by
          intro he
          exact hc0 (Walk.keys_unique hI.sorted hc0c (by simp) he hkh)
        have hv : res.header.getD L none = some c0 := by
          rw [hslot L, hl0L]
          unfold postSlotE
          rw [hkh]
          show (if keyAt l c0 = some rk then laneOf l (some hd) L
            else some c0) = some c0
          rw [if_neg hne]
        have hsorted_cL : (c0 :: cl').Pairwise
            (fun a b => Walk.nodeLT (keyAt l) a b = true) :=
          List.Pairwise.sublist hsub hI.sorted
        have hdnin : hd ∉ c0 :: cl' := by
          intro hmem
          rcases List.mem_cons.mp hmem with h0 | h0
          · exact hc0 h0.symm
          · have h1 : Walk.nodeLT (keyAt l) c0 hd = true :=
              (List.pairwise_cons.mp hsorted_cL).1 hd h0
            have h2 : Walk.nodeLT (keyAt l) hd c0 = true :=
              (List.pairwise_cons.mp hI.sorted).1 c0 hc0t
            exact Walk.nodeLT_asymm h1 h2
        refine ⟨c0 :: cl', ⟨hv, ?_⟩, sublist_of_not_memE hsub hdnin⟩
        refine Walk.isChain_congr _ _ hch.2 ?_
        intro x hx
        obtain ⟨y, hy, hxy⟩ : ∃ y, y ∈ c0 :: cl' ∧ x = some y := by
          rcases hx with hx | ⟨b, hb, hx⟩
          · exact ⟨c0, by simp, hx⟩
          · exact ⟨b, by simp [hb], hx⟩
        rw [hxy]
        refine hlane_ne y ?_ L
        intro he
        rw [he] at hy
        exact hdnin hy
  refine ⟨fun L => build L _ (hI.lanes L).choose_spec.1 (hI.lanes L).choose_spec.2, ?_⟩
  have hl00 : l.header.getD 0 none = some hd := hI.lanes0.1
  have hv0 : res.header.getD 0 none = laneOf l (some hd) 0 := by
    rw [hslot 0, hl00]
    unfold postSlotE
    rw [hkh]
    show (if keyAt l hd = some rk then laneOf l (some hd) 0 else some hd) = _
    rw [if_pos hkh]
  have hnext0 : laneOf l (some hd) 0 = t.head? :=
    Walk.isChain_head _ _ _ _ hI.lanes0.2
  have hdnin0 : hd ∉ t := (List.nodup_cons.mp hcnd).1
  cases ht : t with
  | nil =>
    show res.header.getD 0 none = none
    rw [hv0, hnext0, ht]
    rfl
  | cons a t2 =>
    rw [ht] at hnext0 hdnin0
    refine ⟨?_, ?_⟩
    · show res.header.getD 0 none = some a
      rw [hv0, hnext0]
      rfl
    · have hch2 : Walk.isChain (laneOf l) 0 (some a) t2 := by
        have := hI.lanes0.2
        rw [ht] at this
        exact this.2
      refine Walk.isChain_congr _ _ hch2 ?_
      intro x hx
      obtain ⟨y, hy, hxy⟩ : ∃ y, y ∈ a :: t2 ∧ x = some y := by
        rcases hx with hx | ⟨b, hb, hx⟩
        · exact ⟨a, by simp, hx⟩
        · exact ⟨b, by simp [hb], hx⟩
      rw [hxy]
      refine hlane_ne y ?_ 0
      intro he
      rw [he] at hy
      exact hdnin0 hy

/-- The hash-index delete of the `RemoveFirst` tail (`part_005`). -/
def rfeEraseE (st : SkipList K V) (rkey : Option K) : SkipList K V :=
  match st.elements, rkey with
  | some m, some rk => { st with elements := some (eraseA m rk) }
  | _, _ => st

/-- The `last` clear of the `RemoveFirst` tail (`part_005`): `last` is
emptied exactly when the decremented `length` reached zero. -/
def rfeClearLastE (st : SkipList K V) : SkipList K V :=
  if st.length = (0 : Int) then { st with last := none } else st

/-- The backward-reference clear of the `RemoveFirst` tail (`part_005`):
the removed element's lane-0 successor, when present, loses its backward
reference. -/
def rfePrevRepairE (st : SkipList K V) (rid : Nat) : SkipList K V :=
  match laneOf st (some rid) 0 with
  | some s => setPrevAt st s none
  | none => st

/-- The tail of `RemoveFirst` (`part_005`, lines 262–280) after the header
repair: hash-index delete, `length` decrement, `last` clear on emptiness,
backward-reference clear of the new first element, and the removed
element's lane-0 null, in source order.  `RemoveFirst` is the header
repair followed by exactly this tail. -/
def removeFirstTailE (st : SkipList K V) (rkey : Option K) (rid : Nat) :
    SkipList K V :=
  setLaneAt
    (rfePrevRepairE
      (rfeClearLastE
        { rfeEraseE st rkey with length := (rfeEraseE st rkey).length - 1 })
      rid)
    (some rid) 0 none

/-- The hash-index delete touches only the `elements` field, and erases the
removed key when the index and the key are present. -/
theorem rfeEraseE_fields (st : SkipList K V) (rkey : Option K) :
    (rfeEraseE st rkey).arena = st.arena ∧
    (rfeEraseE st rkey).header = st.header ∧
    (rfeEraseE st rkey).last = st.last ∧
    (rfeEraseE st rkey).length = st.length ∧
    (∀ rk, rkey = some rk →
      (rfeEraseE st rkey).elements =
        Option.map (fun m => eraseA m rk) st.elements) := by
  unfold rfeEraseE
  cases hrk : rkey with
  | none =>
    cases he : st.elements with
    | none =>
      refine ⟨rfl, rfl, rfl, rfl, ?_⟩
      intro rk h
      exact absurd h (by simp)
    | some m =>
      refine ⟨rfl, rfl, rfl, rfl, ?_⟩
      intro rk h
      exact absurd h (by simp)
  | some rk =>
    cases he : st.elements with
    | none =>
      refine ⟨rfl, rfl, rfl, rfl, ?_⟩
      intro rk' h
      exact he
    | some m =>
      refine ⟨rfl, rfl, rfl, rfl, ?_⟩
      intro rk' h
      have : rk = rk' := Option.some.inj h
      rw [← this]
      rfl

theorem rfeClearLastE_zero {st : SkipList K V} (h : st.length = (0 : Int)) :
    rfeClearLastE st = { st with last := none } := by
  unfold rfeClearLastE
  rw [if_pos h]

theorem rfeClearLastE_pos {st : SkipList K V} (h : ¬ st.length = (0 : Int)) :
    rfeClearLastE st = st := by
  unfold rfeClearLastE
  rw [if_neg h]

theorem rfePrevRepairE_some {st : SkipList K V} {rid s : Nat}
    (h : laneOf st (some rid) 0 = some s) :
    rfePrevRepairE st rid = setPrevAt st s none := by
  unfold rfePrevRepairE
  rw [h]

theorem rfePrevRepairE_none {st : SkipList K V} {rid : Nat}
    (h : laneOf st (some rid) 0 = none) :
    rfePrevRepairE st rid = st := by
  unfold rfePrevRepairE
  rw [h]

/-- The tail of `RemoveFirst` after the header repair (`part_005`):
starting from any state that kept the arena, hash index, `last` and
`length` of `l` and whose header slots hold their `postSlotE` values, it
produces the list over the remaining chain, decrements `length`, clears
the new first element's backward reference, keeps keys and values, erases
the removed key from the hash index, and nulls the removed element's
lane 0. -/
theorem removeFirstTailE_facts {l : SkipList K V} {hd : Nat}
    {t : List Nat}
    (hI : Inv0E l (hd :: t)) (st1 : SkipList K V)
    (h1a : st1.arena = l.arena) (h1n : st1.elements = l.elements)
    (h1l : st1.last = l.last) (h1len : st1.length = l.length)
    (h1slot : ∀ L, st1.header.getD L none =
      postSlotE l hd (l.header.getD L none) L) :
    Inv0E (removeFirstTailE st1 (keyAt l hd) hd) t ∧
    (removeFirstTailE st1 (keyAt l hd) hd).length = l.length - 1 ∧
    (∀ h2 ∈ t.head?.toList, prevOf (removeFirstTailE st1 (keyAt l hd) hd) h2 = none) ∧
    (∀ i, keyAt (removeFirstTailE st1 (keyAt l hd) hd) i = keyAt l i) ∧
    (∀ i, valueAt (removeFirstTailE st1 (keyAt l hd) hd) i = valueAt l i) ∧
    (∀ kh, keyAt l hd = some kh →
      (removeFirstTailE st1 (keyAt l hd) hd).elements = Option.map (fun m => eraseA m kh) l.elements) ∧
    laneOf (removeFirstTailE st1 (keyAt l hd) hd) (some hd) 0 = none := by
  obtain ⟨f1a, f1h, f1l, f1len, f1e⟩ := rfeEraseE_fields st1 (keyAt l hd)
  have hnext : laneOf l (some hd) 0 = t.head? :=
    Walk.isChain_head _ _ _ _ hI.lanes0.2
  have hsorted_t : t.Pairwise (fun a b => Walk.nodeLT (keyAt l) a b = true) :=
    (List.pairwise_cons.mp hI.sorted).2
  cases t with
  | nil =>
    have hlen0 : ({ rfeEraseE st1 (keyAt l hd) with length := (rfeEraseE st1 (keyAt l hd)).length - 1 } : SkipList K V).length = (0 : Int) := by
      show (rfeEraseE st1 (keyAt l hd)).length - 1 = 0
      rw [f1len, h1len, hI.len]
      simp
    have hlanenone : laneOf ({ { rfeEraseE st1 (keyAt l hd) with length := (rfeEraseE st1 (keyAt l hd)).length - 1 } with last := none } : SkipList K V)
        (some hd) 0 = none := by
      have h1 : laneOf ({ { rfeEraseE st1 (keyAt l hd) with length := (rfeEraseE st1 (keyAt l hd)).length - 1 } with last := none } : SkipList K V)
          (some hd) 0 = laneOf l (some hd) 0 :=
        laneOf_some_eq_of_arenaE (f1a.trans h1a) hd 0
      rw [h1, hnext]
      rfl
    have hres : removeFirstTailE st1 (keyAt l hd) hd =
        setLaneAt ({ { rfeEraseE st1 (keyAt l hd) with length := (rfeEraseE st1 (keyAt l hd)).length - 1 } with last := none } : SkipList K V)
          (some hd) 0 none := by
      unfold removeFirstTailE
      rw [rfeClearLastE_zero hlen0, rfePrevRepairE_none hlanenone]
    have hkeys : ∀ i, keyAt (removeFirstTailE st1 (keyAt l hd) hd) i = keyAt l i := by
      intro i
      rw [hres, keyAt_setLaneAtE]
      exact keyAt_eq_of_arenaE (f1a.trans h1a) i
    have hvals : ∀ i, valueAt (removeFirstTailE st1 (keyAt l hd) hd) i = valueAt l i := by
      intro i
      rw [hres, valueAt_setLaneAtE]
      exact valueAt_eq_of_arenaE (f1a.trans h1a) i
    have hkfun : keyAt (removeFirstTailE st1 (keyAt l hd) hd) = keyAt l := funext hkeys
    have halen : (removeFirstTailE st1 (keyAt l hd) hd).arena.length = l.arena.length := by
      rw [hres, setLaneAt_arena_lengthE]
      show (rfeEraseE st1 (keyAt l hd)).arena.length = _
      rw [f1a, h1a]
    have hslotR : ∀ L, (removeFirstTailE st1 (keyAt l hd) hd).header.getD L none =
        postSlotE l hd (l.header.getD L none) L := by
      intro L
      rw [hres, setLaneAt_some_headerE]
      show (rfeEraseE st1 (keyAt l hd)).header.getD L none = _
      rw [f1h]
      exact h1slot L
    have hlane_ne : ∀ x : Nat, x ≠ hd → ∀ L,
        laneOf (removeFirstTailE st1 (keyAt l hd) hd) (some x) L = laneOf l (some x) L := by
      intro x hx L
      rw [hres, laneOf_setLaneAt_neE _ _
        (Or.inl (show (some x : Option Nat) ≠ some hd by simpa using hx))]
      exact laneOf_some_eq_of_arenaE (f1a.trans h1a) x L
    obtain ⟨hlanes, hlanes0⟩ := rfe_lanes_preserved hI hslotR hlane_ne
    refine ⟨⟨?_, ?_, ?_, hlanes, hlanes0, ?_, ?_⟩, ?_, ?_, hkeys, hvals,
      ?_, ?_⟩
    · rw [hkfun]
      exact hsorted_t
    · intro b hb
      rw [hkfun]
      exact hI.keysSome b (List.mem_cons_of_mem _ hb)
    · intro b hb
      rw [halen]
      exact hI.size b (List.mem_cons_of_mem _ hb)
    · rw [hres, setLaneAt_lastE]
      rfl
    · rw [hres, setLaneAt_lengthE]
      show (rfeEraseE st1 (keyAt l hd)).length - 1 = _
      rw [f1len, h1len, hI.len]
      simp
    · rw [hres, setLaneAt_lengthE]
      show (rfeEraseE st1 (keyAt l hd)).length - 1 = _
      rw [f1len, h1len]
    · intro h2 hh2
      simp at hh2
    · intro kh hkh2
      rw [hres, setLaneAt_elementsE]
      show (rfeEraseE st1 (keyAt l hd)).elements = _
      rw [f1e kh hkh2, h1n]
    · rw [hres]
      exact laneOf_setLaneAt_nullE _ hd 0
  | cons a t2 =>
    have hlen_ne : ¬ ({ rfeEraseE st1 (keyAt l hd) with length := (rfeEraseE st1 (keyAt l hd)).length - 1 } : SkipList K V).length = (0 : Int) := by
      show ¬ ((rfeEraseE st1 (keyAt l hd)).length - 1 = 0)
      rw [f1len, h1len, hI.len]
      push_cast [List.length_cons]
      omega
    have hlane_a : laneOf ({ rfeEraseE st1 (keyAt l hd) with length := (rfeEraseE st1 (keyAt l hd)).length - 1 } : SkipList K V) (some hd) 0 = some a := by
      have h1 : laneOf ({ rfeEraseE st1 (keyAt l hd) with length := (rfeEraseE st1 (keyAt l hd)).length - 1 } : SkipList K V) (some hd) 0 =
          laneOf l (some hd) 0 :=
        laneOf_some_eq_of_arenaE (f1a.trans h1a) hd 0
      rw [h1, hnext]
      rfl
    have hres : removeFirstTailE st1 (keyAt l hd) hd =
        setLaneAt (setPrevAt ({ rfeEraseE st1 (keyAt l hd) with length := (rfeEraseE st1 (keyAt l hd)).length - 1 } : SkipList K V) a none)
          (some hd) 0 none := by
      unfold removeFirstTailE
      rw [rfeClearLastE_pos hlen_ne, rfePrevRepairE_some hlane_a]
    obtain ⟨el, hel⟩ : ∃ el, ({ rfeEraseE st1 (keyAt l hd) with length := (rfeEraseE st1 (keyAt l hd)).length - 1 } : SkipList K V).arena.get? a = some el := by
      cases hg : ({ rfeEraseE st1 (keyAt l hd) with length := (rfeEraseE st1 (keyAt l hd)).length - 1 } : SkipList K V).arena.get? a with
      | some el => exact ⟨el, rfl⟩
      | none =>
        have hg1 := List.get?_eq_none.mp hg
        have hg2 : a < l.arena.length := hI.size a (by simp)
        have hg3 : ({ rfeEraseE st1 (keyAt l hd) with length := (rfeEraseE st1 (keyAt l hd)).length - 1 } : SkipList K V).arena.length = l.arena.length := by
          show (rfeEraseE st1 (keyAt l hd)).arena.length = _
          rw [f1a, h1a]
        rw [hg3] at hg1
        omega
    have hkeys : ∀ i, keyAt (removeFirstTailE st1 (keyAt l hd) hd) i = keyAt l i := by
      intro i
      rw [hres, keyAt_setLaneAtE, keyAt_setPrevAtE]
      exact keyAt_eq_of_arenaE (f1a.trans h1a) i
    have hvals : ∀ i, valueAt (removeFirstTailE st1 (keyAt l hd) hd) i = valueAt l i := by
      intro i
      rw [hres, valueAt_setLaneAtE, valueAt_setPrevAtE]
      exact valueAt_eq_of_arenaE (f1a.trans h1a) i
    have hkfun : keyAt (removeFirstTailE st1 (keyAt l hd) hd) = keyAt l := funext hkeys
    have halen : (removeFirstTailE st1 (keyAt l hd) hd).arena.length = l.arena.length := by
      rw [hres, setLaneAt_arena_lengthE, setPrevAt_arena_lengthE]
      show (rfeEraseE st1 (keyAt l hd)).arena.length = _
      rw [f1a, h1a]
    have hslotR : ∀ L, (removeFirstTailE st1 (keyAt l hd) hd).header.getD L none =
        postSlotE l hd (l.header.getD L none) L := by
      intro L
      rw [hres, setLaneAt_some_headerE, setPrevAt_headerE]
      show (rfeEraseE st1 (keyAt l hd)).header.getD L none = _
      rw [f1h]
      exact h1slot L
    have hlane_ne : ∀ x : Nat, x ≠ hd → ∀ L,
        laneOf (removeFirstTailE st1 (keyAt l hd) hd) (some x) L = laneOf l (some x) L := by
      intro x hx L
      rw [hres, laneOf_setLaneAt_neE _ _
        (Or.inl (show (some x : Option Nat) ≠ some hd by simpa using hx)),
        laneOf_setPrevAtE]
      exact laneOf_some_eq_of_arenaE (f1a.trans h1a) x L
    obtain ⟨hlanes, hlanes0⟩ := rfe_lanes_preserved hI hslotR hlane_ne
    refine ⟨⟨?_, ?_, ?_, hlanes, hlanes0, ?_, ?_⟩, ?_, ?_, hkeys, hvals,
      ?_, ?_⟩
    · rw [hkfun]
      exact hsorted_t
    · intro b hb
      rw [hkfun]
      exact hI.keysSome b (List.mem_cons_of_mem _ hb)
    · intro b hb
      rw [halen]
      exact hI.size b (List.mem_cons_of_mem _ hb)
    · rw [hres, setLaneAt_lastE, setPrevAt_lastE]
      show (rfeEraseE st1 (keyAt l hd)).last = _
      rw [f1l, h1l, hI.lst]
      exact List.getLast?_cons_cons
    · rw [hres, setLaneAt_lengthE, setPrevAt_lengthE]
      show (rfeEraseE st1 (keyAt l hd)).length - 1 = _
      rw [f1len, h1len, hI.len]
      push_cast [List.length_cons]
      omega
    · rw [hres, setLaneAt_lengthE, setPrevAt_lengthE]
      show (rfeEraseE st1 (keyAt l hd)).length - 1 = _
      rw [f1len, h1len]
    · intro h2 hh2
      have hh2a : h2 = a := by simpa using hh2
      rw [hh2a, hres, prevOf_setLaneAtE]
      exact prevOf_setPrevAt_selfE _ a none hel
    · intro kh hkh2
      rw [hres, setLaneAt_elementsE, setPrevAt_elementsE]
      show (rfeEraseE st1 (keyAt l hd)).elements = _
      rw [f1e kh hkh2, h1n]
    · rw [hres]
      exact laneOf_setLaneAt_nullE _ hd 0


/-- `RemoveFirst` on an empty `part_005` list: nothing happens. -/
theorem RemoveFirst_nilE {l : SkipList K V} (hI : Inv0E l []) :
    RemoveFirst l = (l, none) := by
  have h0 : l.header.getD 0 none = none := hI.lanes0
  unfold RemoveFirst
  rw [h0]

/-- `RemoveFirst` on a non-empty `part_005` list removes and returns
exactly the first chain element, keeps the invariant over the remaining
chain, decrements `length`, clears the new head's backward reference,
keeps every key and value, erases the removed key from the hash index and
nulls the removed element's lane 0. -/
theorem RemoveFirst_consE {l : SkipList K V} {hd : Nat} {t : List Nat}
    (hI : Inv0E l (hd :: t)) :
    (RemoveFirst l).2 = some hd ∧
    Inv0E (RemoveFirst l).1 t ∧
    (RemoveFirst l).1.length = l.length - 1 ∧
    (∀ h2 ∈ t.head?.toList, prevOf (RemoveFirst l).1 h2 = none) ∧
    (∀ i, keyAt (RemoveFirst l).1 i = keyAt l i) ∧
    (∀ i, valueAt (RemoveFirst l).1 i = valueAt l i) ∧
    (∀ kh, keyAt l hd = some kh →
      (RemoveFirst l).1.elements =
        Option.map (fun m => eraseA m kh) l.elements) ∧
    laneOf (RemoveFirst l).1 (some hd) 0 = none := by
  have hh0 : l.header.getD 0 none = some hd := hI.lanes0.1
  have hRF : RemoveFirst l =
      (removeFirstTailE
        ((List.range l.header.length).foldl
          (fun acc level =>
            match acc.header.getD level none, keyAt l hd with
            | some e, some rk =>
              if keyAt acc e = some rk then
                { acc with
                  header := acc.header.set level (laneOf acc (some hd) level) }
              else acc
            | _, _ => acc) l)
        (keyAt l hd) hd, some hd) := by
    unfold RemoveFirst
    rw [hh0]
    rfl
  obtain ⟨r1, r2, r3, r4, r5, r6, r7⟩ :=
    rfe_foldl_run l hd (List.range l.header.length) (List.nodup_range _) l rfl
  have hslotAll : ∀ L,
      ((List.range l.header.length).foldl
        (fun acc level =>
          match acc.header.getD level none, keyAt l hd with
          | some e, some rk =>
            if keyAt acc e = some rk then
              { acc with
                header := acc.header.set level (laneOf acc (some hd) level) }
            else acc
          | _, _ => acc) l).header.getD L none =
      postSlotE l hd (l.header.getD L none) L := by
    intro L
    by_cases hL : L < l.header.length
    · exact r7 L (List.mem_range.mpr hL)
    · rw [r6 L (fun hm => hL (List.mem_range.mp hm))]
      have hnone : l.header.getD L none = none := by
        rw [List.getD_eq_get?, List.get?_eq_none.mpr (by omega)]
        rfl
      rw [hnone]
      unfold postSlotE
      cases keyAt l hd <;> rfl
  obtain ⟨g1, g2, g3, g4, g5, g6, g7⟩ :=
    removeFirstTailE_facts hI _ r1 r2 r3 r4 hslotAll
  rw [hRF]
  exact ⟨rfl, g1, g2, g3, g4, g5, g6, g7⟩

/-- Calling `RemoveFirst` once per chain element leaves the `part_005`
list empty: `First`, `Last` and `Length` all report emptiness. -/
theorem removeFirstNE_empties :
    ∀ (c : List Nat) (l : SkipList K V), Inv0E l c →
      First (removeFirstNE c.length l) = none ∧
      Last (removeFirstNE c.length l) = none ∧
      Length (removeFirstNE c.length l) = 0 := by
  intro c
  induction c with
  | nil =>
    intro l hI
    refine ⟨?_, ?_, ?_⟩
    · show l.header.getD 0 none = none
      exact hI.lanes0
    · show l.last = none
      rw [hI.lst]
      rfl
    · show l.length = 0
      rw [hI.len]
      rfl
  | cons hd t ih =>
    intro l hI
    obtain ⟨-, hInv', -, -, -, -, -, -⟩ := RemoveFirst_consE hI
    have hstep : removeFirstNE (hd :: t).length l =
        removeFirstNE t.length (RemoveFirst l).1 := rfl
    rw [hstep]
    exact ih _ hInv'

end Elem

theorem two_pow_sub_one_div (e d : Nat) : (2 ^ (e + d) - 1) / 2 ^ e = 2 ^ d - 1 := by
  have hpos : 0 < 2 ^ e := Nat.pos_pow_of_pos e (by omega)
  have hd : 0 < 2 ^ d := Nat.pos_pow_of_pos d (by omega)
  have hsplit : 2 ^ (e + d) - 1 = 2 ^ e * (2 ^ d - 1) + (2 ^ e - 1) := by
    have hpad : 2 ^ (e + d) = 2 ^ e * 2 ^ d := pow_add 2 e d
    have hmul : 2 ^ e * (2 ^ d - 1) = 2 ^ e * 2 ^ d - 2 ^ e := Nat.mul_sub_one ..
    have hle : 2 ^ e ≤ 2 ^ e * 2 ^ d := Nat.le_mul_of_pos_right _ hd
    omega
  rw [hsplit, Nat.mul_add_div hpos, Nat.div_eq_of_lt (by omega)]
  omega

theorem elem_mask_eq (m : Nat) (hm : 1 ≤ m) (hm65 : m ≤ 65) :
    Nat.shiftRight (2 ^ 64 - 1) (65 - m) = 2 ^ (m - 1) - 1 := by
  have h64 : (64 : Nat) = (65 - m) + (m - 1) := by omega
  show (2 ^ 64 - 1) >>> (65 - m) = 2 ^ (m - 1) - 1
  rw [Nat.shiftRight_eq_div_pow, h64, two_pow_sub_one_div]

theorem elem_randomLevel_le (m : Nat) (prob : ℚ) (u : Nat) (trials : List Bool)
    (hm : 1 ≤ m) : Elem.randomLevel m prob u trials ≤ m := by
  unfold Elem.randomLevel
  split
  · rename_i h
    obtain ⟨hp, h65⟩ := h
    rw [elem_mask_eq m hm h65]
    have hmask : 2 ^ (m - 1) - 1 < 2 ^ (m - 1) := by
      have := Nat.pos_pow_of_pos (m - 1) (show 0 < 2 by omega)
      omega
    have hlt : Nat.land (2 ^ (m - 1) - 1) u < 2 ^ (m - 1) := by
      show (2 ^ (m - 1) - 1) &&& u < 2 ^ (m - 1)
      rw [Nat.land_comm]
      exact Nat.and_lt_two_pow u hmask
    have := trailingOnes_le_of_lt_two_pow (m - 1) _ hlt
    omega
  · have key : ∀ (ts : List Bool) (level : Nat), level ≤ m →
        Elem.trialLoop m level ts ≤ m := by
      intro ts
      induction ts with
      | nil =>
        intro level hl
        unfold Elem.trialLoop
        split <;> simp [hl]
      | cons t ts ih =>
        intro level hl
        unfold Elem.trialLoop
        split
        · rename_i hlt
          cases t
          · simpa using hl
          · simpa using ih (level + 1) (by omega)
        · exact hl
    exact key trials 1 hm

theorem elem_randomLevel_ge (m : Nat) (prob : ℚ) (u : Nat) (trials : List Bool) :
    1 ≤ Elem.randomLevel m prob u trials := by
  unfold Elem.randomLevel
  split
  · omega
  · have key : ∀ (ts : List Bool) (level : Nat), level ≤ Elem.trialLoop m level ts := by
      intro ts
      induction ts with
      | nil =>
        intro level
        unfold Elem.trialLoop
        split <;> simp
      | cons t ts ih =>
        intro level
        unfold Elem.trialLoop
        split
        · cases t
          · simp
          · simp only [if_true]
            have := ih (level + 1)
            omega
        · exact Nat.le_refl _
    exact key trials 1

theorem sgo_sample_le (u : Nat) : SGo.sampleCoinflipGeoDist32 31 u ≤ 31 := by
  unfold SGo.sampleCoinflipGeoDist32
  have hshift : Nat.shiftRight (2 ^ 32 - 1) (32 - 31) = 2 ^ 31 - 1 := by
    show (2 ^ 32 - 1) >>> (32 - 31) = 2 ^ 31 - 1
    rw [Nat.shiftRight_eq_div_pow]
    norm_num [show (32 : Nat) - 31 = 1 from rfl, two_pow_sub_one_div 1 31]
  rw [hshift]
  have hmask : 2 ^ 31 - 1 < 2 ^ 31 := by norm_num
  have hlt : Nat.land (2 ^ 31 - 1) u < 2 ^ 31 := by
    show (2 ^ 31 - 1) &&& u < 2 ^ 31
    rw [Nat.land_comm]
    exact Nat.and_lt_two_pow u hmask
  exact trailingOnes_le_of_lt_two_pow 31 _ hlt

/-- The freshly constructed `skiplist.go` list (default options: no hash
index, probability 1/2) with an injected generator stream of zero words,
so every sampled node level is 1. -/
def sgoStart : SGo.SkipList Nat Nat :=
  { arena := [], nodes := none, header := List.replicate 32 none,
    last := none, length := 0, prob := 1/2, rng := [0, 0, 0] }

/-- The `skiplist.go` run for C1: `Set(1, 10)` then `Set(1, 20)` on a fresh
list without a hash index, so the second `Set` structurally replaces the
node that is also the last node. -/
def sgoC1 : SGo.SkipList Nat Nat × Nat :=
  SGo.Set (SGo.Set sgoStart 1 10).1 1 20

/-- The `part_006` run for C1: the same two `Set` calls. -/
def sliceC1 : Slice.SkipList Nat Nat × Nat :=
  Slice.Set (Slice.Set (Slice.New Nat Nat [0, 0]) 1 10).1 1 20

/-- C1: evaluation of the code at the failing input.  On a fresh list
without a hash index, `Set(1, 10); Set(1, 20)` creates a replacement node
(handle 1) with no lane-0 successor, yet `Last()` still returns the
detached old node (handle 0, stale value 10) in both `skiplist.go` and
`part_006`: the `l.last.key < key` update condition is false when the
replaced node was the last node.  The claim instead requires `Last()` to
return the newly created node; the `length` half of the invariant does
hold here (`length = 1` matches the one-node lane-0 chain `[1]`). -/
theorem set_stale_last_after_replacing_last :
    SGo.New Nat Nat [] 0 [0, 0, 0] = .ok sgoStart ∧
    sgoC1.2 = 1 ∧
    SGo.laneOf sgoC1.1 (some sgoC1.2) 0 = none ∧
    SGo.chain sgoC1.1 = [1] ∧
    SGo.Length sgoC1.1 = 1 ∧
    SGo.Last sgoC1.1 = some 0 ∧
    SGo.valueAt sgoC1.1 0 = some 10 ∧
    SGo.valueAt sgoC1.1 1 = some 20 ∧
    sliceC1.2 = 1 ∧
    Slice.laneOf sliceC1.1 (some sliceC1.2) 0 = none ∧
    Slice.Last sliceC1.1 = some 0 := by
  refine ⟨?_, rfl, rfl, rfl, rfl, rfl, rfl, rfl, rfl, rfl, rfl⟩
  norm_num [SGo.New, SGo.MaxLevel, sgoStart]

/-- The `skiplist.go` run for C2: `Set(1, 10); Set(2, 20); Set(1, 30)` on a
fresh list without a hash index, so the third `Set` structurally replaces
the first node of a two-node list. -/
def sgoC2 : SGo.SkipList Nat Nat × Nat :=
  SGo.Set (SGo.Set (SGo.Set sgoStart 1 10).1 2 20).1 1 30

/-- C2: evaluation of the code at the failing input.  After
`Set(1, 10); Set(2, 20); Set(1, 30)` on a `skiplist.go` list without a hash
index, the replacement node (handle 2) is the first node of the chain
`[2, 1]`, but its backward reference is `some 0` — the detached old node —
instead of empty: the guard `if node.prev == nil` re-assigns `node.prev`
from the already-rerouted successor.  Backward traversal from `Last()`
visits `[1, 2, 0]`, which is not the reverse `[1, 2]` of the forward
traversal (`part_006` guards the same assignment with `!replaced` and does
not have this defect). -/
theorem set_replace_first_corrupts_backward :
    sgoC2.2 = 2 ∧
    SGo.First sgoC2.1 = some 2 ∧
    SGo.chain sgoC2.1 = [2, 1] ∧
    SGo.prevOf sgoC2.1 2 = some 0 ∧
    SGo.backChain sgoC2.1 = [1, 2, 0] ∧
    (SGo.chain sgoC2.1).reverse = [1, 2] :=
  ⟨rfl, rfl, rfl, rfl, rfl, rfl⟩

/-- A small well-formed `skiplist.go` list (keys 1 and 3, hash index on)
used to instantiate the general theorems. -/
def sgoWitness : SGo.SkipList Nat Nat :=
  { arena := [{ key := 1, value := 10,
                lanes := some 1 :: List.replicate 31 none, prev := none },
              { key := 3, value := 30,
                lanes := List.replicate 32 none, prev := some 0 }],
    nodes := some [(1, 0), (3, 1)],
    header := some 0 :: List.replicate 31 none,
    last := some 1, length := 2, prob := 1/2, rng := [] }

/-- A small well-formed `part_005` list (keys 1 and 2, hash index on,
`maxLevel = 3`) used to instantiate the general theorems. -/
def elemWitness : Elem.SkipList Nat Nat :=
  { arena := [{ key := 1, value := 10, lanes := [some 1], prev := none },
              { key := 2, value := 20, lanes := [none], prev := some 0 }],
    elements := some [(1, 0), (2, 1)],
    header := [some 0, none, none], last := some 1, length := 2,
    maxLevel := 3, prob := 1/2, rng := [], rwMutex := false }

/-- C5: on every well-formed list, the ceiling query (`Search` in
`skiplist.go`, `AtOrAfter` in `part_005`) returns the first node in
ascending lane-0 order whose key is at or above the target, and returns
empty exactly when every key in the list is strictly below the target. -/
theorem ceiling_query_correct (K V : Type) [LinearOrder K] [DecidableEq K]
    (ls : SGo.SkipList K V) (hs : SGo.WF ls)
    (le : Elem.SkipList K V) (he : Elem.WF le) (k : K) :
    SGo.Search ls k =
      ((SGo.chain ls).dropWhile (fun j => Walk.keyLT (SGo.keyAt ls) j k)).head? ∧
    (∀ i, SGo.Search ls k = some i →
      i ∈ SGo.chain ls ∧ Walk.keyLT (SGo.keyAt ls) i k = false) ∧
    (SGo.Search ls k = none ↔
      ∀ a ∈ SGo.chain ls, Walk.keyLT (SGo.keyAt ls) a k = true) ∧
    Elem.AtOrAfter le k =
      ((Elem.chain le).dropWhile (fun j => Walk.keyLT (Elem.keyAt le) j k)).head? ∧
    (∀ i, Elem.AtOrAfter le k = some i →
      i ∈ Elem.chain le ∧ Walk.keyLT (Elem.keyAt le) i k = false) ∧
    (Elem.AtOrAfter le k = none ↔
      ∀ a ∈ Elem.chain le, Walk.keyLT (Elem.keyAt le) a k = true) := by
  have h1 := SGo.Search_eq_ceil hs k
  have h2 := Elem.AtOrAfter_eq_ceil he k
  refine ⟨h1, ?_, ?_, h2, ?_, ?_⟩
  · intro i hi
    rw [h1] at hi
    exact Walk.ceilSpec_mem_ge hi
  · rw [h1]
    exact Walk.ceilSpec_none_iff
  · intro i hi
    rw [h2] at hi
    exact Walk.ceilSpec_mem_ge hi
  · rw [h2]
    exact Walk.ceilSpec_none_iff

theorem ceiling_query_correct_witness :
    SGo.Search sgoWitness 2 =
      ((SGo.chain sgoWitness).dropWhile
        (fun j => Walk.keyLT (SGo.keyAt sgoWitness) j 2)).head? ∧
    (∀ i, SGo.Search sgoWitness 2 = some i →
      i ∈ SGo.chain sgoWitness ∧
      Walk.keyLT (SGo.keyAt sgoWitness) i 2 = false) ∧
    (SGo.Search sgoWitness 2 = none ↔
      ∀ a ∈ SGo.chain sgoWitness,
        Walk.keyLT (SGo.keyAt sgoWitness) a 2 = true) ∧
    Elem.AtOrAfter elemWitness 2 =
      ((Elem.chain elemWitness).dropWhile
        (fun j => Walk.keyLT (Elem.keyAt elemWitness) j 2)).head? ∧
    (∀ i, Elem.AtOrAfter elemWitness 2 = some i →
      i ∈ Elem.chain elemWitness ∧
      Walk.keyLT (Elem.keyAt elemWitness) i 2 = false) ∧
    (Elem.AtOrAfter elemWitness 2 = none ↔
      ∀ a ∈ Elem.chain elemWitness,
        Walk.keyLT (Elem.keyAt elemWitness) a 2 = true) :=
  ceiling_query_correct Nat Nat sgoWitness
    ⟨⟨by decide, rfl, by decide, by decide, by decide, by decide, by decide⟩,
     by decide, by decide, by decide, by decide, by decide, by decide,
     by decide, by decide, by decide⟩
    elemWitness
    ⟨⟨by decide, rfl, by decide, by decide, by decide, by decide, by decide⟩,
     by decide, by decide, by decide, by decide, by decide, by decide,
     by decide, by decide, by decide⟩
    2

/-- C7: on every well-formed `part_005` list, `AtOrBefore(k)` returns the
element at key `k` when one exists and otherwise the same element as
`Before(k)`; `AtOrAfter(k)` returns the element at key `k` when one exists
and otherwise the same element as `After(k)`; and each of the four queries
returns empty when no element satisfies its bound (`AtOrBefore` when the
target is strictly below every key, `Before` when it is at or below every
key, `AtOrAfter` when it is strictly above every key, `After` when it is at
or above every key). -/
theorem nearest_query_relations (K V : Type) [LinearOrder K] [DecidableEq K]
    (l : Elem.SkipList K V) (h : Elem.WF l) (k : K) :
    (∀ i ∈ Elem.chain l, Elem.keyAt l i = some k →
      Elem.AtOrBefore l k = some i ∧ Elem.AtOrAfter l k = some i) ∧
    ((∀ a ∈ Elem.chain l, Elem.keyAt l a ≠ some k) →
      Elem.AtOrBefore l k = Elem.Before l k ∧
      Elem.AtOrAfter l k = Elem.After l k) ∧
    ((∀ a ∈ Elem.chain l, Walk.keyLE (Elem.keyAt l) a k = false) →
      Elem.AtOrBefore l k = none) ∧
    ((∀ a ∈ Elem.chain l, Walk.keyLT (Elem.keyAt l) a k = false) →
      Elem.Before l k = none) ∧
    ((∀ a ∈ Elem.chain l, Walk.keyLT (Elem.keyAt l) a k = true) →
      Elem.AtOrAfter l k = none) ∧
    ((∀ a ∈ Elem.chain l, Walk.keyLE (Elem.keyAt l) a k = true) →
      Elem.After l k = none) :=
  ⟨fun i hi hk => Elem.present_queries h hi hk,
   fun hab => Elem.absent_queries h hab,
   (Elem.boundary_below h).1,
   (Elem.boundary_below h).2,
   (Elem.boundary_above h).1,
   (Elem.boundary_above h).2⟩

theorem nearest_query_relations_witness :
    (∀ i ∈ Elem.chain elemWitness, Elem.keyAt elemWitness i = some 2 →
      Elem.AtOrBefore elemWitness 2 = some i ∧
      Elem.AtOrAfter elemWitness 2 = some i) ∧
    ((∀ a ∈ Elem.chain elemWitness, Elem.keyAt elemWitness a ≠ some 2) →
      Elem.AtOrBefore elemWitness 2 = Elem.Before elemWitness 2 ∧
      Elem.AtOrAfter elemWitness 2 = Elem.After elemWitness 2) ∧
    ((∀ a ∈ Elem.chain elemWitness,
        Walk.keyLE (Elem.keyAt elemWitness) a 2 = false) →
      Elem.AtOrBefore elemWitness 2 = none) ∧
    ((∀ a ∈ Elem.chain elemWitness,
        Walk.keyLT (Elem.keyAt elemWitness) a 2 = false) →
      Elem.Before elemWitness 2 = none) ∧
    ((∀ a ∈ Elem.chain elemWitness,
        Walk.keyLT (Elem.keyAt elemWitness) a 2 = true) →
      Elem.AtOrAfter elemWitness 2 = none) ∧
    ((∀ a ∈ Elem.chain elemWitness,
        Walk.keyLE (Elem.keyAt elemWitness) a 2 = true) →
      Elem.After elemWitness 2 = none) :=
  nearest_query_relations Nat Nat elemWitness
    ⟨⟨by decide, rfl, by decide, by decide, by decide, by decide, by decide⟩,
     by decide, by decide, by decide, by decide, by decide, by decide,
     by decide, by decide, by decide⟩
    2

/-- C9: for every possible output of the seeded random generator, the level
assigned to a newly created node lies in `[1, MaxLevel]`: in the configurable
variant (`part_005`) `randomLevel` stays in `[1, maxLevel]` on both the
`p = 0.5` masked fast path and the general trial path, and in the fixed
variant (`skiplist.go`) the node level `1 + sampleCoinflipGeoDist32(31, rng)`
stays in `[1, 32]`. -/
theorem randomLevel_bounds (m : Nat) (prob : ℚ) (u : Nat) (trials : List Bool)
    (u32 : Nat) (hm : 1 ≤ m) :
    1 ≤ Elem.randomLevel m prob u trials ∧
    Elem.randomLevel m prob u trials ≤ m ∧
    1 ≤ 1 + SGo.sampleCoinflipGeoDist32 31 u32 ∧
    1 + SGo.sampleCoinflipGeoDist32 31 u32 ≤ 32 := by
  refine ⟨elem_randomLevel_ge m prob u trials, elem_randomLevel_le m prob u trials hm,
    by omega, ?_⟩
  have := sgo_sample_le u32
  omega

theorem randomLevel_bounds_witness :
    1 ≤ 4 ∧
    (1 ≤ Elem.randomLevel 4 (1/2) 11 [true, true] ∧
     Elem.randomLevel 4 (1/2) 11 [true, true] ≤ 4 ∧
     1 ≤ 1 + SGo.sampleCoinflipGeoDist32 31 7 ∧
     1 + SGo.sampleCoinflipGeoDist32 31 7 ≤ 32) :=
  ⟨by decide, randomLevel_bounds 4 (1/2) 11 [true, true] 7 (by decide)⟩

/-- C4: in `part_005` (hash index on by default), the option returned by
`WithoutHashmap()` does not disable the hash index: the constructed
instance still carries the hash index, and the option instead enables
thread safety, because `WithoutHashmap` returns `&withThreadSafe{}`.
This theorem evaluates the construction at the failing input: the result
contradicts the claim, which expects `elements = none` and
`rwMutex = false`. -/
theorem withoutHashmap_enables_threadsafe :
    (Elem.New Int Int [Elem.WithoutHashmap] 0 []).toOption.map
      (fun l => (l.elements, l.rwMutex)) = some (some [], true) := by
  norm_num [Elem.New, Elem.WithoutHashmap, Elem.validate, Elem.SkipListOption.apply,
    Except.toOption]

/-- C10: the `part_005` handle accessors are total on the nil handle:
`Next`, `Prev` return the empty handle and `Key`, `Value` return the zero
value of their type when called on `nil`, so stepping past either end of the
list never faults. -/
theorem nil_handle_accessors_total (K V : Type) [Inhabited K] [Inhabited V]
    (arena : List (Elem.Element K V)) :
    Elem.Next arena none = none ∧
    Elem.Prev arena none = none ∧
    Elem.Key arena none = (default : K) ∧
    Elem.Value arena none = (default : V) :=
  ⟨rfl, rfl, rfl, rfl⟩

/-- C6: on every well-formed list, in both variants (`skiplist.go` and
`part_005`, each with or without the hash index): if an element with key
`k` is present, `Remove(k)` returns exactly that element's handle, the
lane-0 order afterwards is the previous order with exactly that element
erased, no remaining element carries the key, `Length()` has decreased by
exactly 1, every element keeps its key and value, and the hash index
(when present) no longer resolves the key; if no element carries the key,
`Remove(k)` returns the empty handle and the entire list state is
unchanged. -/
theorem remove_key_contract (K V : Type) [LinearOrder K] [DecidableEq K]
    (ls : SGo.SkipList K V) (hs : SGo.WF ls)
    (le : Elem.SkipList K V) (he : Elem.WF le) (k : K) :
    (∀ j0, j0 ∈ SGo.chain ls → SGo.keyAt ls j0 = some k →
      (SGo.Remove ls k).2 = some j0 ∧
      SGo.chain (SGo.Remove ls k).1 = (SGo.chain ls).erase j0 ∧
      (∀ a ∈ SGo.chain (SGo.Remove ls k).1,
        SGo.keyAt (SGo.Remove ls k).1 a ≠ some k) ∧
      SGo.Length (SGo.Remove ls k).1 = SGo.Length ls - 1 ∧
      (∀ i, SGo.keyAt (SGo.Remove ls k).1 i = SGo.keyAt ls i) ∧
      (∀ i, SGo.valueAt (SGo.Remove ls k).1 i = SGo.valueAt ls i) ∧
      (∀ m, (SGo.Remove ls k).1.nodes = some m → SGo.lookupA m k = none)) ∧
    ((∀ a ∈ SGo.chain ls, SGo.keyAt ls a ≠ some k) →
      SGo.Remove ls k = (ls, none)) ∧
    (∀ j0, j0 ∈ Elem.chain le → Elem.keyAt le j0 = some k →
      (Elem.Remove le k).2 = some j0 ∧
      Elem.chain (Elem.Remove le k).1 = (Elem.chain le).erase j0 ∧
      (∀ a ∈ Elem.chain (Elem.Remove le k).1,
        Elem.keyAt (Elem.Remove le k).1 a ≠ some k) ∧
      Elem.Length (Elem.Remove le k).1 = Elem.Length le - 1 ∧
      (∀ i, Elem.keyAt (Elem.Remove le k).1 i = Elem.keyAt le i) ∧
      (∀ i, Elem.valueAt (Elem.Remove le k).1 i = Elem.valueAt le i) ∧
      (∀ m, (Elem.Remove le k).1.elements = some m →
        Elem.lookupA m k = none)) ∧
    ((∀ a ∈ Elem.chain le, Elem.keyAt le a ≠ some k) →
      Elem.Remove le k = (le, none)) := by
  refine ⟨?_, fun hab => SGo.Remove_absent hs hab, ?_,
    fun hab => Elem.Remove_absentE he hab⟩
  · intro j0 hj hk
    obtain ⟨f1, f2, f3, f4, f5, f6, f7, f8⟩ := SGo.Remove_present hs hj hk
    have hnd := Walk.nodup_of_sorted hs.lanesWF.sorted
    refine ⟨f1, f2, ?_, f3, f4, f5, ?_⟩
    · intro a ha hka
      rw [f2] at ha
      obtain ⟨hane, hac⟩ := hnd.mem_erase_iff.mp ha
      rw [f4 a] at hka
      exact hane (Walk.keys_unique hs.lanesWF.sorted hac hj hka hk)
    · intro m hm
      rw [f6] at hm
      cases hn : ls.nodes with
      | none =>
        rw [hn] at hm
        exact absurd hm (by simp)
      | some m0 =>
        rw [hn] at hm
        simp only [Option.map_some'] at hm
        have hme : SGo.eraseA m0 k = m := Option.some.inj hm
        have hmnd : (m0.map Prod.fst).Nodup := by
          have := hs.mapNodup
          rw [hn] at this
          exact this
        rw [← hme]
        exact SGo.lookupA_eraseA_self hmnd k
  · intro j0 hj hk
    obtain ⟨f1, f2, f3, f4, f5, f6, f7, f8⟩ := Elem.Remove_presentE he hj hk
    have hnd := Walk.nodup_of_sorted he.lanesWF.sorted
    refine ⟨f1, f2, ?_, f3, f4, f5, ?_⟩
    · intro a ha hka
      rw [f2] at ha
      obtain ⟨hane, hac⟩ := hnd.mem_erase_iff.mp ha
      rw [f4 a] at hka
      exact hane (Walk.keys_unique he.lanesWF.sorted hac hj hka hk)
    · intro m hm
      rw [f6] at hm
      cases hn : le.elements with
      | none =>
        rw [hn] at hm
        exact absurd hm (by simp)
      | some m0 =>
        rw [hn] at hm
        simp only [Option.map_some'] at hm
        have hme : Elem.eraseA m0 k = m := Option.some.inj hm
        have hmnd : (m0.map Prod.fst).Nodup := by
          have := he.mapNodup
          rw [hn] at this
          exact this
        rw [← hme]
        exact Elem.lookupA_eraseA_selfE hmnd k

theorem remove_key_contract_witness :
    (∀ j0, j0 ∈ SGo.chain sgoWitness → SGo.keyAt sgoWitness j0 = some 3 →
      (SGo.Remove sgoWitness 3).2 = some j0 ∧
      SGo.chain (SGo.Remove sgoWitness 3).1 = (SGo.chain sgoWitness).erase j0 ∧
      (∀ a ∈ SGo.chain (SGo.Remove sgoWitness 3).1,
        SGo.keyAt (SGo.Remove sgoWitness 3).1 a ≠ some 3) ∧
      SGo.Length (SGo.Remove sgoWitness 3).1 = SGo.Length sgoWitness - 1 ∧
      (∀ i, SGo.keyAt (SGo.Remove sgoWitness 3).1 i = SGo.keyAt sgoWitness i) ∧
      (∀ i, SGo.valueAt (SGo.Remove sgoWitness 3).1 i = SGo.valueAt sgoWitness i) ∧
      (∀ m, (SGo.Remove sgoWitness 3).1.nodes = some m → SGo.lookupA m 3 = none)) ∧
    ((∀ a ∈ SGo.chain sgoWitness, SGo.keyAt sgoWitness a ≠ some 3) →
      SGo.Remove sgoWitness 3 = (sgoWitness, none)) ∧
    (∀ j0, j0 ∈ Elem.chain elemWitness → Elem.keyAt elemWitness j0 = some 3 →
      (Elem.Remove elemWitness 3).2 = some j0 ∧
      Elem.chain (Elem.Remove elemWitness 3).1 = (Elem.chain elemWitness).erase j0 ∧
      (∀ a ∈ Elem.chain (Elem.Remove elemWitness 3).1,
        Elem.keyAt (Elem.Remove elemWitness 3).1 a ≠ some 3) ∧
      Elem.Length (Elem.Remove elemWitness 3).1 = Elem.Length elemWitness - 1 ∧
      (∀ i, Elem.keyAt (Elem.Remove elemWitness 3).1 i = Elem.keyAt elemWitness i) ∧
      (∀ i, Elem.valueAt (Elem.Remove elemWitness 3).1 i = Elem.valueAt elemWitness i) ∧
      (∀ m, (Elem.Remove elemWitness 3).1.elements = some m →
        Elem.lookupA m 3 = none)) ∧
    ((∀ a ∈ Elem.chain elemWitness, Elem.keyAt elemWitness a ≠ some 3) →
      Elem.Remove elemWitness 3 = (elemWitness, none)) :=
  remove_key_contract Nat Nat sgoWitness
    ⟨⟨by decide, rfl, by decide, by decide, by decide, by decide, by decide⟩,
     by decide, by decide, by decide, by decide, by decide, by decide,
     by decide, by decide, by decide⟩
    elemWitness
    ⟨⟨by decide, rfl, by decide, by decide, by decide, by decide, by decide⟩,
     by decide, by decide, by decide, by decide, by decide, by decide,
     by decide, by decide, by decide⟩
    3


/-- C3 (corrected): on every well-formed list, the removed element's
references are not both nulled before `Remove` returns the handle.  In
`skiplist.go` the returned node keeps both its lane-0 forward reference
and its backward reference exactly as they were before the call; in
`part_005` the returned element's lane-0 forward reference is nulled
(`elem.lanes[0] = nil`), but its backward reference keeps its former
value, so `Prev()` on the returned handle is empty only when the removed
element was the first element. -/
theorem remove_detach_refs (K V : Type) [LinearOrder K] [DecidableEq K]
    (ls : SGo.SkipList K V) (hs : SGo.WF ls)
    (le : Elem.SkipList K V) (he : Elem.WF le) (k : K) :
    (∀ j0, j0 ∈ SGo.chain ls → SGo.keyAt ls j0 = some k →
      SGo.laneOf (SGo.Remove ls k).1 (some j0) 0 =
        SGo.laneOf ls (some j0) 0 ∧
      SGo.prevOf (SGo.Remove ls k).1 j0 = SGo.prevOf ls j0) ∧
    (∀ j0, j0 ∈ Elem.chain le → Elem.keyAt le j0 = some k →
      Elem.laneOf (Elem.Remove le k).1 (some j0) 0 = none ∧
      Elem.prevOf (Elem.Remove le k).1 j0 = Elem.prevOf le j0) := by
  refine ⟨?_, ?_⟩
  · intro j0 hj hk
    obtain ⟨-, -, -, -, -, -, f7, f8⟩ := SGo.Remove_present hs hj hk
    exact ⟨f7, f8⟩
  · intro j0 hj hk
    obtain ⟨-, -, -, -, -, -, f7, f8⟩ := Elem.Remove_presentE he hj hk
    exact ⟨f7, f8⟩

theorem remove_detach_refs_witness :
    (∀ j0, j0 ∈ SGo.chain sgoWitness → SGo.keyAt sgoWitness j0 = some 3 →
      SGo.laneOf (SGo.Remove sgoWitness 3).1 (some j0) 0 =
        SGo.laneOf sgoWitness (some j0) 0 ∧
      SGo.prevOf (SGo.Remove sgoWitness 3).1 j0 =
        SGo.prevOf sgoWitness j0) ∧
    (∀ j0, j0 ∈ Elem.chain elemWitness →
      Elem.keyAt elemWitness j0 = some 3 →
      Elem.laneOf (Elem.Remove elemWitness 3).1 (some j0) 0 = none ∧
      Elem.prevOf (Elem.Remove elemWitness 3).1 j0 =
        Elem.prevOf elemWitness j0) :=
  remove_detach_refs Nat Nat sgoWitness
    ⟨⟨by decide, rfl, by decide, by decide, by decide, by decide, by decide⟩,
     by decide, by decide, by decide, by decide, by decide, by decide,
     by decide, by decide, by decide⟩
    elemWitness
    ⟨⟨by decide, rfl, by decide, by decide, by decide, by decide, by decide⟩,
     by decide, by decide, by decide, by decide, by decide, by decide,
     by decide, by decide, by decide⟩
    3

/-- C3: evaluation of the code at concrete inputs refuting the original
claim.  Removing the first node (key 1) of the two-node `skiplist.go`
list leaves the returned node's lane-0 forward reference pointing at its
old successor (handle 1), and removing the last node (key 3) leaves the
returned node's backward reference pointing at its old predecessor
(handle 0) — neither `Next()` nor `Prev()` of the returned handle is
empty in general.  In `part_005`, removing key 2 nulls the returned
element's lane 0, but its backward reference still holds handle 0, so
`Prev()` on the returned handle is not empty. -/
theorem remove_detach_refs_counterexample :
    (SGo.Remove sgoWitness 1).2 = some 0 ∧
    SGo.laneOf (SGo.Remove sgoWitness 1).1 (some 0) 0 = some 1 ∧
    (SGo.Remove sgoWitness 3).2 = some 1 ∧
    SGo.prevOf (SGo.Remove sgoWitness 3).1 1 = some 0 ∧
    (Elem.Remove elemWitness 2).2 = some 1 ∧
    Elem.laneOf (Elem.Remove elemWitness 2).1 (some 1) 0 = none ∧
    Elem.prevOf (Elem.Remove elemWitness 2).1 1 = some 0 :=
  ⟨rfl, rfl, rfl, rfl, rfl, rfl, rfl⟩

/-- C8: on every well-formed list, in both variants: `RemoveFirst()` on a
non-empty list removes and returns exactly the handle that `First()`
returns — the element below every remaining key — decrements `Length()`
by 1, clears the new first element's backward reference, erases the
removed key from the hash index when present, and leaves `last` empty
exactly when the list became empty; on an empty list it returns the empty
handle and changes nothing.  Consequently `n` calls on an `n`-element
list empty it, after which `First()` and `Last()` return empty. -/
theorem removefirst_min_and_drain (K V : Type) [LinearOrder K]
    [DecidableEq K]
    (ls : SGo.SkipList K V) (hs : SGo.WF ls)
    (le : Elem.SkipList K V) (he : Elem.WF le) :
    (SGo.chain ls = [] → SGo.RemoveFirst ls = (ls, none)) ∧
    (∀ hd t, SGo.chain ls = hd :: t →
      SGo.First ls = some hd ∧
      (SGo.RemoveFirst ls).2 = some hd ∧
      (∀ a ∈ t, Walk.nodeLT (SGo.keyAt ls) hd a = true) ∧
      SGo.Length (SGo.RemoveFirst ls).1 = SGo.Length ls - 1 ∧
      (∀ h2 ∈ t.head?.toList, SGo.prevOf (SGo.RemoveFirst ls).1 h2 = none) ∧
      (∀ kh, SGo.keyAt ls hd = some kh →
        (SGo.RemoveFirst ls).1.nodes =
          Option.map (fun m => SGo.eraseA m kh) ls.nodes) ∧
      (SGo.Last (SGo.RemoveFirst ls).1 = none ↔ t = [])) ∧
    (SGo.First (SGo.removeFirstN (SGo.chain ls).length ls) = none ∧
     SGo.Last (SGo.removeFirstN (SGo.chain ls).length ls) = none ∧
     SGo.Length (SGo.removeFirstN (SGo.chain ls).length ls) = 0) ∧
    (Elem.chain le = [] → Elem.RemoveFirst le = (le, none)) ∧
    (∀ hd t, Elem.chain le = hd :: t →
      Elem.First le = some hd ∧
      (Elem.RemoveFirst le).2 = some hd ∧
      (∀ a ∈ t, Walk.nodeLT (Elem.keyAt le) hd a = true) ∧
      Elem.Length (Elem.RemoveFirst le).1 = Elem.Length le - 1 ∧
      (∀ h2 ∈ t.head?.toList,
        Elem.prevOf (Elem.RemoveFirst le).1 h2 = none) ∧
      (∀ kh, Elem.keyAt le hd = some kh →
        (Elem.RemoveFirst le).1.elements =
          Option.map (fun m => Elem.eraseA m kh) le.elements) ∧
      (Elem.Last (Elem.RemoveFirst le).1 = none ↔ t = [])) ∧
    (Elem.First (Elem.removeFirstNE (Elem.chain le).length le) = none ∧
     Elem.Last (Elem.removeFirstNE (Elem.chain le).length le) = none ∧
     Elem.Length (Elem.removeFirstNE (Elem.chain le).length le) = 0) := by
  refine ⟨?_, ?_, ?_, ?_, ?_, ?_⟩
  · intro hch
    refine SGo.RemoveFirst_nil ?_
    have := SGo.inv0_of_wf hs
    rwa [hch] at this
  · intro hd t hch
    have hI : SGo.Inv0 ls (hd :: t) := by
      have := SGo.inv0_of_wf hs
      rwa [hch] at this
    obtain ⟨g1, g2, g3, g4, g5, g6, g7⟩ := SGo.RemoveFirst_cons hI
    refine ⟨hI.chain0.1, g1, ?_, g3, g4, g7, ?_⟩
    · intro a ha
      have hsorted := hs.lanesWF.sorted
      rw [hch] at hsorted
      exact (List.pairwise_cons.mp hsorted).1 a ha
    · show (SGo.RemoveFirst ls).1.last = none ↔ t = []
      rw [g2.lst]
      exact List.getLast?_eq_none
  · exact SGo.removeFirstN_empties (SGo.chain ls) ls (SGo.inv0_of_wf hs)
  · intro hch
    refine Elem.RemoveFirst_nilE ?_
    have := Elem.inv0E_of_wf he
    rwa [hch] at this
  · intro hd t hch
    have hI : Elem.Inv0E le (hd :: t) := by
      have := Elem.inv0E_of_wf he
      rwa [hch] at this
    obtain ⟨g1, g2, g3, g4, g5, g6, g7, g8⟩ := Elem.RemoveFirst_consE hI
    refine ⟨hI.lanes0.1, g1, ?_, g3, g4, g7, ?_⟩
    · intro a ha
      have hsorted := he.lanesWF.sorted
      rw [hch] at hsorted
      exact (List.pairwise_cons.mp hsorted).1 a ha
    · show (Elem.RemoveFirst le).1.last = none ↔ t = []
      rw [g2.lst]
      exact List.getLast?_eq_none
  · exact Elem.removeFirstNE_empties (Elem.chain le) le (Elem.inv0E_of_wf he)

theorem removefirst_min_and_drain_witness :
    (SGo.chain sgoWitness = [] → SGo.RemoveFirst sgoWitness = (sgoWitness, none)) ∧
    (∀ hd t, SGo.chain sgoWitness = hd :: t →
      SGo.First sgoWitness = some hd ∧
      (SGo.RemoveFirst sgoWitness).2 = some hd ∧
      (∀ a ∈ t, Walk.nodeLT (SGo.keyAt sgoWitness) hd a = true) ∧
      SGo.Length (SGo.RemoveFirst sgoWitness).1 = SGo.Length sgoWitness - 1 ∧
      (∀ h2 ∈ t.head?.toList, SGo.prevOf (SGo.RemoveFirst sgoWitness).1 h2 = none) ∧
      (∀ kh, SGo.keyAt sgoWitness hd = some kh →
        (SGo.RemoveFirst sgoWitness).1.nodes =
          Option.map (fun m => SGo.eraseA m kh) sgoWitness.nodes) ∧
      (SGo.Last (SGo.RemoveFirst sgoWitness).1 = none ↔ t = [])) ∧
    (SGo.First (SGo.removeFirstN (SGo.chain sgoWitness).length sgoWitness) = none ∧
     SGo.Last (SGo.removeFirstN (SGo.chain sgoWitness).length sgoWitness) = none ∧
     SGo.Length (SGo.removeFirstN (SGo.chain sgoWitness).length sgoWitness) = 0) ∧
    (Elem.chain elemWitness = [] → Elem.RemoveFirst elemWitness = (elemWitness, none)) ∧
    (∀ hd t, Elem.chain elemWitness = hd :: t →
      Elem.First elemWitness = some hd ∧
      (Elem.RemoveFirst elemWitness).2 = some hd ∧
      (∀ a ∈ t, Walk.nodeLT (Elem.keyAt elemWitness) hd a = true) ∧
      Elem.Length (Elem.RemoveFirst elemWitness).1 = Elem.Length elemWitness - 1 ∧
      (∀ h2 ∈ t.head?.toList,
        Elem.prevOf (Elem.RemoveFirst elemWitness).1 h2 = none) ∧
      (∀ kh, Elem.keyAt elemWitness hd = some kh →
        (Elem.RemoveFirst elemWitness).1.elements =
          Option.map (fun m => Elem.eraseA m kh) elemWitness.elements) ∧
      (Elem.Last (Elem.RemoveFirst elemWitness).1 = none ↔ t = [])) ∧
    (Elem.First (Elem.removeFirstNE (Elem.chain elemWitness).length elemWitness) = none ∧
     Elem.Last (Elem.removeFirstNE (Elem.chain elemWitness).length elemWitness) = none ∧
     Elem.Length (Elem.removeFirstNE (Elem.chain elemWitness).length elemWitness) = 0) :=
  removefirst_min_and_drain Nat Nat sgoWitness
    ⟨⟨by decide, rfl, by decide, by decide, by decide, by decide, by decide⟩,
     by decide, by decide, by decide, by decide, by decide, by decide,
     by decide, by decide, by decide⟩
    elemWitness
    ⟨⟨by decide, rfl, by decide, by decide, by decide, by decide, by decide⟩,
     by decide, by decide, by decide, by decide, by decide, by decide,
     by decide, by decide, by decide⟩


end SkiplistVerification
